import Mathlib

/-!
# Two-level demand paging simulator (`os3-2.c`)

A shallow embedding of `os3-2.c` and theorems about it.

* `pas` (an array of 8192 `unsigned char`) is one natural number written in
  base 256: the byte at offset `a` is digit `a` (`read`), and `store` replaces
  one digit.  A `pte *` is the byte offset of the entry inside `pas`.  A `pte`
  is four `unsigned char` fields, so `sizeof(pte) = 4` and the fields `frame`,
  `vflag`, `ref`, `pad` sit at offsets 0, 1, 2, 3 of the entry.
* `int` variables are `Int`; a store into an `unsigned char` field is taken
  modulo 256, and the two totals of `print_page_tables` are added up with
  `int_add`, which wraps at 32 bits.
* `printf` appends one `Line` to the output kept in the state.
* `stdin` is a list of complete process records; the end of the list is the
  point where `fread` comes back short.
-/

namespace OsHw

/-! ## Constants (lines 5-15) -/

@[simp] def PAGESIZE : Nat := 32
@[simp] def PAS_FRAMES : Int := 256
@[simp] def PAS_SIZE : Nat := PAGESIZE * 256
@[simp] def VAS_PAGES : Nat := 64
@[simp] def PTE_SIZE : Nat := 4
@[simp] def PAGE_INVALID : Nat := 0
@[simp] def PAGE_VALID : Nat := 1
@[simp] def MAX_PROCESSES : Nat := 10
@[simp] def L1_PT_ENTRIES : Nat := 8
@[simp] def L2_PT_ENTRIES : Nat := 8

/-! ## Data model (lines 17-34) -/

/-- The byte array `pas`, as the number whose digit `a` in base 256 is `pas[a]`. -/
abbrev Mem := Nat

/-- The byte `pas[a]`. -/
@[irreducible] def read (pas : Mem) (a : Nat) : Nat := pas / 256 ^ a % 256

/-- Field `frame` of the `pte` at byte offset `e`. -/
def pte_frame (pas : Mem) (e : Nat) : Nat := read pas e

/-- Field `vflag` of the `pte` at byte offset `e`. -/
def pte_vflag (pas : Mem) (e : Nat) : Nat := read pas (e + 1)

/-- Field `ref` of the `pte` at byte offset `e`. -/
def pte_ref (pas : Mem) (e : Nat) : Nat := read pas (e + 2)

/-- Store of one byte, `pas[a] = v`: digit `a` becomes `v % 256`, the digits
above and below it stay. -/
@[irreducible] def store (pas : Mem) (a v : Nat) : Mem :=
  pas / 256 ^ (a + 1) * 256 ^ (a + 1) + v % 256 * 256 ^ a + pas % 256 ^ a

/-- The call `memset(&pas[base], c, n)`: the bytes `base`, ..., `base + n - 1`
are stored one after the other. -/
def memset (pas : Mem) (base c : Nat) : Nat → Mem
  | 0 => pas
  | n + 1 => store (memset pas base c n) (base + n) c

/-- The struct `process`; `L1_page_table` is the byte offset in `pas` the pointer refers to. -/
structure process where
  pid : Int
  ref_len : Int
  references : List Nat
  L1_page_table : Nat
  page_faults : Int
  ref_count : Int

/-- One line written to standard output, with the values substituted in its format. -/
inductive Line where
  | load_start
  | load_end
  | proc_header (pid ref_len : Int)
  | proc_refs (refs : List Nat)
  | sim_start
  | sim_end
  | out_of_memory
  | l1_fault (pid idx : Int) (page frame : Nat)
  | l2_fault (pid idx : Int) (page l1frame : Nat) (f : Int)
  | l2_hit (pid idx : Int) (page l1frame l2frame : Nat)
  | proc_summary (pid frames faults refs : Int)
  | l1_pte (j frame : Nat)
  | l2_pte (page frame ref : Nat)
  | total (allocated faults refs : Int)
  deriving DecidableEq, Repr

/-- The globals `pas` and `allocated_frame_count`, the array `procs` of `main`
(its first `count` elements) and the output written so far. -/
structure State where
  pas : Mem
  allocated_frame_count : Int
  procs : List process
  out : List Line

/-- The state at program start: `pas` is zero-filled, no frame is allocated. -/
def State.start : State := ⟨0, 0, [], []⟩

/-- One `printf`. -/
def print (s : State) (l : Line) : State := { s with out := s.out ++ [l] }

/-! ## Allocation (lines 36-52) -/

/-- Lines 36-40: returns -1 when no frame is left, else the counter, which it then advances. -/
def allocate_frame (s : State) : Int × State :=
  if s.allocated_frame_count ≥ PAS_FRAMES then (-1, s)
  else (s.allocated_frame_count,
        { s with allocated_frame_count := s.allocated_frame_count + 1 })

/-- Lines 45-52: `none` is `NULL`; otherwise the byte offset of the zeroed frame. -/
def allocate_pagetable_frame (s : State) : Option Nat × State :=
  match allocate_frame s with
  | (frame, s1) =>
    if frame = -1 then (none, s1)
    else
      let page_table_ptr := (frame * (PAGESIZE : Int)).toNat
      (some page_table_ptr, { s1 with pas := memset s1.pas page_table_ptr 0 PAGESIZE })

/-! ## Loading (lines 54-74) -/

/-- Lines 54-74.  The record read is the head of `input`; the result is the
return value, the rest of the input and the new state.  On return value 1 the
process has been stored in `procs[count]`. -/
def load_process (input : List (Int × List Nat)) (s : State) :
    Int × List (Int × List Nat) × State :=
  match input with
  | [] => (0, [], s)
  | (pid, refs) :: rest =>
    let s1 := print (print s (.proc_header pid refs.length)) (.proc_refs refs)
    match allocate_pagetable_frame s1 with
    | (none, s2) => (-1, rest, s2)
    | (some tbl, s2) =>
      (1, rest, { s2 with procs := s2.procs ++ [⟨pid, refs.length, refs, tbl, 0, 0⟩] })

/-! ## Simulation (lines 76-133) -/

/-- How one pass through the body of the `for` loop (lines 83-126) ends. -/
inductive Outcome where
  | skipped
  | completed (s : State)
  | aborted (s : State)

/-- Lines 94-104, entered with `l1_entry = &p->L1_page_table[l1_index]`:
`none` when `allocate_pagetable_frame` returns `NULL`. -/
def l1_walk (s : State) (p : process) (page l1_entry : Nat) : Option State :=
  if pte_vflag s.pas l1_entry = PAGE_INVALID then
    match allocate_pagetable_frame s with
    | (none, _) => none
    | (some new_L2, s1) =>
      -- `new_L2 - (pte *)pas` counts in units of `sizeof(pte)`, and `pas` is offset 0
      let frame := ((new_L2 - 0) / PTE_SIZE / PAGESIZE) % 256
      let pas1 := store s1.pas l1_entry frame
      let pas2 := store pas1 (l1_entry + 1) PAGE_VALID
      some (print { s1 with pas := pas2 }
        (.l1_fault p.pid (p.ref_count - 1) page (pte_frame pas2 l1_entry)))
  else some s

/-- Lines 107-126 for `p = &procs[i]`. -/
def l2_walk (s : State) (i : Nat) (p : process) (page l1_entry l2_index : Nat) : Outcome :=
  let L2_base := pte_frame s.pas l1_entry * PAGESIZE
  let l2_entry := L2_base + l2_index * PTE_SIZE
  if pte_vflag s.pas l2_entry = PAGE_INVALID then
    match allocate_frame s with
    | (f, s1) =>
      if f = -1 then .aborted (print s1 .out_of_memory)
      else
        let pas1 := store s1.pas l2_entry (f % 256).toNat
        let pas2 := store pas1 (l2_entry + 1) PAGE_VALID
        let pas3 := store pas2 (l2_entry + 2) 1
        let p1 := { p with page_faults := p.page_faults + 1 }
        .completed (print { s1 with pas := pas3, procs := s1.procs.set i p1 }
          (.l2_fault p1.pid (p1.ref_count - 1) page (pte_frame pas3 l1_entry) f))
  else
    let pas1 := store s.pas (l2_entry + 2) ((pte_ref s.pas l2_entry + 1) % 256)
    .completed (print { s with pas := pas1 }
      (.l2_hit p.pid (p.ref_count - 1) page (pte_frame pas1 l1_entry) (pte_frame pas1 l2_entry)))

/-- Lines 83-126 for `p = &procs[i]`: `skipped` is the `continue` of line 84,
`aborted` the `return` of line 98 or 114. -/
def translate (s0 : State) (i : Nat) (p0 : process) : Outcome :=
  if p0.ref_count ≥ p0.ref_len then .skipped
  else
    let page := p0.references.getD p0.ref_count.toNat 0
    let p := { p0 with ref_count := p0.ref_count + 1 }
    let s := { s0 with procs := s0.procs.set i p }
    let l1_index := page / L2_PT_ENTRIES
    let l2_index := page % L2_PT_ENTRIES
    let l1_entry := p.L1_page_table + l1_index * PTE_SIZE
    match l1_walk s p page l1_entry with
    | none => .aborted (print s .out_of_memory)
    | some s1 => l2_walk s1 i p page l1_entry l2_index

/-- One reference processed by `simulate`: the index `i` of the process in
`procs`, the page it read, the state on entry to the loop body, the state on
leaving it, and whether the body ended in the `return` of line 98 or 114. -/
structure Step where
  i : Nat
  page : Nat
  pre : State
  post : State
  oom : Bool

/-- Result of the `for` loop of one cycle. -/
structure LoopResult where
  s : State
  finished : Bool
  returned : Bool
  steps : List Step

/-- Lines 82-127, for the indices `i` still to visit. -/
def for_loop : List Nat → State → Bool → LoopResult
  | [], s, finished => ⟨s, finished, false, []⟩
  | i :: rest, s, finished =>
    match s.procs[i]? with
    | none => for_loop rest s finished
    | some p =>
      let page := p.references.getD p.ref_count.toNat 0
      match translate s i p with
      | .skipped => for_loop rest s finished
      | .completed s1 =>
        let r := for_loop rest s1 false
        { r with steps := ⟨i, page, s, s1, false⟩ :: r.steps }
      | .aborted s1 => ⟨s1, false, true, [⟨i, page, s, s1, true⟩]⟩

/-- Result of `simulate`: the final state, whether it left through the `return`
of line 98 or 114, the references processed, and the number of passes through
the body of the `while` loop. -/
structure SimResult where
  s : State
  returned : Bool
  steps : List Step
  cycles : Nat

/-- Lines 79-130: the `while (1)` loop, for at most `fuel` cycles. -/
def while_loop : Nat → State → SimResult
  | 0, s => ⟨s, false, [], 0⟩
  | fuel + 1, s =>
    let r := for_loop (List.range s.procs.length) s true
    if r.returned then ⟨r.s, true, r.steps, 1⟩
    else if r.finished then ⟨r.s, false, r.steps, 1⟩
    else
      let r2 := while_loop fuel r.s
      ⟨r2.s, r2.returned, r.steps ++ r2.steps, r2.cycles + 1⟩

/-- A number of cycles after which the loop has ended: one more than the
largest number of references a process has left. -/
def cycles (s : State) : Nat :=
  (s.procs.map (fun p => (p.ref_len - p.ref_count).toNat)).foldr max 0 + 1

/-- Lines 76-133. `returned` tells that `simulate` left through line 98 or 114. -/
def simulate (s : State) : SimResult :=
  let r := while_loop (cycles s) (print s .sim_start)
  if r.returned then r else { r with s := print r.s .sim_end }

/-! ## Report (lines 136-168) -/

/-- The sum of two `int`s as the machine computes it (lines 162-163): modulo
2^32, read as a signed 32-bit number. -/
def int_add (a b : Int) : Int := (a + b + 2147483648) % 4294967296 - 2147483648

/-- Lines 151-158 for the table in frame `frame` under L1 index `j`. -/
def l2_lines (pas : Mem) (j frame : Nat) : List Line :=
  (List.range L2_PT_ENTRIES).filterMap (fun k =>
    let l2_entry := frame * PAGESIZE + k * PTE_SIZE
    if pte_vflag pas l2_entry = PAGE_VALID then
      some (.l2_pte (j * L2_PT_ENTRIES + k) (pte_frame pas l2_entry) (pte_ref pas l2_entry))
    else none)

/-- Lines 145-160 for one process. -/
def l1_lines (pas : Mem) (p : process) : List Line :=
  ((List.range L1_PT_ENTRIES).map (fun j =>
    let l1_entry := p.L1_page_table + j * PTE_SIZE
    if pte_vflag pas l1_entry = PAGE_VALID then
      Line.l1_pte j (pte_frame pas l1_entry) :: l2_lines pas j (pte_frame pas l1_entry)
    else [])).flatten

/-- The lines printed by lines 136-168. -/
def report_lines (s : State) : List Line :=
  let total_allocated := s.allocated_frame_count
  let body := (s.procs.map (fun p =>
    Line.proc_summary p.pid (1 + p.page_faults) p.page_faults p.ref_count
      :: l1_lines s.pas p)).flatten
  let total_faults := s.procs.foldl (fun acc p => int_add acc p.page_faults) 0
  let total_refs := s.procs.foldl (fun acc p => int_add acc p.ref_count) 0
  body ++ [.total total_allocated total_faults total_refs]

/-- Lines 136-168. -/
def print_page_tables (s : State) : State :=
  { s with out := s.out ++ report_lines s }

/-! ## `main` (lines 171-196) -/

/-- Lines 176-185, for at most `k` more processes; the flag tells that
`load_process` returned -1. -/
def load_loop : Nat → List (Int × List Nat) → State → Bool × State
  | 0, _, s => (false, s)
  | k + 1, input, s =>
    match load_process input s with
    | (ret, rest, s1) =>
      if ret = 0 then (false, s1)
      else if ret = -1 then (true, print s1 .out_of_memory)
      else load_loop k rest s1

/-- The state in which `main` calls `simulate` (lines 172-186), if loading did not fail. -/
def loaded (input : List (Int × List Nat)) : Option State :=
  match load_loop MAX_PROCESSES input (print State.start .load_start) with
  | (true, _) => none
  | (false, s) => some (print s .load_end)

/-- Lines 171-196: the exit status and the final state. -/
def main (input : List (Int × List Nat)) : Int × State :=
  match load_loop MAX_PROCESSES input (print State.start .load_start) with
  | (true, s) => (1, s)
  | (false, s) =>
    let r := simulate (print s .load_end)
    (0, print_page_tables r.s)


/-! ## Notions used by the statements -/

/-- The values returned by `n` successive calls of `allocate_frame`, first call first. -/
def allocate_frame_calls : Nat → State → List Int
  | 0, _ => []
  | n + 1, s => (allocate_frame s).1 :: allocate_frame_calls n (allocate_frame s).2

/-- Byte offset of the L1 entry that `simulate` selects for `page` (line 91). -/
def l1_entry_of (p : process) (page : Nat) : Nat :=
  p.L1_page_table + page / L2_PT_ENTRIES * PTE_SIZE

/-- Byte offset of the L2 entry that `simulate` selects for `page` (lines 107-108),
read through the L1 entry as it stands in `pas`. -/
def l2_entry_of (pas : Mem) (p : process) (page : Nat) : Nat :=
  pte_frame pas (l1_entry_of p page) * PAGESIZE + page % L2_PT_ENTRIES * PTE_SIZE

/-- Frames recorded in the valid entries of the table at byte offset `tbl`. -/
def valid_frames (pas : Mem) (tbl : Nat) : List Nat :=
  (List.range 8).filterMap (fun k =>
    if pte_vflag pas (tbl + k * PTE_SIZE) = PAGE_INVALID then none
    else some (pte_frame pas (tbl + k * PTE_SIZE)))

/-- Every frame in use, once per structure it serves: the L1 table of each
process, then the frames in its valid L1 entries (its L2 tables), then the frames
in the valid entries of those tables (its data frames). -/
def frames_in_use (s : State) : List Nat :=
  (s.procs.map (fun p =>
    p.L1_page_table / PAGESIZE :: (valid_frames s.pas p.L1_page_table ++
      ((valid_frames s.pas p.L1_page_table).map (fun f =>
        valid_frames s.pas (f * PAGESIZE))).flatten))).flatten

/-- Lines of the final statistics and the out-of-memory message. -/
def Line.is_summary : Line → Bool
  | .proc_summary _ _ _ _ => true
  | .total _ _ _ => true
  | .out_of_memory => true
  | _ => false

/-- One process, pid 1, that references page 0 once. -/
def one_page : List (Int × List Nat) := [(1, [0])]

/-- One process, pid 1, with the reference sequence 0, 1, 8, 0. -/
def scenario : List (Int × List Nat) := [(1, [0, 1, 8, 0])]

/-- Five processes, pids 1 to 5, each referencing the pages 0 to 63 in order. -/
def five_full : List (Int × List Nat) :=
  (List.range 5).map (fun j => ((j : Int) + 1, List.range 64))

/-- The references processed by the run of `main` on `input`, in order; empty
when loading fails. -/
def run_steps (input : List (Int × List Nat)) : List Step :=
  match loaded input with
  | none => []
  | some s => (simulate s).steps

/-- The fields of a process that `simulate` never writes. -/
def process.fixed (p : process) : Int × Int × List Nat × Nat :=
  (p.pid, p.ref_len, p.references, p.L1_page_table)

/-- Well-formedness of a state: the counter is not negative, every L1 table is
4-byte aligned and lies in an allocated frame, every reference is a page below
64, and every valid L1 entry records an allocated frame. -/
def Inv (s : State) : Prop :=
  0 ≤ s.allocated_frame_count ∧
  ∀ p ∈ s.procs,
    p.L1_page_table % 4 = 0 ∧
    (p.L1_page_table : Int) + 32 ≤ 32 * s.allocated_frame_count ∧
    (∀ x ∈ p.references, x < 64) ∧
    (∀ l1, l1 < 8 → pte_vflag s.pas (p.L1_page_table + l1 * 4) ≠ 0 →
      (pte_frame s.pas (p.L1_page_table + l1 * 4) : Int) < s.allocated_frame_count)

/-- State `t` continues state `s`: the counter has not decreased, the fixed
fields of the processes are the same, every entry inside the frames allocated
in `s` that was valid in `s` has the same `vflag` and `frame` in `t`, and every
such entry that became valid records a frame allocated in `t`. -/
def Ext (s t : State) : Prop :=
  s.allocated_frame_count ≤ t.allocated_frame_count ∧
  t.procs.map process.fixed = s.procs.map process.fixed ∧
  (∀ e : Nat, e % 4 = 0 → (e : Int) + 4 ≤ 32 * s.allocated_frame_count →
    pte_vflag s.pas e ≠ 0 →
    pte_vflag t.pas e = pte_vflag s.pas e ∧ pte_frame t.pas e = pte_frame s.pas e) ∧
  (∀ e : Nat, e % 4 = 0 → (e : Int) + 4 ≤ 32 * s.allocated_frame_count →
    pte_vflag s.pas e = 0 → pte_vflag t.pas e ≠ 0 →
    (pte_frame t.pas e : Int) < t.allocated_frame_count)

/-- Process `i` has valid L1 and L2 entries for `page` in state `s`. -/
def Mapped (s : State) (i page : Nat) : Prop :=
  ∃ p, s.procs[i]? = some p ∧
    pte_vflag s.pas (l1_entry_of p page) ≠ 0 ∧
    pte_vflag s.pas (l2_entry_of s.pas p page) ≠ 0

/-- The step is a hit: it does not abort, allocates no frame, leaves the fault
counter of its process alone, finds the L2 entry of its page valid, prints the
hit line of line 124, leaves `vflag` and `frame` of that entry as they were and
adds one to its `ref` (when that was below 255). -/
def Step.is_hit (st : Step) : Prop :=
  st.oom = false ∧
  st.post.allocated_frame_count = st.pre.allocated_frame_count ∧
  ∃ p q, st.pre.procs[st.i]? = some p ∧ st.post.procs[st.i]? = some q ∧
    q.page_faults = p.page_faults ∧
    pte_vflag st.pre.pas (l1_entry_of p st.page) ≠ PAGE_INVALID ∧
    pte_vflag st.pre.pas (l2_entry_of st.pre.pas p st.page) ≠ PAGE_INVALID ∧
    st.post.out = st.pre.out ++ [Line.l2_hit p.pid p.ref_count st.page
      (pte_frame st.pre.pas (l1_entry_of p st.page))
      (pte_frame st.pre.pas (l2_entry_of st.pre.pas p st.page))] ∧
    l2_entry_of st.post.pas q st.page = l2_entry_of st.pre.pas p st.page ∧
    pte_vflag st.post.pas (l2_entry_of st.pre.pas p st.page)
      = pte_vflag st.pre.pas (l2_entry_of st.pre.pas p st.page) ∧
    pte_frame st.post.pas (l2_entry_of st.pre.pas p st.page)
      = pte_frame st.pre.pas (l2_entry_of st.pre.pas p st.page) ∧
    (pte_ref st.pre.pas (l2_entry_of st.pre.pas p st.page) < 255 →
      pte_ref st.post.pas (l2_entry_of st.pre.pas p st.page)
        = pte_ref st.pre.pas (l2_entry_of st.pre.pas p st.page) + 1)

/-- The step is what the loop body does for process `i` in state `pre`. -/
def Step.ok (st : Step) : Prop :=
  ∃ p, st.pre.procs[st.i]? = some p ∧ p.ref_count < p.ref_len ∧
    st.page = p.references.getD p.ref_count.toNat 0 ∧
    translate st.pre st.i p = (if st.oom then Outcome.aborted st.post
      else Outcome.completed st.post)

/-- The steps are a run from a state that `s` leads to: each step starts in a
well-formed state that continues the one before, and an aborting step is the last. -/
def Trace : State → List Step → Prop
  | _, [] => True
  | s, st :: rest =>
    Ext s st.pre ∧ Inv st.pre ∧ st.ok ∧ (st.oom = true → rest = []) ∧ Trace st.post rest

/-- The state in which `main` calls `simulate` on `scenario`. -/
def scenario_state : State := (loaded scenario).getD State.start

/-- The fourth reference of the run on `scenario`: page 0 for the second time. -/
def scenario_last : Step :=
  match (simulate scenario_state).steps.drop 3 with
  | st :: _ => st
  | [] => ⟨0, 0, State.start, State.start, false⟩

/-- The state in which `main` calls `simulate` on `five_full`. -/
def five_full_state : State := (loaded five_full).getD State.start

/-! ## Notions for the statements about every run -/

/-- The counter is within the range the program keeps it in. -/
def Bounded (s : State) : Prop :=
  0 ≤ s.allocated_frame_count ∧ s.allocated_frame_count ≤ PAS_FRAMES

/-- The steps are consecutive passes through the loop body starting in `s`:
each starts in the state the one before ended in, and an aborting step is the
last one. -/
def Linked : State → List Step → Prop
  | _, [] => True
  | s, st :: rest =>
    st.pre = s ∧ st.ok ∧ (st.oom = true → rest = []) ∧ Linked st.post rest

/-- The state after the last of the steps, `s` when there is none. -/
def final_state : State → List Step → State
  | s, [] => s
  | _, st :: rest => final_state st.post rest

/-- The last of the steps ended in the `return` of line 98 or 114. -/
def ends_aborted : List Step → Bool
  | [] => false
  | [st] => st.oom
  | _ :: st :: rest => ends_aborted (st :: rest)

/-- The line printed at line 102, when an L2 table has been allocated. -/
def Line.is_l1_fault : Line → Bool
  | .l1_fault _ _ _ _ => true
  | _ => false

/-- Number of L2 tables allocated so far, counted by the lines of line 102. -/
def tables_allocated (s : State) : Int :=
  ((s.out.filter Line.is_l1_fault).length : Nat)


/-- The state of `main` between two loads: one frame per loaded process, the
L1 table of the process at index `i` in frame `i`, `pas` all zero, no reference
processed yet. -/
def Fresh (s : State) : Prop :=
  s.allocated_frame_count = s.procs.length ∧
  (∀ x, read s.pas x = 0) ∧
  tables_allocated s = 0 ∧
  ∀ (i : Nat) (p : process), s.procs[i]? = some p →
    p.L1_page_table = i * PAGESIZE ∧ p.page_faults = 0 ∧ p.ref_count = 0 ∧
    p.ref_len = p.references.length

/-- The reference a step processed, as the trace shows it: the pid of the
process, the index of the reference in its sequence, and the page. -/
def Step.event (st : Step) : Int × Int × Nat :=
  match st.pre.procs[st.i]? with
  | some p => (p.pid, p.ref_count, st.page)
  | none => (0, 0, st.page)

/-- The reference that `procs[i]` is about to consume in state `s`, if it has
one left (lines 84 and 87). -/
def next_event (s : State) (i : Nat) : Option (Int × Int × Nat) :=
  match s.procs[i]? with
  | some p =>
    if p.ref_count < p.ref_len then
      some (p.pid, p.ref_count, p.references.getD p.ref_count.toNat 0)
    else none
  | none => none

/-- The references of cycle `c` of the round-robin schedule: in array order,
for every process with `ref_len > c`, its reference number `c`. -/
def round (procs : List process) (c : Nat) : List (Int × Int × Nat) :=
  procs.filterMap (fun p =>
    if (c : Int) < p.ref_len then some (p.pid, (c : Int), p.references.getD c 0) else none)

/-- The rounds `c`, `c + 1`, ..., `c + n - 1` of the schedule, one after the other. -/
def interleaving_from (procs : List process) : Nat → Nat → List (Int × Int × Nat)
  | _, 0 => []
  | c, n + 1 => round procs c ++ interleaving_from procs (c + 1) n

/-- The largest `ref_len` of the processes, 0 when none is positive. -/
def longest (procs : List process) : Nat :=
  (procs.map (fun p => p.ref_len.toNat)).foldr max 0

/-- The cycle-major round-robin interleaving of the reference sequences. -/
def interleaving (procs : List process) : List (Int × Int × Nat) :=
  interleaving_from procs 0 (longest procs)

/-- Where `ref_count` stands at the start of cycle `c` in a run that started
with `ref_count = 0`: at `c` while the process has references left, at the end
of its sequence afterwards. -/
def process.at_cycle (c : Nat) (p : process) : Prop :=
  p.ref_count = if (c : Int) < p.ref_len then (c : Int) else max 0 p.ref_len

/-- The `while` loop with this much fuel stops because the fuel is used up,
not by the `break` of line 129 or a `return`. -/
def out_of_fuel : Nat → State → Bool
  | 0, _ => true
  | fuel + 1, s =>
    let r := for_loop (List.range s.procs.length) s true
    if r.returned then false
    else if r.finished then false
    else out_of_fuel fuel r.s

/-- The process array is placed as `main` places it: the counter is in
0..256, every L1 table is a frame below the counter, and every referenced page
is below 64. -/
def Placed (s : State) : Prop :=
  0 ≤ s.allocated_frame_count ∧ s.allocated_frame_count ≤ PAS_FRAMES ∧
  ∀ p ∈ s.procs,
    p.L1_page_table % PAGESIZE = 0 ∧
    ((p.L1_page_table / PAGESIZE : Nat) : Int) < s.allocated_frame_count ∧
    ∀ x ∈ p.references, x < VAS_PAGES

/-- Every valid page-table entry of `pas` lies inside an allocated frame and
records an allocated frame. -/
def Clean (s : State) : Prop :=
  ∀ e : Nat, e % PTE_SIZE = 0 → pte_vflag s.pas e ≠ PAGE_INVALID →
    (e : Int) + 4 ≤ 32 * s.allocated_frame_count ∧
    (pte_frame s.pas e : Int) < s.allocated_frame_count

/-- Every page-table entry that is valid in `s` is valid in `t` with the same frame. -/
def Keeps (s t : State) : Prop :=
  ∀ e : Nat, e % PTE_SIZE = 0 → pte_vflag s.pas e ≠ PAGE_INVALID →
    pte_vflag t.pas e = pte_vflag s.pas e ∧ pte_frame t.pas e = pte_frame s.pas e

/-! ## Notions for the statements about failures, trace lines and accesses -/

/-- Two records: pid 1 with 2147483647 references to page 0, pid 2 with one
reference to page 0. -/
def two_long : List (Int × List Nat) := [(1, List.replicate 2147483647 0), (2, [0])]

/-- The state in which `main` calls `simulate` on `two_long`. -/
def two_long_state : State := (loaded two_long).getD State.start

def Settled (s : State) : Prop :=
  s.allocated_frame_count = 4 ∧
  read s.pas 0 = 0 ∧ read s.pas 1 ≠ 0 ∧ read s.pas 32 = 0 ∧ read s.pas 33 ≠ 0 ∧
  ∀ p ∈ s.procs, (p.L1_page_table = 0 ∨ p.L1_page_table = 32) ∧ ∀ x ∈ p.references, x = 0

/-- The reference to `page` that process `p` takes in state `s` runs into a
failing allocation: the L1 entry of the page is invalid and
`allocate_pagetable_frame` returns NULL (lines 94-96), or lines 94-104 go
through and, in the state they leave, the L2 entry of the page is invalid and
`allocate_frame` returns -1 (lines 110-112). -/
def allocation_fails (s : State) (p : process) (page : Nat) : Prop :=
  (pte_vflag s.pas (l1_entry_of p page) = PAGE_INVALID ∧
    (allocate_pagetable_frame s).1 = none) ∨
  match l1_walk s p page (l1_entry_of p page) with
  | some s1 =>
    pte_vflag s1.pas (l2_entry_of s1.pas p page) = PAGE_INVALID ∧ (allocate_frame s1).1 = -1
  | none => False

/-- The reference that a trace line of lines 120-121 or 124-125 reports. -/
def Line.event : Line → Option (Int × Int × Nat)
  | .l2_fault pid idx page _ _ => some (pid, idx, page)
  | .l2_hit pid idx page _ _ => some (pid, idx, page)
  | _ => none

/-- Every page-table entry of `pas` has `vflag` `PAGE_INVALID` or `PAGE_VALID`. -/
def Flags (s : State) : Prop :=
  ∀ e : Nat, e % PTE_SIZE = 0 → pte_vflag s.pas e ≤ PAGE_VALID

/-- The two byte arrays hold the same bytes at the offsets 0 to 8191, the
offsets of `pas`. -/
def Agree (a b : Mem) : Prop := ∀ x, x < PAS_SIZE → read a x = read b x

/-- The two states differ at most in bytes outside `pas`. -/
def Sim (t u : State) : Prop :=
  t.allocated_frame_count = u.allocated_frame_count ∧ t.procs = u.procs ∧ t.out = u.out ∧
  Agree t.pas u.pas

/-- The two passes through the loop body end the same way, in states that
differ at most in bytes outside `pas`. -/
def Outcome.agrees : Outcome → Outcome → Prop
  | .skipped, .skipped => True
  | .completed t, .completed u => Sim t u
  | .aborted t, .aborted u => Sim t u
  | _, _ => False

/-! ## The byte array -/

theorem read_zero (a : Nat) : read 0 a = 0 := by
  simp [read]

theorem digit_low (h l a x : Nat) (hx : x < a) :
    (h * 256 ^ a + l) / 256 ^ x % 256 = l / 256 ^ x % 256 := by
  obtain ⟨k, rfl⟩ : ∃ k, a = x + 1 + k := ⟨a - x - 1, by omega⟩
  have hp : 0 < 256 ^ x := Nat.pow_pos (by decide)
  have e : h * 256 ^ (x + 1 + k) + l = l + 256 ^ x * (h * 256 ^ k * 256) := by
    rw [pow_add, pow_succ]; ring
  rw [e, Nat.add_mul_div_left _ _ hp, Nat.add_mul_mod_self_right]

theorem digit_high (h l a x : Nat) (hl : l < 256 ^ a) (hx : a ≤ x) :
    (h * 256 ^ a + l) / 256 ^ x = h / 256 ^ (x - a) := by
  obtain ⟨k, rfl⟩ : ∃ k, x = a + k := ⟨x - a, by omega⟩
  have hp : 0 < 256 ^ a := Nat.pow_pos (by decide)
  rw [pow_add, ← Nat.div_div_eq_div_mul, Nat.add_sub_cancel_left]
  congr 1
  rw [Nat.add_comm, Nat.add_mul_div_right _ _ hp, Nat.div_eq_of_lt hl, Nat.zero_add]

theorem read_store (pas : Mem) (a v x : Nat) :
    read (store pas a v) x = if x = a then v % 256 else read pas x := by
  have hp : ∀ n, 0 < 256 ^ n := fun n => Nat.pow_pos (by decide)
  have hlo : pas % 256 ^ a < 256 ^ a := Nat.mod_lt _ (hp a)
  unfold read store
  rcases Nat.lt_trichotomy x a with hx | hx | hx
  · rw [if_neg (by omega)]
    have e1 : pas / 256 ^ (a + 1) * 256 ^ (a + 1) + v % 256 * 256 ^ a + pas % 256 ^ a
        = (pas / 256 ^ (a + 1) * 256 + v % 256) * 256 ^ a + pas % 256 ^ a := by
      rw [pow_succ]; ring
    rw [e1, digit_low _ _ a x hx]
    conv_rhs => rw [← Nat.div_add_mod pas (256 ^ a), Nat.mul_comm, digit_low _ _ a x hx]
  · subst hx
    rw [if_pos rfl]
    have e1 : pas / 256 ^ (x + 1) * 256 ^ (x + 1) + v % 256 * 256 ^ x + pas % 256 ^ x
        = (pas / 256 ^ (x + 1) * 256 + v % 256) * 256 ^ x + pas % 256 ^ x := by
      rw [pow_succ]; ring
    rw [e1, digit_high _ _ x x hlo (le_refl _), Nat.sub_self, pow_zero, Nat.div_one]
    omega
  · rw [if_neg (by omega)]
    have hr : v % 256 * 256 ^ a + pas % 256 ^ a < 256 ^ (a + 1) := by
      have : v % 256 < 256 := Nat.mod_lt _ (by decide)
      have h3 : (v % 256 + 1) * 256 ^ a ≤ 256 * 256 ^ a :=
        Nat.mul_le_mul_right _ (by omega)
      rw [pow_succ, Nat.mul_comm (256 ^ a) 256]
      rw [Nat.add_mul, Nat.one_mul] at h3
      omega
    rw [Nat.add_assoc, digit_high _ _ (a + 1) x hr (by omega)]
    conv_rhs => rw [← Nat.div_add_mod pas (256 ^ (a + 1)), Nat.mul_comm,
      digit_high _ _ (a + 1) x (Nat.mod_lt _ (hp _)) (by omega)]

theorem read_memset (pas : Mem) (base c n x : Nat) :
    read (memset pas base c n) x
      = if base ≤ x ∧ x < base + n then c % 256 else read pas x := by
  induction n with
  | zero =>
    rw [if_neg (by omega)]
    rfl
  | succ n ih =>
    rw [memset, read_store, ih]
    by_cases h1 : x = base + n
    · rw [if_pos h1, if_pos (by omega)]
    · rw [if_neg h1]
      by_cases h2 : base ≤ x ∧ x < base + n
      · rw [if_pos h2, if_pos (by omega)]
      · rw [if_neg h2, if_neg (by omega)]

/-! ## The frame allocator -/

theorem allocate_frame_ok (s : State) (h : s.allocated_frame_count < 256) :
    allocate_frame s
      = (s.allocated_frame_count,
         { s with allocated_frame_count := s.allocated_frame_count + 1 }) := by
  have h1 : ¬ s.allocated_frame_count ≥ PAS_FRAMES := by simp only [PAS_FRAMES]; omega
  simp only [allocate_frame, if_neg h1]

theorem allocate_frame_full (s : State) (h : 256 ≤ s.allocated_frame_count) :
    allocate_frame s = (-1, s) := by
  have h1 : s.allocated_frame_count ≥ PAS_FRAMES := by simp only [PAS_FRAMES]; omega
  simp only [allocate_frame, if_pos h1]

theorem allocate_frame_calls_eq (n : Nat) : ∀ (s : State) (c : Nat),
    s.allocated_frame_count = c →
    allocate_frame_calls n s
      = (List.range n).map (fun k => if c + k < 256 then ((c + k : Nat) : Int) else -1) := by
  induction n with
  | zero => intro s c _; rfl
  | succ n ih =>
    intro s c hc
    rw [List.range_succ_eq_map, allocate_frame_calls]
    by_cases h : c < 256
    · rw [allocate_frame_ok s (by omega)]
      rw [ih _ (c + 1) (by simp [hc])]
      simp [h, hc, List.map_map, Function.comp_def, Nat.add_assoc, Nat.add_comm 1]
    · rw [allocate_frame_full s (by omega), ih s c hc]
      simp only [List.map_cons, List.map_map, Function.comp_def, List.cons.injEq]
      constructor
      · simp [h]
      · apply List.map_congr_left
        intro k _
        have : ¬ c + k < 256 := by omega
        have : ¬ c + (k + 1) < 256 := by omega
        simp [*]

theorem count_successes (k : Nat) :
    ((List.range k).map (fun j => if 0 + j < 256 then ((0 + j : Nat) : Int) else -1)).countP
      (fun r => r ≠ -1) = min k 256 := by
  induction k with
  | zero => rfl
  | succ k ih =>
    rw [List.range_succ, List.map_append, List.countP_append, ih]
    by_cases h : k < 256
    · simp [List.countP_cons, h]
      omega
    · simp [List.countP_cons, h]
      omega


theorem allocate_frame_calls_getElem (s : State) (n k : Nat) (h0 : s.allocated_frame_count = 0) :
    (allocate_frame_calls n s)[k]?
      = if k < n then some (if k < 256 then (k : Int) else -1) else none := by
  rw [allocate_frame_calls_eq n s 0 (by simpa using h0), List.getElem?_map]
  by_cases hk : k < n
  · rw [List.getElem?_range hk]
    simp [hk]
  · rw [List.getElem?_eq_none (by simpa using hk)]
    simp [hk]

/-- C8: starting from `allocated_frame_count = 0`, the k-th call of
`allocate_frame` (k = 1..256) returns k - 1; the values issued are strictly
increasing, hence pairwise distinct, and at most 255; and a call returns -1
exactly when 256 earlier calls have succeeded. -/
theorem allocate_frame_sequence (s : State) (n : Nat) (h0 : s.allocated_frame_count = 0) :
    (∀ k, 1 ≤ k → k ≤ 256 → k ≤ n →
      (allocate_frame_calls n s)[k - 1]? = some ((k : Int) - 1)) ∧
    (∀ (j k : Nat) (a b : Int), j < k → (allocate_frame_calls n s)[j]? = some a →
      (allocate_frame_calls n s)[k]? = some b → b ≠ -1 → a < b ∧ a ≠ b ∧ b ≤ 255) ∧
    (∀ k, k < n → ((allocate_frame_calls n s)[k]? = some (-1) ↔
      ((allocate_frame_calls n s).take k).countP (fun r => r ≠ -1) = 256)) := by
  refine ⟨?_, ?_, ?_⟩
  · intro k h1 h2 h3
    rw [allocate_frame_calls_getElem s n (k - 1) h0]
    have h4 : k - 1 < n := by omega
    have h5 : k - 1 < 256 := by omega
    simp only [h4, h5, if_true]
    congr 1
    omega
  · intro j k a b hjk ha hb hne
    rw [allocate_frame_calls_getElem s n j h0] at ha
    rw [allocate_frame_calls_getElem s n k h0] at hb
    by_cases hk : k < n
    · have hj : j < n := by omega
      simp only [hk, hj, if_true, Option.some.injEq] at ha hb
      by_cases hk2 : k < 256
      · have hj2 : j < 256 := by omega
        simp only [hk2, hj2, if_true] at ha hb
        omega
      · simp only [hk2, if_false] at hb
        omega
    · simp [hk] at hb
  · intro k hk
    rw [allocate_frame_calls_getElem s n k h0]
    rw [allocate_frame_calls_eq n s 0 (by simpa using h0), ← List.map_take, List.take_range,
      count_successes]
    by_cases hk2 : k < 256
    · simp only [hk, hk2, if_true, Option.some.injEq]
      constructor
      · intro h; omega
      · intro h; omega
    · simp only [hk, hk2, if_true, if_false, true_iff]
      omega

theorem allocate_frame_sequence_witness :
    State.start.allocated_frame_count = 0 ∧
    (allocate_frame_calls 300 State.start)[256 - 1]? = some (((256 : Nat) : Int) - 1) ∧
    ((allocate_frame_calls 300 State.start)[256]? = some (-1) ↔
      ((allocate_frame_calls 300 State.start).take 256).countP (fun r => r ≠ -1) = 256) :=
  ⟨rfl, (allocate_frame_sequence State.start 300 rfl).1 256 (by decide) (by decide) (by decide),
    (allocate_frame_sequence State.start 300 rfl).2.2 256 (by decide)⟩

/-- C9: with `allocated_frame_count = n < 256`, `allocate_pagetable_frame`
returns the table at frame `n` (byte offset `n * 32`), all 32 bytes of that frame
are 0 afterwards (so each of the 8 entries has frame 0, vflag invalid, ref 0), all
other bytes of `pas` are unchanged and the counter is `n + 1`; with `n = 256` it
returns `NULL` and leaves `pas` and the counter as they were. -/
theorem allocate_pagetable_frame_effect (s : State) (n : Nat)
    (hn : s.allocated_frame_count = n) :
    (n < 256 →
      (allocate_pagetable_frame s).1 = some (n * PAGESIZE) ∧
      (∀ x, n * PAGESIZE ≤ x → x < (n + 1) * PAGESIZE →
        read (allocate_pagetable_frame s).2.pas x = 0) ∧
      (∀ k, k < L2_PT_ENTRIES →
        pte_frame (allocate_pagetable_frame s).2.pas (n * PAGESIZE + k * PTE_SIZE) = 0 ∧
        pte_vflag (allocate_pagetable_frame s).2.pas (n * PAGESIZE + k * PTE_SIZE)
          = PAGE_INVALID ∧
        pte_ref (allocate_pagetable_frame s).2.pas (n * PAGESIZE + k * PTE_SIZE) = 0) ∧
      (∀ x, ¬ (n * PAGESIZE ≤ x ∧ x < (n + 1) * PAGESIZE) →
        read (allocate_pagetable_frame s).2.pas x = read s.pas x) ∧
      (allocate_pagetable_frame s).2.allocated_frame_count = n + 1) ∧
    (n = 256 →
      (allocate_pagetable_frame s).1 = none ∧
      (allocate_pagetable_frame s).2.pas = s.pas ∧
      (allocate_pagetable_frame s).2.allocated_frame_count = 256) := by
  constructor
  · intro h
    have h1 : ¬ ((n : Int) = -1) := by omega
    have h2 : ((n : Int) * 32).toNat = n * 32 := by omega
    simp only [allocate_pagetable_frame, allocate_frame_ok s (by omega), hn, if_neg h1,
      PAGESIZE, Nat.cast_ofNat, h2, read_memset, L2_PT_ENTRIES, PTE_SIZE, pte_frame, pte_vflag,
      pte_ref, PAGE_INVALID]
    refine ⟨trivial, ?_, ?_, ?_, trivial⟩
    · intro x hx1 hx2
      rw [if_pos (by omega)]
    · intro k hk
      refine ⟨?_, ?_, ?_⟩ <;> rw [if_pos (by omega)]
    · intro x hx
      rw [if_neg (by omega)]
  · intro h
    subst h
    simp only [allocate_pagetable_frame, allocate_frame_full s (by omega), if_true]
    exact ⟨trivial, trivial, by simpa using hn⟩

theorem allocate_pagetable_frame_effect_witness :
    (State.start.allocated_frame_count = ((0 : Nat) : Int) ∧ 0 < 256 ∧
      (allocate_pagetable_frame State.start).1 = some (0 * PAGESIZE) ∧
      (allocate_pagetable_frame State.start).2.allocated_frame_count = ((0 : Nat) : Int) + 1) ∧
    ((⟨0, 256, [], []⟩ : State).allocated_frame_count = ((256 : Nat) : Int) ∧
      (allocate_pagetable_frame ⟨0, 256, [], []⟩).1 = none ∧
      (allocate_pagetable_frame ⟨0, 256, [], []⟩).2.allocated_frame_count = 256) :=
  ⟨⟨rfl, by decide, ((allocate_pagetable_frame_effect State.start 0 rfl).1 (by decide)).1,
    ((allocate_pagetable_frame_effect State.start 0 rfl).1 (by decide)).2.2.2.2⟩,
   ⟨rfl, ((allocate_pagetable_frame_effect ⟨0, 256, [], []⟩ 256 rfl).2 rfl).1,
    ((allocate_pagetable_frame_effect ⟨0, 256, [], []⟩ 256 rfl).2 rfl).2.2⟩⟩


/-! ## Continuation of states -/

theorem Ext.refl (s : State) : Ext s s :=
  ⟨le_refl _, rfl, fun _ _ _ _ => ⟨rfl, rfl⟩, fun _ _ _ h0 h1 => absurd h0 h1⟩

theorem Ext.trans {s t u : State} (h1 : Ext s t) (h2 : Ext t u) : Ext s u := by
  obtain ⟨a1, b1, c1, d1⟩ := h1
  obtain ⟨a2, b2, c2, d2⟩ := h2
  refine ⟨le_trans a1 a2, b2.trans b1, ?_, ?_⟩
  · intro e he hle hv
    obtain ⟨hv1, hf1⟩ := c1 e he hle hv
    obtain ⟨hv2, hf2⟩ := c2 e he (by omega) (by rw [hv1]; exact hv)
    exact ⟨hv2.trans hv1, hf2.trans hf1⟩
  · intro e he hle hv0 hvu
    by_cases hvt : pte_vflag t.pas e = 0
    · exact d2 e he (by omega) hvt hvu
    · obtain ⟨_, hf2⟩ := c2 e he (by omega) hvt
      have := d1 e he hle hv0 hvt
      rw [hf2]
      omega

theorem map_set_fixed {l : List process} {i : Nat} {p q : process}
    (h : l[i]? = some p) (hq : q.fixed = p.fixed) :
    (l.set i q).map process.fixed = l.map process.fixed := by
  apply List.ext_getElem?
  intro j
  rw [List.getElem?_map, List.getElem?_map, List.getElem?_set]
  by_cases hij : i = j
  · subst hij
    have hlt : i < l.length := by
      rcases Nat.lt_or_ge i l.length with h1 | h1
      · exact h1
      · rw [List.getElem?_eq_none h1] at h; cases h
    simp [hlt, h, hq]
  · simp [hij]

theorem Ext.proc {s t : State} (h : Ext s t) {j : Nat} {p : process}
    (hp : s.procs[j]? = some p) : ∃ q, t.procs[j]? = some q ∧ q.fixed = p.fixed := by
  have h1 := congrArg (fun l => l[j]?) h.2.1
  simp only [List.getElem?_map, hp, Option.map_some'] at h1
  cases hq : t.procs[j]? with
  | none => rw [hq] at h1; cases h1
  | some q =>
    rw [hq] at h1
    exact ⟨q, rfl, by simpa using h1⟩

theorem Ext.proc_back {s t : State} (h : Ext s t) {q : process} (hq : q ∈ t.procs) :
    ∃ p ∈ s.procs, q.fixed = p.fixed := by
  have h1 : q.fixed ∈ t.procs.map process.fixed := List.mem_map_of_mem _ hq
  rw [h.2.1] at h1
  obtain ⟨p, hp, he⟩ := List.mem_map.mp h1
  exact ⟨p, hp, he.symm⟩

theorem Ext.inv {s t : State} (hs : Inv s) (h : Ext s t) : Inv t := by
  refine ⟨le_trans hs.1 h.1, ?_⟩
  intro q hq
  obtain ⟨p, hp, he⟩ := h.proc_back hq
  have hL : q.L1_page_table = p.L1_page_table := by
    simp only [process.fixed, Prod.mk.injEq] at he; exact he.2.2.2
  have hR : q.references = p.references := by
    simp only [process.fixed, Prod.mk.injEq] at he; exact he.2.2.1
  obtain ⟨ha, hb, hc, hd⟩ := hs.2 p hp
  have hle := h.1
  refine ⟨by omega, by omega, by rw [hR]; exact hc, ?_⟩
  intro l1 hl1 hv
  rw [hL] at hv ⊢
  by_cases hv0 : pte_vflag s.pas (p.L1_page_table + l1 * 4) = 0
  · exact h.2.2.2 _ (by omega) (by omega) hv0 hv
  · obtain ⟨_, hf⟩ := h.2.2.1 _ (by omega) (by omega) hv0
    have := hd l1 hl1 hv0
    rw [hf]
    omega

theorem Ext.mapped {s t : State} (hs : Inv s) (h : Ext s t) {i page : Nat}
    (hpage : page < 64) (hm : Mapped s i page) : Mapped t i page := by
  obtain ⟨p, hp, hv1, hv2⟩ := hm
  obtain ⟨q, hq, he⟩ := h.proc hp
  have hL : q.L1_page_table = p.L1_page_table := by
    simp only [process.fixed, Prod.mk.injEq] at he; exact he.2.2.2
  have hpm : p ∈ s.procs := List.getElem?_mem hp
  obtain ⟨ha, hb, _, hd⟩ := hs.2 p hpm
  have e1 : l1_entry_of q page = l1_entry_of p page := by simp [l1_entry_of, hL]
  have hl1 : page / 8 < 8 := by omega
  have hfr := hd (page / 8) hl1 (by simpa [l1_entry_of] using hv1)
  obtain ⟨hv1t, hf1t⟩ := h.2.2.1 (l1_entry_of p page)
    (by simp only [l1_entry_of, L2_PT_ENTRIES, PTE_SIZE]; omega)
    (by simp only [l1_entry_of, L2_PT_ENTRIES, PTE_SIZE]; omega) hv1
  have e2 : l2_entry_of t.pas q page = l2_entry_of s.pas p page := by
    simp only [l2_entry_of, e1, hf1t]
  obtain ⟨hv2t, _⟩ := h.2.2.1 (l2_entry_of s.pas p page)
    (by simp only [l2_entry_of, L2_PT_ENTRIES, PTE_SIZE, PAGESIZE]; omega)
    (by
      have : (pte_frame s.pas (l1_entry_of p page) : Int) < s.allocated_frame_count := by
        simpa [l1_entry_of] using hfr
      simp only [l2_entry_of, L2_PT_ENTRIES, PTE_SIZE, PAGESIZE]
      omega) hv2
  exact ⟨q, hq, by rw [e1, hv1t]; exact hv1, by rw [e2, hv2t]; exact hv2⟩


/-! ## One reference -/

theorem allocate_pagetable_frame_ok (s : State) (h0 : 0 ≤ s.allocated_frame_count)
    (h : s.allocated_frame_count < 256) :
    allocate_pagetable_frame s
      = (some (s.allocated_frame_count * 32).toNat,
         ⟨memset s.pas (s.allocated_frame_count * 32).toNat 0 32,
          s.allocated_frame_count + 1, s.procs, s.out⟩) := by
  have h1 : ¬ s.allocated_frame_count = -1 := by omega
  simp only [allocate_pagetable_frame, allocate_frame_ok s h, if_neg h1, PAGESIZE,
    Nat.cast_ofNat]

theorem allocate_pagetable_frame_full (s : State) (h : 256 ≤ s.allocated_frame_count) :
    allocate_pagetable_frame s = (none, s) := by
  simp only [allocate_pagetable_frame, allocate_frame_full s h, if_true]

theorem l1_walk_ext {s s1 : State} {p : process} {page e : Nat}
    (h0 : 0 ≤ s.allocated_frame_count) (he : e % 4 = 0)
    (hle : (e : Int) + 4 ≤ 32 * s.allocated_frame_count)
    (h : l1_walk s p page e = some s1) :
    Ext s s1 ∧ s1.procs = s.procs ∧ pte_vflag s1.pas e ≠ 0 ∧
      (pte_vflag s.pas e ≠ 0 → s1 = s) := by
  unfold l1_walk at h
  by_cases hv : pte_vflag s.pas e = PAGE_INVALID
  · rw [if_pos hv] at h
    by_cases hc : s.allocated_frame_count < 256
    · rw [allocate_pagetable_frame_ok s h0 hc] at h
      simp only [Option.some.injEq] at h
      subst h
      obtain ⟨n, hn⟩ := Int.eq_ofNat_of_zero_le h0
      have hn2 : (s.allocated_frame_count * 32).toNat = n * 32 := by omega
      simp only [PAGE_INVALID, pte_vflag] at hv
      refine ⟨⟨?_, rfl, ?_, ?_⟩, rfl, ?_, ?_⟩
      · simp only [print]; omega
      · intro x hx hxle hxv
        simp only [print, pte_vflag, pte_frame, read_store, read_memset, hn2, PAGESIZE, PTE_SIZE,
          PAGE_VALID] at hxv ⊢
        have hne : x ≠ e := by
          intro hxe; subst hxe; exact hxv hv
        rw [if_neg (by omega), if_neg (by omega), if_neg (by omega), if_neg (by omega),
          if_neg (by omega), if_neg (by omega)]
        exact ⟨rfl, rfl⟩
      · intro x hx hxle hxv0 hxv
        simp only [print, pte_vflag, pte_frame, read_store, read_memset, hn2, PAGESIZE, PTE_SIZE,
          PAGE_VALID] at hxv0 hxv ⊢
        by_cases hxe : x = e
        · subst hxe
          rw [if_neg (by omega), if_pos rfl]
          omega
        · rw [if_neg (by omega), if_neg (by omega), if_neg (by omega)] at hxv
          exact absurd hxv0 hxv
      · simp only [print, pte_vflag, read_store, PAGE_VALID, if_true]
        omega
      · intro hv2
        exact absurd hv hv2
    · rw [allocate_pagetable_frame_full s (by omega)] at h
      cases h
  · rw [if_neg hv] at h
    simp only [Option.some.injEq] at h
    subst h
    exact ⟨Ext.refl _, rfl, hv, fun _ => rfl⟩

theorem l1_walk_none {s : State} {p : process} {page e : Nat}
    (h0 : 0 ≤ s.allocated_frame_count) (h : l1_walk s p page e = none) :
    pte_vflag s.pas e = 0 ∧ 256 ≤ s.allocated_frame_count := by
  unfold l1_walk at h
  by_cases hv : pte_vflag s.pas e = PAGE_INVALID
  · rw [if_pos hv] at h
    by_cases hc : s.allocated_frame_count < 256
    · rw [allocate_pagetable_frame_ok s h0 hc] at h
      cases h
    · exact ⟨hv, by omega⟩
  · rw [if_neg hv] at h
    cases h


theorem l2_walk_completed {s t : State} {i : Nat} {p : process} {page l1e l2i : Nat}
    (h0 : 0 ≤ s.allocated_frame_count) (hl1 : l1e % 4 = 0)
    (hp : s.procs[i]? = some p)
    (h : l2_walk s i p page l1e l2i = .completed t) :
    Ext s t ∧ pte_vflag t.pas (pte_frame s.pas l1e * 32 + l2i * 4) ≠ 0 ∧
    ∃ q, t.procs[i]? = some q ∧ q.fixed = p.fixed ∧ q.ref_count = p.ref_count ∧
      (pte_vflag s.pas (pte_frame s.pas l1e * 32 + l2i * 4) ≠ 0 →
        t.allocated_frame_count = s.allocated_frame_count ∧
        q.page_faults = p.page_faults ∧
        t.out = s.out ++ [Line.l2_hit p.pid (p.ref_count - 1) page (pte_frame s.pas l1e)
          (pte_frame s.pas (pte_frame s.pas l1e * 32 + l2i * 4))] ∧
        pte_vflag t.pas (pte_frame s.pas l1e * 32 + l2i * 4)
          = pte_vflag s.pas (pte_frame s.pas l1e * 32 + l2i * 4) ∧
        pte_frame t.pas (pte_frame s.pas l1e * 32 + l2i * 4)
          = pte_frame s.pas (pte_frame s.pas l1e * 32 + l2i * 4) ∧
        pte_frame t.pas l1e = pte_frame s.pas l1e ∧
        (pte_ref s.pas (pte_frame s.pas l1e * 32 + l2i * 4) < 255 →
          pte_ref t.pas (pte_frame s.pas l1e * 32 + l2i * 4)
            = pte_ref s.pas (pte_frame s.pas l1e * 32 + l2i * 4) + 1)) := by
  unfold l2_walk at h
  simp only [PAGESIZE, PTE_SIZE] at h
  generalize hl2e : pte_frame s.pas l1e * 32 + l2i * 4 = l2e at h ⊢
  have hal : l2e % 4 = 0 := by omega
  by_cases hv : pte_vflag s.pas l2e = PAGE_INVALID
  · rw [if_pos hv] at h
    by_cases hc : s.allocated_frame_count < 256
    · rw [allocate_frame_ok s hc] at h
      have h1 : ¬ s.allocated_frame_count = -1 := by omega
      simp only [if_neg h1, Outcome.completed.injEq] at h
      subst h
      simp only [PAGE_INVALID, pte_vflag] at hv
      refine ⟨⟨?_, ?_, ?_, ?_⟩, ?_, ?_⟩
      · simp only [print]; omega
      · simp only [print]
        exact map_set_fixed hp rfl
      · intro x hx hxle hxv
        simp only [print, pte_vflag, pte_frame, read_store, PAGE_VALID] at hxv ⊢
        have hne : x ≠ l2e := by
          intro hxe; subst hxe; exact hxv hv
        rw [if_neg (by omega), if_neg (by omega), if_neg (by omega), if_neg (by omega),
          if_neg (by omega), if_neg (by omega)]
        exact ⟨rfl, rfl⟩
      · intro x hx hxle hxv0 hxv
        simp only [print, pte_vflag, pte_frame, read_store, PAGE_VALID] at hxv0 hxv ⊢
        by_cases hxe : x = l2e
        · subst hxe
          rw [if_neg (by omega), if_neg (by omega), if_pos rfl]
          omega
        · rw [if_neg (by omega), if_neg (by omega), if_neg (by omega)] at hxv
          exact absurd hxv0 hxv
      · simp [print, pte_vflag, read_store]
      · have hlt : i < s.procs.length := by
          rcases Nat.lt_or_ge i s.procs.length with h2 | h2
          · exact h2
          · rw [List.getElem?_eq_none h2] at hp; cases hp
        refine ⟨{ p with page_faults := p.page_faults + 1 }, ?_, rfl, rfl, ?_⟩
        · simp only [print, List.getElem?_set, hlt, if_true]
        · intro hv2
          exact absurd hv hv2
    · rw [allocate_frame_full s (by omega)] at h
      simp only [if_true] at h
      cases h
  · rw [if_neg hv] at h
    simp only [Outcome.completed.injEq] at h
    subst h
    simp only [PAGE_INVALID] at hv
    refine ⟨⟨?_, rfl, ?_, ?_⟩, ?_, p, hp, rfl, rfl, ?_⟩
    · simp only [print]; omega
    · intro x hx hxle hxv
      simp only [print, pte_vflag, pte_frame, read_store]
      rw [if_neg (by omega), if_neg (by omega)]
      exact ⟨rfl, rfl⟩
    · intro x hx hxle hxv0 hxv
      simp only [print, pte_vflag, pte_frame, read_store] at hxv0 hxv ⊢
      rw [if_neg (by omega)] at hxv
      exact absurd hxv0 hxv
    · simp only [print, pte_vflag, read_store]
      rw [if_neg (by omega)]
      exact hv
    · intro _
      have e1 : pte_frame (store s.pas (l2e + 2) ((pte_ref s.pas l2e + 1) % 256)) l1e
          = pte_frame s.pas l1e := by
        simp only [pte_frame, read_store]
        rw [if_neg (by omega)]
      have e2 : pte_frame (store s.pas (l2e + 2) ((pte_ref s.pas l2e + 1) % 256)) l2e
          = pte_frame s.pas l2e := by
        simp only [pte_frame, read_store]
        rw [if_neg (by omega)]
      have e3 : pte_vflag (store s.pas (l2e + 2) ((pte_ref s.pas l2e + 1) % 256)) l2e
          = pte_vflag s.pas l2e := by
        simp only [pte_vflag, read_store]
        rw [if_neg (by omega)]
      have e4 : pte_ref (store s.pas (l2e + 2) ((pte_ref s.pas l2e + 1) % 256)) l2e
          = (pte_ref s.pas l2e + 1) % 256 := by
        simp only [pte_ref, read_store, if_true]
        omega
      simp only [print, e1, e2, e3, e4, true_and]
      intro hr
      omega


theorem getD_lt {l : List Nat} (h : ∀ x ∈ l, x < 64) (n : Nat) : l.getD n 0 < 64 := by
  rw [List.getD_eq_getElem?_getD]
  cases hn : l[n]? with
  | none => simp
  | some x => exact h x (List.getElem?_mem hn)

theorem translate_completed {s0 t : State} {i : Nat} {p0 : process}
    (hinv : Inv s0) (hp : s0.procs[i]? = some p0)
    (h : translate s0 i p0 = .completed t) :
    Ext s0 t ∧ Mapped t i (p0.references.getD p0.ref_count.toNat 0) ∧
    (Mapped s0 i (p0.references.getD p0.ref_count.toNat 0) →
      Step.is_hit ⟨i, p0.references.getD p0.ref_count.toNat 0, s0, t, false⟩) := by
  unfold translate at h
  by_cases hc : p0.ref_count ≥ p0.ref_len
  · rw [if_pos hc] at h; cases h
  rw [if_neg hc] at h
  obtain ⟨hp0a, hp0b, hp0c, hp0d⟩ := hinv.2 p0 (List.getElem?_mem hp)
  generalize hpage : p0.references.getD p0.ref_count.toNat 0 = page at h ⊢
  have hpg : page < 64 := by rw [← hpage]; exact getD_lt hp0c _
  simp only [L2_PT_ENTRIES, PTE_SIZE] at h
  generalize hpd : ({ p0 with ref_count := p0.ref_count + 1 } : process) = p at h
  have hpf : p.fixed = p0.fixed := by rw [← hpd]; rfl
  have hpL : p.L1_page_table = p0.L1_page_table := by rw [← hpd]
  have hpc : p.ref_count - 1 = p0.ref_count := by rw [← hpd]; simp
  have hpp : p.pid = p0.pid := by rw [← hpd]
  have hpq : p.page_faults = p0.page_faults := by rw [← hpd]
  generalize hsd : ({ s0 with procs := s0.procs.set i p } : State) = s at h
  have hlt : i < s0.procs.length := by
    rcases Nat.lt_or_ge i s0.procs.length with h2 | h2
    · exact h2
    · rw [List.getElem?_eq_none h2] at hp; cases hp
  have hsp : s.procs[i]? = some p := by
    rw [← hsd]; simp only [List.getElem?_set, hlt, if_true]
  have hs_pas : s.pas = s0.pas := by rw [← hsd]
  have hs_cnt : s.allocated_frame_count = s0.allocated_frame_count := by rw [← hsd]
  have hs_out : s.out = s0.out := by rw [← hsd]
  have hext0 : Ext s0 s := by
    rw [← hsd]
    exact ⟨le_refl _, map_set_fixed hp hpf, fun _ _ _ _ => ⟨rfl, rfl⟩,
      fun _ _ _ h0 h1 => absurd h0 h1⟩
  have hinvs : Inv s := hext0.inv hinv
  generalize hl1e : p0.L1_page_table + page / 8 * 4 = l1e at h
  have hl1a : l1e % 4 = 0 := by omega
  have hl1b : (l1e : Int) + 4 ≤ 32 * s.allocated_frame_count := by rw [hs_cnt]; omega
  cases hw : l1_walk s p page l1e with
  | none => rw [hw] at h; cases h
  | some s1 =>
    rw [hw] at h
    simp only [] at h
    obtain ⟨hext1, hs1p, hs1v, hs1same⟩ := l1_walk_ext hinvs.1 hl1a hl1b hw
    have hinv1 : Inv s1 := hext1.inv hinvs
    have hs1pi : s1.procs[i]? = some p := by rw [hs1p]; exact hsp
    obtain ⟨hext2, htv, q, hq, hqf, hqc, hhit⟩ := l2_walk_completed hinv1.1 hl1a hs1pi h
    have hqL : q.L1_page_table = p0.L1_page_table := by
      have := hqf.trans hpf
      simp only [process.fixed, Prod.mk.injEq] at this; exact this.2.2.2
    have hl1q : l1_entry_of q page = l1e := by
      simp only [l1_entry_of, L2_PT_ENTRIES, PTE_SIZE, hqL]; exact hl1e
    have hl1p0 : l1_entry_of p0 page = l1e := by
      simp only [l1_entry_of, L2_PT_ENTRIES, PTE_SIZE]; exact hl1e
    have hl1c : (l1e : Int) + 4 ≤ 32 * s1.allocated_frame_count := by
      have := hext1.1; omega
    obtain ⟨hv1t, hf1t⟩ := hext2.2.2.1 l1e hl1a hl1c hs1v
    refine ⟨hext0.trans (hext1.trans hext2), ⟨q, hq, ?_, ?_⟩, ?_⟩
    · rw [hl1q, hv1t]; exact hs1v
    · simp only [l2_entry_of, hl1q, hf1t, L2_PT_ENTRIES, PTE_SIZE, PAGESIZE]
      exact htv
    · rintro ⟨p', hp', hm1, hm2⟩
      rw [hp] at hp'
      cases hp'
      rw [hl1p0] at hm1
      have hs1 : s1 = s := hs1same (by rw [hs_pas]; exact hm1)
      subst hs1
      simp only [l2_entry_of, hl1p0, L2_PT_ENTRIES, PTE_SIZE, PAGESIZE] at hm2
      rw [hs_pas] at hhit
      obtain ⟨k1, k2, k3, k4, k5, k6, k7⟩ := hhit hm2
      refine ⟨rfl, by rw [k1, hs_cnt], p0, q, hp, hq, by rw [k2, hpq], ?_, ?_, ?_, ?_, ?_, ?_, ?_⟩
      · simp only [hl1p0, PAGE_INVALID]; exact hm1
      · simp only [l2_entry_of, hl1p0, L2_PT_ENTRIES, PTE_SIZE, PAGESIZE, PAGE_INVALID]
        exact hm2
      · simp only [l2_entry_of, hl1p0, L2_PT_ENTRIES, PTE_SIZE, PAGESIZE]
        rw [k3, hs_out, hpp, hpc]
      · simp only [l2_entry_of, hl1p0, hl1q, L2_PT_ENTRIES, PTE_SIZE, PAGESIZE, k6]
      · simp only [l2_entry_of, hl1p0, L2_PT_ENTRIES, PTE_SIZE, PAGESIZE]
        exact k4
      · simp only [l2_entry_of, hl1p0, L2_PT_ENTRIES, PTE_SIZE, PAGESIZE]
        exact k5
      · simp only [l2_entry_of, hl1p0, L2_PT_ENTRIES, PTE_SIZE, PAGESIZE]
        exact k7


theorem translate_mapped {s0 : State} {i : Nat} {p0 : process}
    (hp : s0.procs[i]? = some p0) (hc : p0.ref_count < p0.ref_len)
    (hm : Mapped s0 i (p0.references.getD p0.ref_count.toNat 0)) :
    ∃ t, translate s0 i p0 = .completed t := by
  obtain ⟨p', hp', hm1, hm2⟩ := hm
  rw [hp] at hp'
  cases hp'
  unfold translate
  rw [if_neg (by omega)]
  simp only [l1_entry_of, l2_entry_of] at hm1 hm2
  have h1 : l1_walk { s0 with procs := s0.procs.set i { p0 with ref_count := p0.ref_count + 1 } }
      { p0 with ref_count := p0.ref_count + 1 } (p0.references.getD p0.ref_count.toNat 0)
      (p0.L1_page_table + p0.references.getD p0.ref_count.toNat 0 / L2_PT_ENTRIES * PTE_SIZE)
      = some { s0 with procs := s0.procs.set i { p0 with ref_count := p0.ref_count + 1 } } := by
    unfold l1_walk
    exact if_neg hm1
  simp only [h1]
  unfold l2_walk
  exact ⟨_, if_neg hm2⟩

theorem translate_skipped {s0 : State} {i : Nat} {p0 : process}
    (hc : p0.ref_count ≥ p0.ref_len) : translate s0 i p0 = .skipped := by
  unfold translate
  rw [if_pos hc]

/-! ## Runs -/

theorem Inv.print {s : State} (h : Inv s) (l : Line) : Inv (print s l) := h

theorem for_loop_trace (idxs : List Nat) : ∀ (s : State) (fin : Bool), Inv s →
    ∀ tail : List Step,
      ((for_loop idxs s fin).returned = true → tail = []) →
      ((for_loop idxs s fin).returned = false → Inv (for_loop idxs s fin).s →
        Trace (for_loop idxs s fin).s tail) →
      Trace s ((for_loop idxs s fin).steps ++ tail) := by
  induction idxs with
  | nil =>
    intro s fin hinv tail _ h2
    exact h2 rfl hinv
  | cons i rest ih =>
    intro s fin hinv tail h1 h2
    unfold for_loop at h1 h2 ⊢
    cases hp : s.procs[i]? with
    | none =>
      simp only [hp] at h1 h2 ⊢
      exact ih s fin hinv tail h1 h2
    | some p =>
      simp only [hp] at h1 h2 ⊢
      cases ht : translate s i p with
      | skipped =>
        simp only [ht] at h1 h2 ⊢
        exact ih s fin hinv tail h1 h2
      | completed s1 =>
        simp only [ht] at h1 h2 ⊢
        have hlt : p.ref_count < p.ref_len := by
          by_contra hc
          rw [translate_skipped (by omega)] at ht
          cases ht
        obtain ⟨hext, _, _⟩ := translate_completed hinv hp ht
        refine ⟨Ext.refl s, hinv, ⟨p, hp, hlt, rfl, by simpa using ht⟩, ?_, ?_⟩
        · intro hf; cases hf
        · exact ih s1 false (hext.inv hinv) tail h1 h2
      | aborted s1 =>
        simp only [ht] at h1 h2 ⊢
        have hlt : p.ref_count < p.ref_len := by
          by_contra hc
          rw [translate_skipped (by omega)] at ht
          cases ht
        rw [h1 trivial]
        exact ⟨Ext.refl s, hinv, ⟨p, hp, hlt, rfl, by simpa using ht⟩, fun _ => rfl, trivial⟩

theorem while_loop_trace (fuel : Nat) : ∀ s : State, Inv s →
    Trace s (while_loop fuel s).steps := by
  induction fuel with
  | zero => intro s _; trivial
  | succ n ih =>
    intro s hinv
    unfold while_loop
    simp only []
    cases hr : (for_loop (List.range s.procs.length) s true).returned with
    | true =>
      simp only [if_true]
      have := for_loop_trace (List.range s.procs.length) s true hinv [] (fun _ => rfl)
        (fun _ _ => trivial)
      simpa using this
    | false =>
      simp only [Bool.false_eq_true, if_false]
      cases hf : (for_loop (List.range s.procs.length) s true).finished with
      | true =>
        simp only [if_true]
        have := for_loop_trace (List.range s.procs.length) s true hinv [] (fun _ => rfl)
          (fun _ _ => trivial)
        simpa using this
      | false =>
        simp only [Bool.false_eq_true, if_false]
        apply for_loop_trace (List.range s.procs.length) s true hinv
        · intro h; rw [hr] at h; cases h
        · intro _ hi; exact ih _ hi

theorem simulate_steps (s : State) :
    (simulate s).steps = (while_loop (cycles s) (print s .sim_start)).steps := by
  unfold simulate
  simp only []
  split <;> rfl

theorem simulate_trace (s : State) (hinv : Inv s) :
    Trace (print s .sim_start) (simulate s).steps := by
  rw [simulate_steps]
  exact while_loop_trace _ _ (hinv.print _)

theorem Trace.at_step : ∀ (xs : List Step) (s : State) (st : Step) (ys : List Step),
    Trace s (xs ++ st :: ys) → Ext s st.pre ∧ Inv st.pre ∧ st.ok := by
  intro xs
  induction xs with
  | nil =>
    intro s st ys h
    exact ⟨h.1, h.2.1, h.2.2.1⟩
  | cons x xs ih =>
    intro s st ys h
    obtain ⟨h1, h2, h3, h4, h5⟩ := h
    obtain ⟨p, hp, hlt, hpage, htr⟩ := h3
    have hoom : x.oom = false := by
      cases ho : x.oom with
      | false => rfl
      | true => have := h4 ho; simp at this
    rw [hoom] at htr
    simp only [Bool.false_eq_true, if_false] at htr
    obtain ⟨hext, _, _⟩ := translate_completed h2 hp htr
    obtain ⟨k1, k2, k3⟩ := ih x.post st ys h5
    exact ⟨h1.trans (hext.trans k1), k2, k3⟩

theorem Trace.hit : ∀ (xs : List Step) (s : State) (st : Step) (ys : List Step),
    Trace s (xs ++ st :: ys) → (∃ e ∈ xs, e.i = st.i ∧ e.page = st.page) → st.is_hit := by
  intro xs
  induction xs with
  | nil =>
    intro s st ys _ h
    obtain ⟨e, he, _⟩ := h
    cases he
  | cons x xs ih =>
    intro s st ys h hseen
    obtain ⟨h1, h2, h3, h4, h5⟩ := h
    obtain ⟨e, he, hei, hepg⟩ := hseen
    rcases List.mem_cons.mp he with hex | hexs
    · subst hex
      obtain ⟨p, hp, hlt, hpage, htr⟩ := h3
      have hoom : e.oom = false := by
        cases ho : e.oom with
        | false => rfl
        | true => have := h4 ho; simp at this
      rw [hoom] at htr
      simp only [Bool.false_eq_true, if_false] at htr
      obtain ⟨hext, hmap, _⟩ := translate_completed h2 hp htr
      obtain ⟨k1, k2, k3⟩ := Trace.at_step xs e.post st ys h5
      have hpg : e.page < 64 := by
        rw [hpage]
        exact getD_lt (h2.2 p (List.getElem?_mem hp)).2.2.1 _
      rw [← hpage] at hmap
      have hm : Mapped st.pre st.i st.page := by
        rw [← hei, ← hepg]
        exact k1.mapped (hext.inv h2) hpg hmap
      obtain ⟨q, hq, hqlt, hqpage, hqtr⟩ := k3
      rw [hqpage] at hm
      obtain ⟨t, ht⟩ := translate_mapped hq hqlt hm
      obtain ⟨i, page, pre, post, oom⟩ := st
      simp only at hq hqlt hqpage hqtr hm ht k2
      cases oom with
      | true =>
        rw [ht] at hqtr
        simp at hqtr
      | false =>
        rw [ht] at hqtr
        simp only [Bool.false_eq_true, if_false, Outcome.completed.injEq] at hqtr
        subst hqtr
        obtain ⟨_, _, hh⟩ := translate_completed k2 hq ht
        rw [hqpage]
        exact hh hm
    · exact ih x.post st ys h5 ⟨e, hexs, hei, hepg⟩


/-! ## Loading -/

theorem Inv.start : Inv State.start :=
  ⟨le_refl _, fun _ h => by cases h⟩

theorem load_process_ok (pid : Int) (refs : List Nat) (rest : List (Int × List Nat))
    (s : State) (h0 : 0 ≤ s.allocated_frame_count) (h : s.allocated_frame_count < 256) :
    load_process ((pid, refs) :: rest) s
      = (1, rest,
          ⟨memset s.pas (s.allocated_frame_count * 32).toNat 0 32,
           s.allocated_frame_count + 1,
           s.procs ++ [⟨pid, refs.length, refs, (s.allocated_frame_count * 32).toNat, 0, 0⟩],
           s.out ++ [.proc_header pid refs.length] ++ [.proc_refs refs]⟩) := by
  unfold load_process
  simp only []
  rw [allocate_pagetable_frame_ok (print (print s (.proc_header pid refs.length))
    (.proc_refs refs)) h0 h]
  rfl

theorem load_process_full (pid : Int) (refs : List Nat) (rest : List (Int × List Nat))
    (s : State) (h : 256 ≤ s.allocated_frame_count) :
    load_process ((pid, refs) :: rest) s
      = (-1, rest, print (print s (.proc_header pid refs.length)) (.proc_refs refs)) := by
  unfold load_process
  simp only []
  rw [allocate_pagetable_frame_full (print (print s (.proc_header pid refs.length))
    (.proc_refs refs)) h]

theorem load_loop_inv (k : Nat) : ∀ (input : List (Int × List Nat)) (s t : State),
    Inv s → (∀ r ∈ input, ∀ pg ∈ r.2, pg < 64) →
    load_loop k input s = (false, t) → Inv t := by
  induction k with
  | zero =>
    intro input s t hinv _ h
    simp only [load_loop, Prod.mk.injEq, true_and] at h
    rw [← h]; exact hinv
  | succ k ih =>
    intro input s t hinv hpages h
    cases input with
    | nil =>
      simp only [load_loop, load_process, if_true, Prod.mk.injEq, true_and] at h
      rw [← h]; exact hinv
    | cons r rest =>
      obtain ⟨pid, refs⟩ := r
      by_cases hc : s.allocated_frame_count < 256
      · unfold load_loop at h
        rw [load_process_ok pid refs rest s hinv.1 hc] at h
        simp only [one_ne_zero, if_false] at h
        rw [if_neg (by decide)] at h
        refine ih rest _ t ?_ (fun r hr => hpages r (List.mem_cons_of_mem _ hr)) h
        obtain ⟨n, hn⟩ := Int.eq_ofNat_of_zero_le hinv.1
        have hn2 : (s.allocated_frame_count * 32).toNat = n * 32 := by omega
        refine ⟨by simp only; omega, ?_⟩
        intro p hp
        simp only [List.mem_append, List.mem_singleton] at hp
        rcases hp with hp | hp
        · obtain ⟨ha, hb, hc2, hd⟩ := hinv.2 p hp
          refine ⟨ha, by simp only; omega, hc2, ?_⟩
          intro l1 hl1 hv
          simp only [pte_vflag, pte_frame, read_memset, hn2] at hv ⊢
          rw [if_neg (by omega)] at hv ⊢
          have := hd l1 hl1 hv
          simp only [pte_frame] at this
          omega
        · subst hp
          refine ⟨by simp only; omega, by simp only; omega,
            hpages (pid, refs) (List.mem_cons_self _ _), ?_⟩
          intro l1 hl1 hv
          simp only [pte_vflag, read_memset, hn2] at hv
          rw [if_pos (by omega)] at hv
          exact absurd rfl hv
      · unfold load_loop at h
        rw [load_process_full pid refs rest s (by omega)] at h
        simp at h

theorem loaded_inv {input : List (Int × List Nat)} {s0 : State}
    (hpages : ∀ r ∈ input, ∀ pg ∈ r.2, pg < 64) (h : loaded input = some s0) : Inv s0 := by
  unfold loaded at h
  cases hl : load_loop MAX_PROCESSES input (print State.start .load_start) with
  | mk b s =>
    rw [hl] at h
    cases b with
    | true => cases h
    | false =>
      simp only [Option.some.injEq] at h
      rw [← h]
      exact (load_loop_inv _ _ _ _ (Inv.start.print _) hpages hl).print _

/-- C6: in every run of `simulate` on processes loaded by `main` (pages below
64), a reference by a process to a page that the same process referenced earlier
in the run is a hit: it does not abort, `allocated_frame_count` and the
`page_faults` of the process are unchanged, the L2 entry of the page is found
valid and keeps its `vflag` and `frame`, the hit line is printed, and the `ref`
of the entry grows by exactly 1 when it was below 255. -/
theorem rereference_is_hit (input : List (Int × List Nat)) (s0 : State)
    (before after : List Step) (st : Step)
    (hpages : ∀ r ∈ input, ∀ pg ∈ r.2, pg < 64)
    (hload : loaded input = some s0)
    (hrun : (simulate s0).steps = before ++ st :: after)
    (hseen : ∃ e ∈ before, e.i = st.i ∧ e.page = st.page) :
    st.is_hit := by
  have htr := simulate_trace s0 (loaded_inv hpages hload)
  rw [hrun] at htr
  exact Trace.hit before _ st after htr hseen


theorem split_at_three (l : List Step) (h : 3 < l.length) :
    l = l.take 3 ++ (match l.drop 3 with
      | st :: _ => st
      | [] => ⟨0, 0, State.start, State.start, false⟩) :: l.drop 4 := by
  match l, h with
  | _ :: _ :: _ :: _ :: _, _ => rfl

set_option maxRecDepth 100000 in
theorem rereference_is_hit_witness :
    (∀ r ∈ scenario, ∀ pg ∈ r.2, pg < 64) ∧
    loaded scenario = some scenario_state ∧
    (simulate scenario_state).steps
      = (simulate scenario_state).steps.take 3 ++ scenario_last
          :: (simulate scenario_state).steps.drop 4 ∧
    (∃ e ∈ (simulate scenario_state).steps.take 3,
      e.i = scenario_last.i ∧ e.page = scenario_last.page) ∧
    scenario_last.is_hit :=
  ⟨by decide, rfl, split_at_three _ (by decide!), by decide!,
    rereference_is_hit scenario scenario_state ((simulate scenario_state).steps.take 3)
      ((simulate scenario_state).steps.drop 4) scenario_last (by decide) rfl
      (split_at_three _ (by decide!)) (by decide!)⟩

/-! ## The cases of one reference -/

theorem l1_walk_cases (s : State) (p : process) (page e : Nat)
    (h0 : 0 ≤ s.allocated_frame_count) :
    (pte_vflag s.pas e ≠ 0 ∧ l1_walk s p page e = some s) ∨
    (pte_vflag s.pas e = 0 ∧ 256 ≤ s.allocated_frame_count ∧ l1_walk s p page e = none) ∨
    (pte_vflag s.pas e = 0 ∧ s.allocated_frame_count < 256 ∧
      ∃ s1, l1_walk s p page e = some s1 ∧
        s1.allocated_frame_count = s.allocated_frame_count + 1 ∧
        s1.procs = s.procs ∧
        (∃ fr, s1.out = s.out ++ [Line.l1_fault p.pid (p.ref_count - 1) page fr]) ∧
        s1.pas = store (store (memset s.pas (s.allocated_frame_count * 32).toNat 0 32) e
          (((s.allocated_frame_count * 32).toNat - 0) / 4 / 32 % 256)) (e + 1) 1) := by
  unfold l1_walk
  by_cases hv : pte_vflag s.pas e = PAGE_INVALID
  · rw [if_pos hv]
    by_cases hc : s.allocated_frame_count < 256
    · right; right
      rw [allocate_pagetable_frame_ok s h0 hc]
      exact ⟨hv, hc, _, rfl, rfl, rfl, ⟨_, rfl⟩, rfl⟩
    · right; left
      rw [allocate_pagetable_frame_full s (by omega)]
      exact ⟨hv, by omega, rfl⟩
  · left
    rw [if_neg hv]
    exact ⟨hv, rfl⟩

theorem l2_walk_cases (s : State) (i : Nat) (p : process) (page l1e l2i : Nat)
    (h0 : 0 ≤ s.allocated_frame_count) :
    (pte_vflag s.pas (pte_frame s.pas l1e * 32 + l2i * 4) ≠ 0 ∧
      ∃ t, l2_walk s i p page l1e l2i = .completed t ∧
        t.allocated_frame_count = s.allocated_frame_count ∧ t.procs = s.procs ∧
        (∃ a b, t.out = s.out ++ [Line.l2_hit p.pid (p.ref_count - 1) page a b]) ∧
        t.pas = store s.pas (pte_frame s.pas l1e * 32 + l2i * 4 + 2)
          ((pte_ref s.pas (pte_frame s.pas l1e * 32 + l2i * 4) + 1) % 256)) ∨
    (pte_vflag s.pas (pte_frame s.pas l1e * 32 + l2i * 4) = 0 ∧
      256 ≤ s.allocated_frame_count ∧
      l2_walk s i p page l1e l2i = .aborted (print s .out_of_memory)) ∨
    (pte_vflag s.pas (pte_frame s.pas l1e * 32 + l2i * 4) = 0 ∧
      s.allocated_frame_count < 256 ∧
      ∃ t, l2_walk s i p page l1e l2i = .completed t ∧
        t.allocated_frame_count = s.allocated_frame_count + 1 ∧
        t.procs = s.procs.set i { p with page_faults := p.page_faults + 1 } ∧
        (∃ a, t.out = s.out ++ [Line.l2_fault p.pid (p.ref_count - 1) page a
          s.allocated_frame_count]) ∧
        t.pas = store (store (store s.pas (pte_frame s.pas l1e * 32 + l2i * 4)
          (s.allocated_frame_count % 256).toNat)
          (pte_frame s.pas l1e * 32 + l2i * 4 + 1) 1)
          (pte_frame s.pas l1e * 32 + l2i * 4 + 2) 1) := by
  unfold l2_walk
  simp only [PAGESIZE, PTE_SIZE]
  by_cases hv : pte_vflag s.pas (pte_frame s.pas l1e * 32 + l2i * 4) = PAGE_INVALID
  · rw [if_pos hv]
    by_cases hc : s.allocated_frame_count < 256
    · right; right
      rw [allocate_frame_ok s hc]
      have h1 : ¬ s.allocated_frame_count = -1 := by omega
      rw [if_neg h1]
      exact ⟨hv, hc, _, rfl, rfl, rfl, ⟨_, rfl⟩, rfl⟩
    · right; left
      rw [allocate_frame_full s (by omega)]
      rw [if_pos rfl]
      exact ⟨hv, by omega, rfl⟩
  · left
    rw [if_neg hv]
    exact ⟨hv, _, rfl, rfl, rfl, ⟨_, _, rfl⟩, rfl⟩

theorem tables_allocated_print (s : State) (l : Line) :
    tables_allocated (print s l)
      = tables_allocated s + (if l.is_l1_fault then 1 else 0) := by
  unfold tables_allocated print
  simp only [List.filter_append, List.length_append, List.filter_cons, List.filter_nil]
  cases l.is_l1_fault <;> simp

theorem tables_allocated_other {s t : State} {l : Line} (h : t.out = s.out ++ [l])
    (hl : l.is_l1_fault = false) : tables_allocated t = tables_allocated s := by
  unfold tables_allocated
  rw [h, List.filter_append]
  simp [hl]

theorem tables_allocated_fault {s t : State} {l : Line} (h : t.out = s.out ++ [l])
    (hl : l.is_l1_fault = true) : tables_allocated t = tables_allocated s + 1 := by
  unfold tables_allocated
  rw [h, List.filter_append]
  simp [hl]

theorem tables_allocated_oom (s : State) :
    tables_allocated (print s .out_of_memory) = tables_allocated s :=
  tables_allocated_other rfl rfl

/-- What one pass through the loop body does to the counter, to the process
array and to the output, whatever the contents of `pas`. -/
theorem translate_effect (s : State) (i : Nat) (p : process)
    (h0 : 0 ≤ s.allocated_frame_count) :
    (p.ref_count ≥ p.ref_len ∧ translate s i p = .skipped) ∨
    (p.ref_count < p.ref_len ∧ ∃ t q,
      (translate s i p = .completed t ∨
        (translate s i p = .aborted t ∧ 256 ≤ t.allocated_frame_count ∧
          t.out.getLast? = some .out_of_memory)) ∧
      s.allocated_frame_count ≤ t.allocated_frame_count ∧
      (s.allocated_frame_count ≤ 256 → t.allocated_frame_count ≤ 256) ∧
      t.procs = s.procs.set i q ∧ q.fixed = p.fixed ∧ q.ref_count = p.ref_count + 1 ∧
      p.page_faults ≤ q.page_faults ∧
      t.allocated_frame_count - tables_allocated t - q.page_faults
        = s.allocated_frame_count - tables_allocated s - p.page_faults) := by
  by_cases hc : p.ref_count ≥ p.ref_len
  · left
    exact ⟨hc, translate_skipped hc⟩
  right
  refine ⟨by omega, ?_⟩
  unfold translate
  rw [if_neg hc]
  simp only [L2_PT_ENTRIES, PTE_SIZE]
  generalize hpage : p.references.getD p.ref_count.toNat 0 = page
  generalize hpd : ({ p with ref_count := p.ref_count + 1 } : process) = p'
  have hpf : p'.fixed = p.fixed := by rw [← hpd]; rfl
  have hpc : p'.ref_count = p.ref_count + 1 := by rw [← hpd]
  have hpq : p'.page_faults = p.page_faults := by rw [← hpd]
  generalize hsd : ({ s with procs := s.procs.set i p' } : State) = s'
  have hs_cnt : s'.allocated_frame_count = s.allocated_frame_count := by rw [← hsd]
  have hs_out : s'.out = s.out := by rw [← hsd]
  have hs_procs : s'.procs = s.procs.set i p' := by rw [← hsd]
  have hs_tab : tables_allocated s' = tables_allocated s := by
    unfold tables_allocated; rw [hs_out]
  generalize hl1e : p.L1_page_table + page / 8 * 4 = l1e
  rcases l1_walk_cases s' p' page l1e (by rw [hs_cnt]; exact h0) with
    ⟨_, h1⟩ | ⟨_, hfull, h1⟩ | ⟨_, hlt, s1, h1, hc1, hp1, ⟨fr, ho1⟩, _⟩
  · -- the L1 entry is valid
    rw [h1]
    simp only []
    rcases l2_walk_cases s' i p' page l1e (page % 8) (by rw [hs_cnt]; exact h0) with
      ⟨_, t, h2, hc2, hp2, ⟨a, b, ho2⟩, _⟩ | ⟨_, hfull2, h2⟩ |
      ⟨_, hlt2, t, h2, hc2, hp2, ⟨a, ho2⟩, _⟩
    · refine ⟨t, p', Or.inl h2, by omega, by omega, by rw [hp2, hs_procs], hpf, hpc,
        by omega, ?_⟩
      rw [tables_allocated_other ho2 rfl, hs_tab]
      omega
    · refine ⟨print s' .out_of_memory, p', Or.inr ⟨h2, by simp only [print]; omega, ?_⟩,
        by simp only [print]; omega, by simp only [print]; omega, by simp only [print, hs_procs],
        hpf, hpc, by omega, ?_⟩
      · simp [print]
      · rw [tables_allocated_oom, hs_tab]
        simp only [print]
        omega
    · refine ⟨t, { p' with page_faults := p'.page_faults + 1 }, Or.inl h2, by omega, by omega,
        by rw [hp2, hs_procs, List.set_set], by rw [← hpf]; rfl, hpc, by simp only; omega, ?_⟩
      rw [tables_allocated_other ho2 rfl, hs_tab]
      show t.allocated_frame_count - tables_allocated s - (p'.page_faults + 1) = _
      omega
  · -- no frame for the L2 table
    rw [h1]
    simp only []
    refine ⟨print s' .out_of_memory, p', Or.inr ⟨rfl, by simp only [print]; omega, ?_⟩,
      by simp only [print]; omega, by simp only [print]; omega, by simp only [print, hs_procs],
      hpf, hpc, by omega, ?_⟩
    · simp [print]
    · rw [tables_allocated_oom, hs_tab]
      simp only [print]
      omega
  · -- the L2 table has been allocated
    rw [h1]
    simp only []
    have h01 : 0 ≤ s1.allocated_frame_count := by omega
    have ht1 : tables_allocated s1 = tables_allocated s + 1 := by
      rw [tables_allocated_fault ho1 rfl, hs_tab]
    rcases l2_walk_cases s1 i p' page l1e (page % 8) h01 with
      ⟨_, t, h2, hc2, hp2, ⟨a, b, ho2⟩, _⟩ | ⟨_, hfull2, h2⟩ |
      ⟨_, hlt2, t, h2, hc2, hp2, ⟨a, ho2⟩, _⟩
    · refine ⟨t, p', Or.inl h2, by omega, by omega, by rw [hp2, hp1, hs_procs], hpf, hpc,
        by omega, ?_⟩
      rw [tables_allocated_other ho2 rfl, ht1]
      omega
    · refine ⟨print s1 .out_of_memory, p', Or.inr ⟨h2, by simp only [print]; omega, ?_⟩,
        by simp only [print]; omega, by simp only [print]; omega,
        by simp only [print, hp1, hs_procs], hpf, hpc, by omega, ?_⟩
      · simp [print]
      · rw [tables_allocated_oom, ht1]
        simp only [print]
        omega
    · refine ⟨t, { p' with page_faults := p'.page_faults + 1 }, Or.inl h2, by omega, by omega,
        by rw [hp2, hp1, hs_procs, List.set_set], by rw [← hpf]; rfl, hpc,
        by simp only; omega, ?_⟩
      rw [tables_allocated_other ho2 rfl, ht1]
      show t.allocated_frame_count - (tables_allocated s + 1) - (p'.page_faults + 1) = _
      omega

/-! ## Chains of steps -/

theorem final_state_getLast (steps : List Step) (s : State) :
    final_state s steps = (steps.getLast?.map Step.post).getD s := by
  induction steps generalizing s with
  | nil => rfl
  | cons st rest ih =>
    cases rest with
    | nil => rfl
    | cons st2 rest2 =>
      rw [final_state, ih, List.getLast?_cons_cons]
      cases h : (st2 :: rest2).getLast? with
      | none => simp at h
      | some x => rfl

theorem ends_aborted_getLast (steps : List Step) :
    ends_aborted steps = (steps.getLast?.map Step.oom).getD false := by
  induction steps with
  | nil => rfl
  | cons st rest ih =>
    cases rest with
    | nil => rfl
    | cons st2 rest2 =>
      rw [ends_aborted, ih, List.getLast?_cons_cons]

theorem Linked.no_abort : ∀ (xs : List Step) (s : State), Linked s xs →
    ends_aborted xs = false → ∀ st ∈ xs, st.oom = false := by
  intro xs
  induction xs with
  | nil => intro s _ _ st hst; cases hst
  | cons x rest ih =>
    intro s hl he st hst
    obtain ⟨_, _, ho, hrest⟩ := hl
    cases rest with
    | nil =>
      simp only [List.mem_singleton] at hst
      subst hst
      exact he
    | cons y rest2 =>
      rcases List.mem_cons.1 hst with h | h
      · subst h
        cases hoom : st.oom with
        | false => rfl
        | true => cases ho hoom
      · exact ih _ hrest he st h

theorem Linked.append : ∀ (xs : List Step) (s : State) (ys : List Step),
    Linked s xs → ends_aborted xs = false → Linked (final_state s xs) ys →
    Linked s (xs ++ ys) := by
  intro xs
  induction xs with
  | nil => intro s ys _ _ h; exact h
  | cons x rest ih =>
    intro s ys hl he hy
    have hx : x.oom = false := Linked.no_abort _ s hl he x (List.mem_cons_self _ _)
    obtain ⟨h1, h2, _, hrest⟩ := hl
    refine ⟨h1, h2, ?_, ?_⟩
    · intro h; rw [hx] at h; cases h
    · apply ih _ _ hrest _ hy
      cases rest with
      | nil => rfl
      | cons y rest2 => exact he

theorem final_state_append (xs ys : List Step) (s : State) :
    final_state s (xs ++ ys) = final_state (final_state s xs) ys := by
  induction xs generalizing s with
  | nil => rfl
  | cons x rest ih => exact ih _

theorem ends_aborted_append (xs ys : List Step) (h : ends_aborted xs = false) :
    ends_aborted (xs ++ ys) = ends_aborted ys := by
  induction xs with
  | nil => rfl
  | cons x rest ih =>
    cases rest with
    | nil =>
      cases ys with
      | nil => exact h
      | cons y ys2 => rfl
    | cons z rest2 => exact ih h

theorem translate_live {s : State} {i : Nat} {p : process}
    (h : translate s i p ≠ .skipped) : p.ref_count < p.ref_len := by
  by_contra hc
  exact h (translate_skipped (by omega))

theorem for_loop_linked (idxs : List Nat) : ∀ (s : State) (fin : Bool),
    Linked s (for_loop idxs s fin).steps ∧
    (for_loop idxs s fin).s = final_state s (for_loop idxs s fin).steps ∧
    (for_loop idxs s fin).returned = ends_aborted (for_loop idxs s fin).steps := by
  induction idxs with
  | nil => intro s fin; exact ⟨trivial, rfl, rfl⟩
  | cons i rest ih =>
    intro s fin
    unfold for_loop
    cases hp : s.procs[i]? with
    | none => exact ih s fin
    | some p =>
      simp only []
      cases ht : translate s i p with
      | skipped => exact ih s fin
      | completed s1 =>
        simp only []
        have hlt : p.ref_count < p.ref_len := translate_live (by rw [ht]; intro h; cases h)
        obtain ⟨h1, h2, h3⟩ := ih s1 false
        refine ⟨⟨rfl, ⟨p, hp, hlt, rfl, by simpa using ht⟩, (fun h => by cases h), h1⟩, h2, ?_⟩
        rw [h3]
        cases (for_loop rest s1 false).steps with
        | nil => rfl
        | cons y ys => rfl
      | aborted s1 =>
        simp only []
        have hlt : p.ref_count < p.ref_len := translate_live (by rw [ht]; intro h; cases h)
        exact ⟨⟨rfl, ⟨p, hp, hlt, rfl, by simpa using ht⟩, fun _ => rfl, trivial⟩, rfl, rfl⟩

theorem while_loop_linked (fuel : Nat) : ∀ s : State,
    Linked s (while_loop fuel s).steps ∧
    (while_loop fuel s).s = final_state s (while_loop fuel s).steps ∧
    (while_loop fuel s).returned = ends_aborted (while_loop fuel s).steps := by
  induction fuel with
  | zero => intro s; exact ⟨trivial, rfl, rfl⟩
  | succ n ih =>
    intro s
    obtain ⟨h1, h2, h3⟩ := for_loop_linked (List.range s.procs.length) s true
    unfold while_loop
    simp only []
    cases hr : (for_loop (List.range s.procs.length) s true).returned with
    | true =>
      simp only [if_true]
      exact ⟨h1, h2, by rw [← h3, hr]⟩
    | false =>
      simp only [Bool.false_eq_true, if_false]
      cases hf : (for_loop (List.range s.procs.length) s true).finished with
      | true =>
        simp only [if_true]
        exact ⟨h1, h2, by rw [← h3, hr]⟩
      | false =>
        simp only [Bool.false_eq_true, if_false]
        obtain ⟨k1, k2, k3⟩ := ih (for_loop (List.range s.procs.length) s true).s
        rw [hr] at h3
        refine ⟨Linked.append _ _ _ h1 h3.symm (by rw [← h2]; exact k1), ?_, ?_⟩
        · rw [final_state_append, ← h2]; exact k2
        · rw [ends_aborted_append _ _ h3.symm]; exact k3

theorem simulate_linked (s : State) :
    Linked (print s .sim_start) (simulate s).steps ∧
    (simulate s).returned = ends_aborted (simulate s).steps ∧
    (simulate s).s = (if (simulate s).returned
      then final_state (print s .sim_start) (simulate s).steps
      else print (final_state (print s .sim_start) (simulate s).steps) .sim_end) := by
  obtain ⟨h1, h2, h3⟩ := while_loop_linked (cycles s) (print s .sim_start)
  unfold simulate
  simp only []
  cases hr : (while_loop (cycles s) (print s .sim_start)).returned with
  | true =>
    simp only [if_true]
    exact ⟨h1, by rw [← h3, hr], by rw [hr]; exact h2⟩
  | false =>
    simp only [Bool.false_eq_true, if_false]
    exact ⟨h1, by rw [← h3, hr], by rw [← h2]⟩

theorem sum_map_set (f : process → Int) (l : List process) : ∀ (i : Nat) (p q : process),
    l[i]? = some p → ((l.set i q).map f).sum = (l.map f).sum - f p + f q := by
  induction l with
  | nil => intro i p q h; cases h
  | cons x xs ih =>
    intro i p q h
    cases i with
    | zero =>
      simp only [List.getElem?_cons_zero, Option.some.injEq] at h
      subst h
      simp only [List.set_cons_zero, List.map_cons, List.sum_cons]
      omega
    | succ j =>
      simp only [List.getElem?_cons_succ] at h
      simp only [List.set_cons_succ, List.map_cons, List.sum_cons, ih j p q h]
      omega

/-- What a step does to the counter, to the process array and to the output. -/
theorem Step.effect {st : Step} (hok : st.ok) (h0 : 0 ≤ st.pre.allocated_frame_count) :
    ∃ p q, st.pre.procs[st.i]? = some p ∧ p.ref_count < p.ref_len ∧
      st.page = p.references.getD p.ref_count.toNat 0 ∧
      st.post.procs = st.pre.procs.set st.i q ∧ q.fixed = p.fixed ∧
      q.ref_count = p.ref_count + 1 ∧ p.page_faults ≤ q.page_faults ∧
      st.pre.allocated_frame_count ≤ st.post.allocated_frame_count ∧
      (st.pre.allocated_frame_count ≤ 256 → st.post.allocated_frame_count ≤ 256) ∧
      st.post.allocated_frame_count - tables_allocated st.post
          - (st.post.procs.map (fun p => p.page_faults)).sum
        = st.pre.allocated_frame_count - tables_allocated st.pre
          - (st.pre.procs.map (fun p => p.page_faults)).sum ∧
      (st.oom = true → 256 ≤ st.post.allocated_frame_count ∧
        st.post.out.getLast? = some .out_of_memory) := by
  obtain ⟨p, hp, hlt, hpage, htr⟩ := hok
  rcases translate_effect st.pre st.i p h0 with ⟨hge, _⟩ | ⟨_, t, q, hout, hm, hb, hpr, hf, hrc, hpf, hbal⟩
  · omega
  have key : t = st.post ∧ (st.oom = true → 256 ≤ t.allocated_frame_count ∧
      t.out.getLast? = some .out_of_memory) := by
    cases hoom : st.oom with
    | false =>
      rw [hoom] at htr
      simp only [Bool.false_eq_true, if_false] at htr
      rcases hout with h | ⟨h, _⟩
      · rw [h] at htr
        exact ⟨by injection htr, fun h => by cases h⟩
      · rw [h] at htr; cases htr
    | true =>
      rw [hoom] at htr
      simp only [if_true] at htr
      rcases hout with h | ⟨h, h2, h3⟩
      · rw [h] at htr; cases htr
      · rw [h] at htr
        exact ⟨by injection htr, fun _ => ⟨h2, h3⟩⟩
  obtain ⟨ht, hab⟩ := key
  subst ht
  refine ⟨p, q, hp, hlt, hpage, hpr, hf, hrc, hpf, hm, hb, ?_, hab⟩
  rw [hpr, sum_map_set (fun p => p.page_faults) _ _ p q hp]
  omega

theorem Linked.preserved (P : State → Prop)
    (hstep : ∀ st : Step, st.ok → P st.pre → P st.post) :
    ∀ (steps : List Step) (s : State), Linked s steps → P s →
      P (final_state s steps) ∧ ∀ st ∈ steps, P st.pre ∧ P st.post := by
  intro steps
  induction steps with
  | nil => intro s _ h; exact ⟨h, fun _ h => by cases h⟩
  | cons x rest ih =>
    intro s hl hs
    obtain ⟨h1, h2, _, h4⟩ := hl
    have hx : P x.post := hstep x h2 (by rw [h1]; exact hs)
    obtain ⟨k1, k2⟩ := ih x.post h4 hx
    refine ⟨k1, ?_⟩
    intro st hst
    rcases List.mem_cons.1 hst with h | h
    · subst h
      exact ⟨by rw [h1]; exact hs, hx⟩
    · exact k2 st h

theorem Linked.steps_ok : ∀ (steps : List Step) (s : State), Linked s steps →
    ∀ st ∈ steps, st.ok := by
  intro steps
  induction steps with
  | nil => intro _ _ _ h; cases h
  | cons x rest ih =>
    intro s hl st hst
    rcases List.mem_cons.1 hst with h | h
    · subst h; exact hl.2.1
    · exact ih _ hl.2.2.2 st h

/-! ## The counter -/

theorem bounded_print {s : State} (h : Bounded s) (l : Line) : Bounded (print s l) := h

theorem allocate_frame_bounded (s : State) (hb : Bounded s) :
    Bounded (allocate_frame s).2 ∧
    s.allocated_frame_count ≤ (allocate_frame s).2.allocated_frame_count ∧
    ((allocate_frame s).1 = -1 → (allocate_frame s).2 = s) := by
  obtain ⟨h0, h1⟩ := hb
  simp only [PAS_FRAMES] at h1
  by_cases hc : s.allocated_frame_count < 256
  · rw [allocate_frame_ok s hc]
    refine ⟨⟨by simp only; omega, by simp only [PAS_FRAMES]; omega⟩, by simp only; omega, ?_⟩
    intro h
    simp only at h
    omega
  · rw [allocate_frame_full s (by omega)]
    exact ⟨⟨h0, h1⟩, le_refl _, fun _ => rfl⟩

theorem allocate_pagetable_frame_bounded (s : State) (hb : Bounded s) :
    Bounded (allocate_pagetable_frame s).2 ∧
    s.allocated_frame_count ≤ (allocate_pagetable_frame s).2.allocated_frame_count := by
  obtain ⟨h0, h1⟩ := hb
  simp only [PAS_FRAMES] at h1
  by_cases hc : s.allocated_frame_count < 256
  · rw [allocate_pagetable_frame_ok s h0 hc]
    exact ⟨⟨by simp only; omega, by simp only [PAS_FRAMES]; omega⟩, by simp only; omega⟩
  · rw [allocate_pagetable_frame_full s (by omega)]
    exact ⟨⟨h0, h1⟩, le_refl _⟩

theorem load_process_bounded (input : List (Int × List Nat)) (s : State) (hb : Bounded s) :
    Bounded (load_process input s).2.2 ∧
    s.allocated_frame_count ≤ (load_process input s).2.2.allocated_frame_count := by
  cases input with
  | nil => exact ⟨hb, le_refl _⟩
  | cons r rest =>
    obtain ⟨pid, refs⟩ := r
    obtain ⟨h0, h1⟩ := hb
    simp only [PAS_FRAMES] at h1
    by_cases hc : s.allocated_frame_count < 256
    · rw [load_process_ok pid refs rest s h0 hc]
      exact ⟨⟨by simp only; omega, by simp only [PAS_FRAMES]; omega⟩, by simp only; omega⟩
    · rw [load_process_full pid refs rest s (by omega)]
      exact ⟨⟨h0, h1⟩, le_refl _⟩

theorem load_loop_bounded (k : Nat) : ∀ (input : List (Int × List Nat)) (s : State),
    Bounded s → Bounded (load_loop k input s).2 ∧
      s.allocated_frame_count ≤ (load_loop k input s).2.allocated_frame_count := by
  induction k with
  | zero => intro input s hb; exact ⟨hb, le_refl _⟩
  | succ k ih =>
    intro input s hb
    obtain ⟨k1, k2⟩ := load_process_bounded input s hb
    unfold load_loop
    simp only []
    split
    · exact ⟨k1, k2⟩
    · split
      · exact ⟨k1, k2⟩
      · obtain ⟨j1, j2⟩ := ih (load_process input s).2.1 (load_process input s).2.2 k1
        exact ⟨j1, le_trans k2 j2⟩

theorem translate_bounded (s : State) (hb : Bounded s) (i : Nat) (p : process) (t : State)
    (h : translate s i p = .completed t ∨ translate s i p = .aborted t) :
    Bounded t ∧ s.allocated_frame_count ≤ t.allocated_frame_count := by
  obtain ⟨h0, h1⟩ := hb
  simp only [PAS_FRAMES] at h1
  rcases translate_effect s i p h0 with ⟨_, hs⟩ | ⟨_, u, q, hout, hm, hbd, _⟩
  · rw [hs] at h
    rcases h with h | h <;> cases h
  · have : u = t := by
      rcases hout with h2 | ⟨h2, _⟩ <;> rcases h with h | h <;> rw [h2] at h <;>
        injection h
    subst this
    exact ⟨⟨by omega, by simp only [PAS_FRAMES]; omega⟩, hm⟩

theorem simulate_bounded (s : State) (hb : Bounded s) :
    Bounded (simulate s).s ∧
    s.allocated_frame_count ≤ (simulate s).s.allocated_frame_count ∧
    ∀ st ∈ (simulate s).steps, Bounded st.pre ∧ Bounded st.post ∧
      s.allocated_frame_count ≤ st.pre.allocated_frame_count ∧
      st.pre.allocated_frame_count ≤ st.post.allocated_frame_count := by
  obtain ⟨hl, _, hs⟩ := simulate_linked s
  have hstep : ∀ st : Step, st.ok →
      (Bounded st.pre ∧ s.allocated_frame_count ≤ st.pre.allocated_frame_count) →
      (Bounded st.post ∧ s.allocated_frame_count ≤ st.post.allocated_frame_count) := by
    intro st hok ⟨⟨h0, h1⟩, h2⟩
    obtain ⟨p, q, _, _, _, _, _, _, _, hm, hbd, _⟩ := Step.effect hok h0
    simp only [PAS_FRAMES] at h1
    exact ⟨⟨by omega, by simp only [PAS_FRAMES]; omega⟩, by omega⟩
  obtain ⟨k1, k2⟩ := Linked.preserved
    (fun t => Bounded t ∧ s.allocated_frame_count ≤ t.allocated_frame_count) hstep _ _ hl ⟨bounded_print hb _, le_refl _⟩
  have hfin : Bounded (simulate s).s ∧
      s.allocated_frame_count ≤ (simulate s).s.allocated_frame_count := by
    rw [hs]
    split
    · exact k1
    · exact k1
  refine ⟨hfin.1, hfin.2, ?_⟩
  intro st hst
  obtain ⟨⟨a1, a2⟩, b1, _⟩ := k2 st hst
  have hok : st.ok := Linked.steps_ok _ _ hl st hst
  obtain ⟨p, q, _, _, _, _, _, _, _, hm, _⟩ := Step.effect hok a1.1
  exact ⟨a1, b1, a2, hm⟩

/-! ## Loading, whatever the input -/

theorem fresh_print {s : State} (h : Fresh s) (l : Line) (hl : l.is_l1_fault = false) :
    Fresh (print s l) := by
  obtain ⟨h1, h2, h3, h4⟩ := h
  exact ⟨h1, h2, by rw [tables_allocated_other rfl hl]; exact h3, h4⟩

theorem fresh_start : Fresh State.start :=
  ⟨rfl, fun x => read_zero x, rfl, fun i p h => by cases h⟩

theorem load_loop_fresh (k : Nat) : ∀ (input : List (Int × List Nat)) (s : State),
    Fresh s → s.procs.length + k ≤ 256 →
    (load_loop k input s).1 = false ∧ Fresh (load_loop k input s).2 ∧
    (load_loop k input s).2.procs.map (fun p => (p.pid, p.references))
      = s.procs.map (fun p => (p.pid, p.references)) ++ input.take k := by
  induction k with
  | zero =>
    intro input s hf _
    exact ⟨rfl, hf, by simp [load_loop]⟩
  | succ k ih =>
    intro input s hf hk
    cases input with
    | nil => exact ⟨rfl, hf, by simp [load_loop, load_process]⟩
    | cons r rest =>
      obtain ⟨pid, refs⟩ := r
      obtain ⟨h1, h2, h3, h4⟩ := hf
      have hc : s.allocated_frame_count < 256 := by omega
      have hn : (s.allocated_frame_count * 32).toNat = s.procs.length * 32 := by omega
      unfold load_loop
      rw [load_process_ok pid refs rest s (by omega) hc]
      simp only [one_ne_zero, if_false]
      rw [if_neg (by decide)]
      have hfresh : Fresh ⟨memset s.pas (s.allocated_frame_count * 32).toNat 0 32,
          s.allocated_frame_count + 1,
          s.procs ++ [⟨pid, refs.length, refs, (s.allocated_frame_count * 32).toNat, 0, 0⟩],
          s.out ++ [.proc_header pid refs.length] ++ [.proc_refs refs]⟩ := by
        refine ⟨by simp only [List.length_append, List.length_singleton]; omega, ?_, ?_, ?_⟩
        · intro x
          simp only [read_memset, h2]
          split <;> rfl
        · have e : tables_allocated ⟨memset s.pas (s.allocated_frame_count * 32).toNat 0 32,
              s.allocated_frame_count + 1,
              s.procs ++ [⟨pid, refs.length, refs, (s.allocated_frame_count * 32).toNat, 0, 0⟩],
              s.out ++ [.proc_header pid refs.length] ++ [.proc_refs refs]⟩
              = tables_allocated s := by
            unfold tables_allocated
            simp [List.filter_append, Line.is_l1_fault]
          rw [e]
          exact h3
        · intro i p hp
          simp only at hp
          by_cases hi : i < s.procs.length
          · rw [List.getElem?_append_left hi] at hp
            exact h4 i p hp
          · rw [List.getElem?_append_right (by omega)] at hp
            have hi0 : i - s.procs.length = 0 := by
              by_contra hne
              rw [List.getElem?_eq_none (by simp only [List.length_singleton]; omega)] at hp
              cases hp
            rw [hi0] at hp
            simp only [List.getElem?_cons_zero, Option.some.injEq] at hp
            subst hp
            refine ⟨?_, rfl, rfl, rfl⟩
            simp only [PAGESIZE]
            omega
      obtain ⟨k1, k2, k3⟩ := ih rest _ hfresh
        (by simp only [List.length_append, List.length_singleton]; omega)
      refine ⟨k1, k2, ?_⟩
      rw [k3]
      simp

theorem loaded_fresh (input : List (Int × List Nat)) :
    ∃ s, loaded input = some s ∧
      (load_loop MAX_PROCESSES input (print State.start .load_start)).1 = false ∧
      (main input).1 = 0 ∧
      (main input).2 = print_page_tables (simulate s).s ∧
      Fresh s ∧
      s.procs.map (fun p => (p.pid, p.references)) = input.take MAX_PROCESSES := by
  obtain ⟨h1, h2, h3⟩ := load_loop_fresh MAX_PROCESSES input (print State.start .load_start)
    (fresh_print fresh_start _ rfl) (by simp [print, State.start])
  cases hl : load_loop MAX_PROCESSES input (print State.start .load_start) with
  | mk b t =>
    rw [hl] at h1 h2 h3
    simp only at h1 h2 h3
    subst h1
    refine ⟨print t .load_end, ?_, rfl, ?_, ?_, fresh_print h2 _ rfl, ?_⟩
    · unfold loaded; rw [hl]
    · unfold main; rw [hl]
    · unfold main; rw [hl]
    · rw [show (print t .load_end).procs = t.procs from rfl, h3]
      simp [print, State.start]

/-! ## Totals -/

theorem sum_one_add (l : List process) :
    (l.map (fun p => 1 + p.page_faults)).sum
      = (l.length : Int) + (l.map (fun p => p.page_faults)).sum := by
  induction l with
  | nil => rfl
  | cons x xs ih =>
    simp only [List.map_cons, List.sum_cons, List.length_cons, ih]
    push_cast
    omega

theorem sum_faults_zero (l : List process) (h : ∀ p ∈ l, p.page_faults = 0) :
    (l.map (fun p => p.page_faults)).sum = 0 := by
  induction l with
  | nil => rfl
  | cons x xs ih =>
    simp only [List.map_cons, List.sum_cons, h x (List.mem_cons_self _ _),
      ih (fun p hp => h p (List.mem_cons_of_mem _ hp))]
    rfl

theorem simulate_balance (s : State) (h0 : 0 ≤ s.allocated_frame_count) :
    (simulate s).s.allocated_frame_count - tables_allocated (simulate s).s
        - ((simulate s).s.procs.map (fun p => p.page_faults)).sum
      = s.allocated_frame_count - tables_allocated s
        - (s.procs.map (fun p => p.page_faults)).sum ∧
    (simulate s).s.procs.length = s.procs.length := by
  obtain ⟨hl, _, hs⟩ := simulate_linked s
  have hstep : ∀ st : Step, st.ok →
      (0 ≤ st.pre.allocated_frame_count ∧
        st.pre.allocated_frame_count - tables_allocated st.pre
            - (st.pre.procs.map (fun p => p.page_faults)).sum
          = s.allocated_frame_count - tables_allocated s
            - (s.procs.map (fun p => p.page_faults)).sum ∧
        st.pre.procs.length = s.procs.length) →
      (0 ≤ st.post.allocated_frame_count ∧
        st.post.allocated_frame_count - tables_allocated st.post
            - (st.post.procs.map (fun p => p.page_faults)).sum
          = s.allocated_frame_count - tables_allocated s
            - (s.procs.map (fun p => p.page_faults)).sum ∧
        st.post.procs.length = s.procs.length) := by
    intro st hok ⟨h1, h2, h3⟩
    obtain ⟨p, q, _, _, _, hpr, _, _, _, hm, _, hbal, _⟩ := Step.effect hok h1
    exact ⟨by omega, by rw [hbal]; exact h2, by rw [hpr, List.length_set]; exact h3⟩
  obtain ⟨⟨_, k1, k2⟩, _⟩ := Linked.preserved
    (fun t => 0 ≤ t.allocated_frame_count ∧
      t.allocated_frame_count - tables_allocated t
          - (t.procs.map (fun p => p.page_faults)).sum
        = s.allocated_frame_count - tables_allocated s
          - (s.procs.map (fun p => p.page_faults)).sum ∧
      t.procs.length = s.procs.length) hstep _ _ hl
    ⟨h0, by rw [tables_allocated_other (l := Line.sim_start) rfl rfl]; rfl, rfl⟩
  rw [hs]
  split
  · exact ⟨k1, k2⟩
  · rw [tables_allocated_other (l := Line.sim_end) rfl rfl]
    exact ⟨k1, k2⟩

/-! ## The schedule -/

theorem for_loop_none {i : Nat} {rest : List Nat} {s : State} {fin : Bool}
    (hp : s.procs[i]? = none) : for_loop (i :: rest) s fin = for_loop rest s fin := by
  rw [for_loop, hp]

theorem for_loop_skipped {i : Nat} {rest : List Nat} {s : State} {fin : Bool} {p : process}
    (hp : s.procs[i]? = some p) (ht : translate s i p = .skipped) :
    for_loop (i :: rest) s fin = for_loop rest s fin := by
  rw [for_loop, hp]
  simp only [ht]

theorem for_loop_completed {i : Nat} {rest : List Nat} {s s1 : State} {fin : Bool}
    {p : process} (hp : s.procs[i]? = some p) (ht : translate s i p = .completed s1) :
    for_loop (i :: rest) s fin
      = ⟨(for_loop rest s1 false).s, (for_loop rest s1 false).finished,
         (for_loop rest s1 false).returned,
         ⟨i, p.references.getD p.ref_count.toNat 0, s, s1, false⟩
           :: (for_loop rest s1 false).steps⟩ := by
  rw [for_loop, hp]
  simp only [ht]

theorem for_loop_aborted {i : Nat} {rest : List Nat} {s s1 : State} {fin : Bool}
    {p : process} (hp : s.procs[i]? = some p) (ht : translate s i p = .aborted s1) :
    for_loop (i :: rest) s fin
      = ⟨s1, false, true, [⟨i, p.references.getD p.ref_count.toNat 0, s, s1, true⟩]⟩ := by
  rw [for_loop, hp]
  simp only [ht]

theorem next_event_set {s t : State} {i j : Nat} {q : process}
    (h : t.procs = s.procs.set i q) (hj : j ≠ i) : next_event t j = next_event s j := by
  unfold next_event
  rw [h, List.getElem?_set_ne (fun e => hj e.symm)]

theorem filterMap_next_event_set {s t : State} {i : Nat} {q : process} {rest : List Nat}
    (h : t.procs = s.procs.set i q) (hi : i ∉ rest) :
    rest.filterMap (next_event t) = rest.filterMap (next_event s) := by
  induction rest with
  | nil => rfl
  | cons j js ih =>
    have hj : j ≠ i := fun e => hi (by rw [e]; exact List.mem_cons_self _ _)
    simp only [List.filterMap_cons, next_event_set h hj,
      ih (fun hm => hi (List.mem_cons_of_mem _ hm))]

theorem for_loop_round (idxs : List Nat) : ∀ (s : State) (fin : Bool), idxs.Nodup →
    0 ≤ s.allocated_frame_count →
    0 ≤ (for_loop idxs s fin).s.allocated_frame_count ∧
    (for_loop idxs s fin).s.procs.map process.fixed = s.procs.map process.fixed ∧
    (for_loop idxs s fin).steps.map Step.event <+: idxs.filterMap (next_event s) ∧
    ((for_loop idxs s fin).returned = false →
      (for_loop idxs s fin).steps.map Step.event = idxs.filterMap (next_event s) ∧
      (for_loop idxs s fin).finished = (fin && (idxs.filterMap (next_event s)).isEmpty) ∧
      ∀ (j : Nat) (p : process), s.procs[j]? = some p →
        ∃ q, (for_loop idxs s fin).s.procs[j]? = some q ∧
          q.ref_count = if j ∈ idxs ∧ p.ref_count < p.ref_len then p.ref_count + 1
            else p.ref_count) := by
  induction idxs with
  | nil =>
    intro s fin _ h0
    refine ⟨h0, rfl, List.prefix_refl _, fun _ => ⟨rfl, ?_, ?_⟩⟩
    · simp [for_loop]
    · intro j p hp
      exact ⟨p, hp, by simp⟩
  | cons i rest ih =>
    intro s fin hnd h0
    obtain ⟨hi, hnd2⟩ := List.nodup_cons.1 hnd
    have hmem : ∀ j, j ≠ i → (j ∈ i :: rest ↔ j ∈ rest) := by
      intro j hj
      simp [hj]
    cases hp : s.procs[i]? with
    | none =>
      have hne : next_event s i = none := by unfold next_event; rw [hp]
      rw [for_loop_none hp, List.filterMap_cons, hne]
      obtain ⟨k0, k1, k2, k3⟩ := ih s fin hnd2 h0
      refine ⟨k0, k1, k2, fun hr => ?_⟩
      obtain ⟨a, b, c⟩ := k3 hr
      refine ⟨a, b, ?_⟩
      intro j p' hp'
      have hj : j ≠ i := by
        intro e; rw [e, hp] at hp'; cases hp'
      obtain ⟨q, hq1, hq2⟩ := c j p' hp'
      exact ⟨q, hq1, by rw [hq2]; simp only [hmem j hj]⟩
    | some p =>
      rcases translate_effect s i p h0 with ⟨hge, hsk⟩ |
        ⟨hlt, t, q, hout, hm, _, hpr, hfx, hrc, _, _⟩
      · have hne : next_event s i = none := by
          unfold next_event; rw [hp]
          simp only []
          rw [if_neg (by omega)]
        rw [for_loop_skipped hp hsk, List.filterMap_cons, hne]
        obtain ⟨k0, k1, k2, k3⟩ := ih s fin hnd2 h0
        refine ⟨k0, k1, k2, fun hr => ?_⟩
        obtain ⟨a, b, c⟩ := k3 hr
        refine ⟨a, b, ?_⟩
        intro j p' hp'
        obtain ⟨q, hq1, hq2⟩ := c j p' hp'
        refine ⟨q, hq1, ?_⟩
        rw [hq2]
        by_cases hj : j = i
        · subst hj
          rw [hp] at hp'
          simp only [Option.some.injEq] at hp'
          subst hp'
          rw [if_neg (by intro h; omega), if_neg (by intro h; omega)]
        · simp only [hmem j hj]
      · have hne : next_event s i
            = some (p.pid, p.ref_count, p.references.getD p.ref_count.toNat 0) := by
          unfold next_event; rw [hp]
          simp only []
          rw [if_pos hlt]
        have hev : Step.event ⟨i, p.references.getD p.ref_count.toNat 0, s, t, false⟩
            = (p.pid, p.ref_count, p.references.getD p.ref_count.toNat 0) := by
          unfold Step.event
          simp only [hp]
        have hev2 : Step.event ⟨i, p.references.getD p.ref_count.toNat 0, s, t, true⟩
            = (p.pid, p.ref_count, p.references.getD p.ref_count.toNat 0) := by
          unfold Step.event
          simp only [hp]
        have hfix : t.procs.map process.fixed = s.procs.map process.fixed := by
          rw [hpr]
          exact map_set_fixed hp hfx
        rw [List.filterMap_cons, hne]
        rcases hout with hc | ⟨ha, _⟩
        · rw [for_loop_completed hp hc]
          simp only [List.map_cons, hev]
          obtain ⟨k0, k1, k2, k3⟩ := ih t false hnd2 (by omega)
          rw [filterMap_next_event_set hpr hi] at k2 k3
          refine ⟨k0, by rw [k1, hfix], (List.prefix_cons_inj _).2 k2, fun hr => ?_⟩
          obtain ⟨a, b, c⟩ := k3 hr
          refine ⟨by rw [a], by rw [b]; simp, ?_⟩
          intro j p' hp'
          by_cases hj : j = i
          · subst hj
            rw [hp] at hp'
            simp only [Option.some.injEq] at hp'
            subst hp'
            have hlen : j < s.procs.length := by
              by_contra hc2
              rw [List.getElem?_eq_none (by omega)] at hp
              cases hp
            obtain ⟨q2, hq1, hq2⟩ := c j q (by rw [hpr, List.getElem?_set_self hlen])
            refine ⟨q2, hq1, ?_⟩
            rw [hq2, if_neg (fun h => hi h.1), if_pos ⟨List.mem_cons_self _ _, hlt⟩, hrc]
          · obtain ⟨q2, hq1, hq2⟩ := c j p'
              (by rw [hpr, List.getElem?_set_ne (fun e => hj e.symm)]; exact hp')
            exact ⟨q2, hq1, by rw [hq2]; simp only [hmem j hj]⟩
        · rw [for_loop_aborted hp ha]
          simp only [List.map_cons, List.map_nil, hev2]
          refine ⟨by omega, hfix, ?_, fun hr => by cases hr⟩
          exact (List.prefix_cons_inj _).2 List.nil_prefix

/-! ## One cycle -/

theorem fixed_at {l m : List process} (h : l.map process.fixed = m.map process.fixed)
    {j : Nat} {p q : process} (hp : m[j]? = some p) (hq : l[j]? = some q) :
    q.fixed = p.fixed := by
  have := congrArg (fun x => x[j]?) h
  simp only [List.getElem?_map, hp, hq, Option.map_some', Option.some.injEq] at this
  exact this

/-- One pass of the `for` loop over all processes that does not return: every
process with a reference left has advanced by one, the others stand. -/
theorem cycle_pointwise (s : State) (h0 : 0 ≤ s.allocated_frame_count)
    (hr : (for_loop (List.range s.procs.length) s true).returned = false) :
    0 ≤ (for_loop (List.range s.procs.length) s true).s.allocated_frame_count ∧
    (for_loop (List.range s.procs.length) s true).s.procs.map process.fixed
      = s.procs.map process.fixed ∧
    (for_loop (List.range s.procs.length) s true).s.procs.length = s.procs.length ∧
    (∀ (j : Nat) (p : process), s.procs[j]? = some p →
      ∃ q, (for_loop (List.range s.procs.length) s true).s.procs[j]? = some q ∧
        q.fixed = p.fixed ∧
        q.ref_count = if p.ref_count < p.ref_len then p.ref_count + 1 else p.ref_count) ∧
    ((for_loop (List.range s.procs.length) s true).finished = true ↔
      ∀ p ∈ s.procs, p.ref_len ≤ p.ref_count) := by
  obtain ⟨k0, k1, _, k3⟩ := for_loop_round (List.range s.procs.length) s true
    (List.nodup_range _) h0
  obtain ⟨_, b, c⟩ := k3 hr
  have hlen := congrArg List.length k1
  simp only [List.length_map] at hlen
  refine ⟨k0, k1, hlen, ?_, ?_⟩
  · intro j p hp
    obtain ⟨q, hq1, hq2⟩ := c j p hp
    have hj : j < s.procs.length := by
      by_contra hc
      rw [List.getElem?_eq_none (by omega)] at hp
      cases hp
    refine ⟨q, hq1, fixed_at k1 hp hq1, ?_⟩
    rw [hq2]
    simp only [List.mem_range, hj, true_and]
  · rw [b]
    simp only [Bool.true_and, List.isEmpty_iff, List.filterMap_eq_nil_iff, List.mem_range]
    constructor
    · intro h p hp
      obtain ⟨j, hj⟩ := List.getElem?_of_mem hp
      have hjl : j < s.procs.length := by
        by_contra hc
        rw [List.getElem?_eq_none (by omega)] at hj
        cases hj
      have := h j hjl
      unfold next_event at this
      rw [hj] at this
      simp only [ite_eq_right_iff, reduceCtorEq, imp_false] at this
      omega
    · intro h j _
      unfold next_event
      cases hj : s.procs[j]? with
      | none => rfl
      | some p =>
        simp only []
        rw [if_neg]
        have := h p (List.getElem?_mem hj)
        omega

theorem foldr_max_le (l : List Nat) (c : Nat) :
    l.foldr max 0 ≤ c ↔ ∀ x ∈ l, x ≤ c := by
  induction l with
  | nil => simp
  | cons x xs ih =>
    simp only [List.foldr_cons, List.mem_cons, forall_eq_or_imp, ← ih]
    omega

theorem foldr_max_pred {α : Type} (f : α → Nat) (l : List α) :
    (l.map (fun x => f x - 1)).foldr max 0 = (l.map f).foldr max 0 - 1 := by
  induction l with
  | nil => rfl
  | cons x xs ih =>
    simp only [List.map_cons, List.foldr_cons, ih]
    omega

theorem cycle_measure (s : State) (h0 : 0 ≤ s.allocated_frame_count)
    (hr : (for_loop (List.range s.procs.length) s true).returned = false) :
    cycles (for_loop (List.range s.procs.length) s true).s = cycles s - 2 + 1 ∧
    ((for_loop (List.range s.procs.length) s true).finished = true ↔ cycles s = 1) := by
  obtain ⟨_, _, hlen, hpt, hfin⟩ := cycle_pointwise s h0 hr
  have hmap : (for_loop (List.range s.procs.length) s true).s.procs.map
        (fun p => (p.ref_len - p.ref_count).toNat)
      = s.procs.map (fun p => (p.ref_len - p.ref_count).toNat - 1) := by
    apply List.ext_getElem?
    intro j
    simp only [List.getElem?_map]
    cases hj : s.procs[j]? with
    | none =>
      rw [List.getElem?_eq_none (by rw [hlen]; exact List.getElem?_eq_none_iff.1 hj)]
      rfl
    | some p =>
      obtain ⟨q, hq1, hq2, hq3⟩ := hpt j p hj
      rw [hq1]
      simp only [Option.map_some', Option.some.injEq]
      have hl : q.ref_len = p.ref_len := by
        have := congrArg (fun x => x.2.1) hq2
        exact this
      rw [hl, hq3]
      split <;> omega
  constructor
  · unfold cycles
    rw [hmap, foldr_max_pred]
    omega
  · rw [hfin]
    unfold cycles
    have := foldr_max_le (s.procs.map (fun p => (p.ref_len - p.ref_count).toNat)) 0
    constructor
    · intro h
      have h2 : (s.procs.map (fun p => (p.ref_len - p.ref_count).toNat)).foldr max 0 ≤ 0 := by
        rw [this]
        intro x hx
        obtain ⟨p, hp, rfl⟩ := List.mem_map.1 hx
        have := h p hp
        omega
      omega
    · intro h p hp
      have h2 : (s.procs.map (fun p => (p.ref_len - p.ref_count).toNat)).foldr max 0 ≤ 0 := by
        omega
      rw [this] at h2
      have := h2 _ (List.mem_map.2 ⟨p, hp, rfl⟩)
      omega

/-! ## Termination -/

theorem while_loop_ends (fuel : Nat) : ∀ s : State, 0 ≤ s.allocated_frame_count →
    cycles s ≤ fuel →
    out_of_fuel fuel s = false ∧ (while_loop fuel s).cycles ≤ cycles s ∧
    1 ≤ (while_loop fuel s).cycles ∧
    while_loop (fuel + 1) s = while_loop fuel s := by
  induction fuel with
  | zero =>
    intro s _ h
    unfold cycles at h
    omega
  | succ n ih =>
    intro s h0 hc
    have e1 : ∀ k, while_loop (k + 1) s
        = if (for_loop (List.range s.procs.length) s true).returned then
            ⟨(for_loop (List.range s.procs.length) s true).s, true,
              (for_loop (List.range s.procs.length) s true).steps, 1⟩
          else if (for_loop (List.range s.procs.length) s true).finished then
            ⟨(for_loop (List.range s.procs.length) s true).s, false,
              (for_loop (List.range s.procs.length) s true).steps, 1⟩
          else
            ⟨(while_loop k (for_loop (List.range s.procs.length) s true).s).s,
              (while_loop k (for_loop (List.range s.procs.length) s true).s).returned,
              (for_loop (List.range s.procs.length) s true).steps
                ++ (while_loop k (for_loop (List.range s.procs.length) s true).s).steps,
              (while_loop k (for_loop (List.range s.procs.length) s true).s).cycles + 1⟩ := by
      intro k
      rw [while_loop]
    have e2 : out_of_fuel (n + 1) s
        = if (for_loop (List.range s.procs.length) s true).returned then false
          else if (for_loop (List.range s.procs.length) s true).finished then false
          else out_of_fuel n (for_loop (List.range s.procs.length) s true).s := by
      rw [out_of_fuel]
    have hc1 : 1 ≤ cycles s := by unfold cycles; omega
    rw [e1 (n + 1), e1 n, e2]
    cases hr : (for_loop (List.range s.procs.length) s true).returned with
    | true =>
      simp only [if_true]
      exact ⟨trivial, hc1, le_refl _, trivial⟩
    | false =>
      simp only [Bool.false_eq_true, if_false]
      obtain ⟨hm, hf⟩ := cycle_measure s h0 hr
      obtain ⟨k0, _⟩ := cycle_pointwise s h0 hr
      cases hfin : (for_loop (List.range s.procs.length) s true).finished with
      | true =>
        simp only [if_true]
        exact ⟨trivial, hc1, le_refl _, trivial⟩
      | false =>
        simp only [Bool.false_eq_true, if_false]
        have hne : cycles s ≠ 1 := by
          intro h
          rw [hf.2 h] at hfin
          cases hfin
        obtain ⟨a, b, c, d⟩ := ih (for_loop (List.range s.procs.length) s true).s k0
          (by omega)
        refine ⟨a, by omega, by omega, ?_⟩
        rw [d]

theorem while_loop_fuel (s : State) (h0 : 0 ≤ s.allocated_frame_count) (k : Nat) :
    while_loop (cycles s + k) s = while_loop (cycles s) s := by
  induction k with
  | zero => rfl
  | succ k ih =>
    rw [← ih, ← Nat.add_assoc]
    exact (while_loop_ends (cycles s + k) s h0 (by omega)).2.2.2

/-! ## The round-robin order -/

theorem range_filterMap_getElem {α β : Type} (f : α → Option β) (l : List α) :
    (List.range l.length).filterMap (fun i => (l[i]?).bind f) = l.filterMap f := by
  induction l using List.reverseRecOn with
  | nil => rfl
  | append_singleton xs x ih =>
    rw [List.length_append, List.length_singleton, List.range_succ, List.filterMap_append,
      List.filterMap_append, ← ih]
    congr 1
    · apply List.filterMap_congr
      intro i hi
      rw [List.mem_range] at hi
      rw [List.getElem?_append_left hi]
    · have e : (xs ++ [x])[xs.length]? = some x := by
        rw [List.getElem?_append_right (le_refl _), Nat.sub_self]
        rfl
      simp only [List.filterMap_cons, List.filterMap_nil, e, Option.some_bind]

theorem round_eq_fixed (procs : List process) (c : Nat) :
    round procs c = (procs.map process.fixed).filterMap (fun x =>
      if (c : Int) < x.2.1 then some (x.1, (c : Int), x.2.2.1.getD c 0) else none) := by
  unfold round
  rw [List.filterMap_map]
  rfl

theorem round_congr {l m : List process} (h : l.map process.fixed = m.map process.fixed)
    (c : Nat) : round l c = round m c := by
  rw [round_eq_fixed, round_eq_fixed, h]

theorem longest_congr {l m : List process} (h : l.map process.fixed = m.map process.fixed) :
    longest l = longest m := by
  have e : ∀ k : List process, longest k
      = ((k.map process.fixed).map (fun x => x.2.1.toNat)).foldr max 0 := by
    intro k
    unfold longest
    rw [List.map_map]
    rfl
  rw [e, e, h]

theorem interleaving_from_congr {l m : List process}
    (h : l.map process.fixed = m.map process.fixed) (n : Nat) :
    ∀ c, interleaving_from l c n = interleaving_from m c n := by
  induction n with
  | zero => intro c; rfl
  | succ n ih =>
    intro c
    rw [interleaving_from, interleaving_from, round_congr h, ih]

theorem round_nil_iff (procs : List process) (c : Nat) :
    round procs c = [] ↔ longest procs ≤ c := by
  unfold round longest
  rw [List.filterMap_eq_nil_iff, foldr_max_le]
  constructor
  · intro h x hx
    obtain ⟨p, hp, rfl⟩ := List.mem_map.1 hx
    have := h p hp
    simp only [ite_eq_right_iff, reduceCtorEq, imp_false] at this
    omega
  · intro h p hp
    have := h _ (List.mem_map.2 ⟨p, hp, rfl⟩)
    rw [if_neg]
    omega

theorem round_of_at_cycle (s : State) (c : Nat) (h : ∀ p ∈ s.procs, p.at_cycle c) :
    (List.range s.procs.length).filterMap (next_event s) = round s.procs c := by
  unfold round
  rw [← range_filterMap_getElem _ s.procs]
  apply List.filterMap_congr
  intro i _
  unfold next_event
  cases hi : s.procs[i]? with
  | none => rfl
  | some p =>
    have hc := h p (List.getElem?_mem hi)
    unfold process.at_cycle at hc
    simp only [Option.some_bind]
    by_cases hlt : (c : Int) < p.ref_len
    · rw [if_pos hlt] at hc
      rw [if_pos hlt, if_pos (by omega), hc]
      simp
    · rw [if_neg hlt] at hc
      rw [if_neg hlt, if_neg (by omega)]

theorem at_cycle_succ (s : State) (c : Nat) (h0 : 0 ≤ s.allocated_frame_count)
    (h : ∀ p ∈ s.procs, p.at_cycle c)
    (hr : (for_loop (List.range s.procs.length) s true).returned = false) :
    ∀ q ∈ (for_loop (List.range s.procs.length) s true).s.procs, q.at_cycle (c + 1) := by
  obtain ⟨_, _, hlen, hpt, _⟩ := cycle_pointwise s h0 hr
  intro q hq
  obtain ⟨j, hj⟩ := List.getElem?_of_mem hq
  have hjl : j < s.procs.length := by
    rw [← hlen]
    by_contra hc
    rw [List.getElem?_eq_none (by omega)] at hj
    cases hj
  obtain ⟨q2, hq1, hq2, hq3⟩ := hpt j _ (List.getElem?_eq_getElem hjl)
  rw [hj] at hq1
  simp only [Option.some.injEq] at hq1
  subst hq1
  have hl : q.ref_len = (s.procs[j]).ref_len := congrArg (fun x => x.2.1) hq2
  have hc := h _ (List.getElem_mem hjl)
  unfold process.at_cycle at hc ⊢
  rw [hq3, hl]
  push_cast
  split_ifs at hc ⊢ <;> omega

theorem while_loop_rounds (fuel : Nat) : ∀ (c : Nat) (s : State),
    0 ≤ s.allocated_frame_count → (∀ p ∈ s.procs, p.at_cycle c) →
    longest s.procs - c < fuel →
    (while_loop fuel s).s.procs.map process.fixed = s.procs.map process.fixed ∧
    (while_loop fuel s).steps.map Step.event
      <+: interleaving_from s.procs c (longest s.procs - c) ∧
    ((while_loop fuel s).returned = false →
      (while_loop fuel s).steps.map Step.event
        = interleaving_from s.procs c (longest s.procs - c) ∧
      (while_loop fuel s).cycles = longest s.procs - c + 1 ∧
      ∀ q ∈ (while_loop fuel s).s.procs, q.ref_count = max 0 q.ref_len) := by
  induction fuel with
  | zero => intro c s _ _ h; omega
  | succ n ih =>
    intro c s h0 hcyc hfuel
    have e1 : while_loop (n + 1) s
        = if (for_loop (List.range s.procs.length) s true).returned then
            ⟨(for_loop (List.range s.procs.length) s true).s, true,
              (for_loop (List.range s.procs.length) s true).steps, 1⟩
          else if (for_loop (List.range s.procs.length) s true).finished then
            ⟨(for_loop (List.range s.procs.length) s true).s, false,
              (for_loop (List.range s.procs.length) s true).steps, 1⟩
          else
            ⟨(while_loop n (for_loop (List.range s.procs.length) s true).s).s,
              (while_loop n (for_loop (List.range s.procs.length) s true).s).returned,
              (for_loop (List.range s.procs.length) s true).steps
                ++ (while_loop n (for_loop (List.range s.procs.length) s true).s).steps,
              (while_loop n (for_loop (List.range s.procs.length) s true).s).cycles + 1⟩ := by
      rw [while_loop]
    obtain ⟨k0, k1, k2, k3⟩ := for_loop_round (List.range s.procs.length) s true
      (List.nodup_range _) h0
    rw [round_of_at_cycle s c hcyc] at k2 k3
    have hpre : round s.procs c <+: interleaving_from s.procs c (longest s.procs - c) := by
      cases hL : longest s.procs - c with
      | zero =>
        have : round s.procs c = [] := (round_nil_iff _ _).2 (by omega)
        rw [this]
        exact List.nil_prefix
      | succ m =>
        rw [interleaving_from]
        exact List.prefix_append _ _
    rw [e1]
    cases hr : (for_loop (List.range s.procs.length) s true).returned with
    | true =>
      simp only [if_true]
      exact ⟨k1, k2.trans hpre, fun h => by cases h⟩
    | false =>
      simp only [Bool.false_eq_true, if_false]
      obtain ⟨a, b, _⟩ := k3 hr
      have hnext := at_cycle_succ s c h0 hcyc hr
      have hlong := longest_congr k1
      cases hfin : (for_loop (List.range s.procs.length) s true).finished with
      | true =>
        simp only [if_true]
        rw [hfin] at b
        have hnil : round s.procs c = [] := by
          simpa using b.symm
        have hL : longest s.procs ≤ c := (round_nil_iff _ _).1 hnil
        have hz : longest s.procs - c = 0 := by omega
        refine ⟨k1, k2.trans hpre, fun _ => ⟨?_, by rw [hz], ?_⟩⟩
        · rw [a, hnil, hz]
          rfl
        · intro q hq
          have hq1 := hnext q hq
          have hq2 : q.ref_len.toNat ≤ c := by
            have := (foldr_max_le _ c).1 (by rw [← hlong] at hL; exact hL)
              _ (List.mem_map.2 ⟨q, hq, rfl⟩)
            exact this
          unfold process.at_cycle at hq1
          rw [if_neg (by push_cast; omega)] at hq1
          exact hq1
      | false =>
        simp only [Bool.false_eq_true, if_false]
        rw [hfin] at b
        have hnn : round s.procs c ≠ [] := by
          intro h
          rw [h] at b
          simp at b
        have hL : ¬ longest s.procs ≤ c := fun h => hnn ((round_nil_iff _ _).2 h)
        obtain ⟨m, hm⟩ : ∃ m, longest s.procs - c = m + 1 := ⟨longest s.procs - c - 1, by omega⟩
        obtain ⟨j1, j2, j3⟩ := ih (c + 1) (for_loop (List.range s.procs.length) s true).s k0
          hnext (by rw [hlong]; omega)
        have hm2 : longest (for_loop (List.range s.procs.length) s true).s.procs - (c + 1)
            = m := by rw [hlong]; omega
        rw [hm2, interleaving_from_congr k1] at j2 j3
        rw [hm, interleaving_from]
        refine ⟨j1.trans k1, ?_, fun hret => ?_⟩
        · rw [List.map_append, a]
          exact (List.prefix_append_right_inj _).2 j2
        · obtain ⟨x, y, z⟩ := j3 hret
          refine ⟨by rw [List.map_append, a, x], by rw [y], z⟩

/-! ## The whole run -/

theorem simulate_while (s : State) :
    (simulate s).returned = (while_loop (cycles s) (print s .sim_start)).returned ∧
    (simulate s).cycles = (while_loop (cycles s) (print s .sim_start)).cycles ∧
    (simulate s).s.procs = (while_loop (cycles s) (print s .sim_start)).s.procs := by
  unfold simulate
  simp only []
  split <;> exact ⟨rfl, rfl, rfl⟩

theorem at_cycle_zero {s : State} (h : ∀ p ∈ s.procs, p.ref_count = 0) :
    ∀ p ∈ (print s Line.sim_start).procs, p.at_cycle 0 := by
  intro p hp
  unfold process.at_cycle
  rw [h p hp]
  split_ifs <;> omega

theorem cycles_le_longest (s : State) (h : ∀ p ∈ s.procs, 0 ≤ p.ref_count) :
    cycles s ≤ longest s.procs + 1 := by
  unfold cycles longest
  have : (s.procs.map (fun p => (p.ref_len - p.ref_count).toNat)).foldr max 0
      ≤ (s.procs.map (fun p => p.ref_len.toNat)).foldr max 0 := by
    rw [foldr_max_le]
    intro x hx
    obtain ⟨p, hp, rfl⟩ := List.mem_map.1 hx
    have h1 := (foldr_max_le (s.procs.map (fun p => p.ref_len.toNat)) _).1 (le_refl _)
      _ (List.mem_map.2 ⟨p, hp, rfl⟩)
    have h2 := h p hp
    omega
  omega

theorem cycles_eq_longest (s : State) (h : ∀ p ∈ s.procs, p.ref_count = 0) :
    cycles s = longest s.procs + 1 := by
  unfold cycles longest
  have : s.procs.map (fun p => (p.ref_len - p.ref_count).toNat)
      = s.procs.map (fun p => p.ref_len.toNat) := by
    apply List.map_congr_left
    intro p hp
    rw [h p hp, Int.sub_zero]
  rw [this]

theorem simulate_rounds (s : State) (h0 : 0 ≤ s.allocated_frame_count)
    (hrc : ∀ p ∈ s.procs, p.ref_count = 0) :
    (simulate s).s.procs.map process.fixed = s.procs.map process.fixed ∧
    (simulate s).steps.map Step.event <+: interleaving s.procs ∧
    ((simulate s).returned = false →
      (simulate s).steps.map Step.event = interleaving s.procs ∧
      (simulate s).cycles = longest s.procs + 1 ∧
      ∀ q ∈ (simulate s).s.procs, q.ref_count = max 0 q.ref_len) := by
  obtain ⟨e1, e2, e3⟩ := simulate_while s
  have hfuel : longest (print s Line.sim_start).procs - 0 < cycles s := by
    rw [cycles_eq_longest s hrc]
    exact Nat.lt_succ_of_le (Nat.sub_le _ _)
  obtain ⟨k1, k2, k3⟩ := while_loop_rounds (cycles s) 0 (print s .sim_start) h0
    (at_cycle_zero hrc) hfuel
  rw [simulate_steps, e1, e2, e3]
  exact ⟨k1, k2, k3⟩

/-! ## Valid entries -/

theorem keeps_refl (s : State) : Keeps s s := fun _ _ _ => ⟨rfl, rfl⟩

theorem keeps_trans {s t u : State} (h1 : Keeps s t) (h2 : Keeps t u) : Keeps s u := by
  intro e he hv
  obtain ⟨a, b⟩ := h1 e he hv
  obtain ⟨c, d⟩ := h2 e he (by rw [a]; exact hv)
  exact ⟨by rw [c, a], by rw [d, b]⟩

theorem l1_walk_clean {s s1 : State} {p : process} {page e : Nat}
    (h0 : 0 ≤ s.allocated_frame_count) (hc : Clean s) (he : e % 4 = 0)
    (hle : (e : Int) + 4 ≤ 32 * s.allocated_frame_count)
    (h : l1_walk s p page e = some s1) :
    Clean s1 ∧ Keeps s s1 ∧ 0 ≤ s1.allocated_frame_count ∧ pte_vflag s1.pas e ≠ 0 := by
  rcases l1_walk_cases s p page e h0 with ⟨hv, h1⟩ | ⟨_, _, h1⟩ |
    ⟨hv, hlt, t, h1, hcnt, _, _, hpas⟩
  · rw [h1] at h
    simp only [Option.some.injEq] at h
    subst h
    exact ⟨hc, keeps_refl _, h0, hv⟩
  · rw [h1] at h; cases h
  · rw [h1] at h
    simp only [Option.some.injEq] at h
    subst h
    obtain ⟨n, hn⟩ := Int.eq_ofNat_of_zero_le h0
    have hn2 : (s.allocated_frame_count * 32).toNat = n * 32 := by omega
    rw [hn2] at hpas
    have hvf : ∀ x : Nat, x % 4 = 0 → pte_vflag t.pas x
        = if x = e then 1 else if n * 32 ≤ x + 1 ∧ x + 1 < n * 32 + 32 then 0
          else pte_vflag s.pas x := by
      intro x hx
      simp only [pte_vflag, hpas, read_store, read_memset]
      by_cases hxe : x = e
      · rw [if_pos (by omega), if_pos hxe]
      · rw [if_neg (by omega), if_neg (by omega), if_neg hxe]
    have hfr : ∀ x : Nat, x % 4 = 0 → pte_frame t.pas x
        = if x = e then (n * 32 - 0) / 4 / 32 % 256 % 256
          else if n * 32 ≤ x ∧ x < n * 32 + 32 then 0 else pte_frame s.pas x := by
      intro x hx
      simp only [pte_frame, hpas, read_store, read_memset]
      rw [if_neg (by omega)]
    refine ⟨?_, ?_, by omega, ?_⟩
    · intro x hx hxv
      simp only [PTE_SIZE] at hx
      rw [hvf x hx] at hxv
      rw [hfr x hx, hcnt]
      by_cases hxe : x = e
      · rw [if_pos hxe]
        subst hxe
        constructor
        · omega
        · omega
      · rw [if_neg hxe] at hxv ⊢
        by_cases hr : n * 32 ≤ x + 1 ∧ x + 1 < n * 32 + 32
        · rw [if_pos hr] at hxv
          exact absurd rfl hxv
        · rw [if_neg hr] at hxv
          obtain ⟨a, b⟩ := hc x hx hxv
          rw [if_neg (by omega)]
          constructor
          · omega
          · omega
    · intro x hx hxv
      simp only [PTE_SIZE] at hx
      obtain ⟨a, b⟩ := hc x hx hxv
      have hxe : x ≠ e := by
        intro h
        rw [h] at hxv
        exact hxv hv
      rw [hvf x hx, hfr x hx, if_neg hxe, if_neg hxe, if_neg (by omega), if_neg (by omega)]
      exact ⟨rfl, rfl⟩
    · rw [hvf e he, if_pos rfl]
      decide

theorem l2_walk_clean {s t : State} {i : Nat} {p : process} {page l1e l2i : Nat}
    (h0 : 0 ≤ s.allocated_frame_count) (hc : Clean s) (he : l1e % 4 = 0)
    (hv1 : pte_vflag s.pas l1e ≠ 0) (hl2 : l2i < 8)
    (h : l2_walk s i p page l1e l2i = .completed t ∨ l2_walk s i p page l1e l2i = .aborted t) :
    Clean t ∧ Keeps s t := by
  obtain ⟨n, hn⟩ := Int.eq_ofNat_of_zero_le h0
  obtain ⟨_, hfr1⟩ := hc l1e he hv1
  generalize hl2e : pte_frame s.pas l1e * 32 + l2i * 4 = l2e at *
  have hal : l2e % 4 = 0 := by omega
  have hin : (l2e : Int) + 4 ≤ 32 * s.allocated_frame_count := by omega
  rcases l2_walk_cases s i p page l1e l2i h0 with ⟨hv, u, h2, hcnt, _, _, hpas⟩ |
    ⟨_, _, h2⟩ | ⟨hv, hlt, u, h2, hcnt, _, _, hpas⟩
  · have hu : u = t := by
      rcases h with h | h <;> rw [h2] at h <;> injection h
    subst hu
    rw [hl2e] at hpas
    have hvf : ∀ x : Nat, x % 4 = 0 → pte_vflag u.pas x = pte_vflag s.pas x := by
      intro x hx
      simp only [pte_vflag, hpas, read_store]
      rw [if_neg (by omega)]
    have hfr : ∀ x : Nat, x % 4 = 0 → pte_frame u.pas x = pte_frame s.pas x := by
      intro x hx
      simp only [pte_frame, hpas, read_store]
      rw [if_neg (by omega)]
    refine ⟨?_, ?_⟩
    · intro x hx hxv
      simp only [PTE_SIZE] at hx
      rw [hvf x hx] at hxv
      rw [hfr x hx, hcnt]
      exact hc x hx hxv
    · intro x hx _
      simp only [PTE_SIZE] at hx
      exact ⟨hvf x hx, hfr x hx⟩
  · have hu : print s .out_of_memory = t := by
      rcases h with h | h <;> rw [h2] at h <;> injection h
    subst hu
    exact ⟨hc, keeps_refl _⟩
  · have hu : u = t := by
      rcases h with h | h <;> rw [h2] at h <;> injection h
    subst hu
    rw [hl2e] at hpas hv
    have hvf : ∀ x : Nat, x % 4 = 0 → pte_vflag u.pas x
        = if x = l2e then 1 else pte_vflag s.pas x := by
      intro x hx
      simp only [pte_vflag, hpas, read_store]
      rw [if_neg (by omega)]
      by_cases hxe : x = l2e
      · rw [if_pos (by omega), if_pos hxe]
      · rw [if_neg (by omega), if_neg (by omega), if_neg hxe]
    have hfr : ∀ x : Nat, x % 4 = 0 → pte_frame u.pas x
        = if x = l2e then (s.allocated_frame_count % 256).toNat % 256
          else pte_frame s.pas x := by
      intro x hx
      simp only [pte_frame, hpas, read_store]
      rw [if_neg (by omega), if_neg (by omega)]
    refine ⟨?_, ?_⟩
    · intro x hx hxv
      simp only [PTE_SIZE] at hx
      rw [hvf x hx] at hxv
      rw [hfr x hx, hcnt]
      by_cases hxe : x = l2e
      · rw [if_pos hxe]
        subst hxe
        constructor
        · omega
        · omega
      · rw [if_neg hxe] at hxv ⊢
        obtain ⟨a, b⟩ := hc x hx hxv
        constructor
        · omega
        · omega
    · intro x hx hxv
      simp only [PTE_SIZE] at hx
      have hxe : x ≠ l2e := by
        intro h
        rw [h] at hxv
        exact hxv hv
      rw [hvf x hx, hfr x hx, if_neg hxe, if_neg hxe]
      exact ⟨rfl, rfl⟩

theorem translate_clean {s t : State} {i : Nat} {p : process} (hpl : Placed s)
    (hc : Clean s) (hp : s.procs[i]? = some p)
    (h : translate s i p = .completed t ∨ translate s i p = .aborted t) :
    Clean t ∧ Keeps s t := by
  have hlive : p.ref_count < p.ref_len := by
    apply translate_live
    intro hs
    rw [hs] at h
    rcases h with h | h <;> cases h
  obtain ⟨h0, _, hprocs⟩ := hpl
  obtain ⟨hk1, hk2, hpages⟩ := hprocs p (List.getElem?_mem hp)
  simp only [VAS_PAGES] at hpages
  simp only [PAGESIZE] at hk1 hk2
  have hpage := getD_lt hpages p.ref_count.toNat
  unfold translate at h
  rw [if_neg (by omega)] at h
  simp only [L2_PT_ENTRIES, PTE_SIZE] at h
  generalize hpg : p.references.getD p.ref_count.toNat 0 = page at h hpage
  have he : (p.L1_page_table + page / 8 * 4) % 4 = 0 := by omega
  have hle : ((p.L1_page_table + page / 8 * 4 : Nat) : Int) + 4
      ≤ 32 * s.allocated_frame_count := by omega
  cases hl1 : l1_walk { s with procs := s.procs.set i { p with ref_count := p.ref_count + 1 } }
      { p with ref_count := p.ref_count + 1 } page (p.L1_page_table + page / 8 * 4) with
  | none =>
    rw [hl1] at h
    simp only at h
    have hu : print { s with procs := s.procs.set i { p with ref_count := p.ref_count + 1 } }
        .out_of_memory = t := by
      rcases h with h | h <;> injection h
    subst hu
    exact ⟨hc, keeps_refl s⟩
  | some s1 =>
    rw [hl1] at h
    simp only at h
    obtain ⟨a, b, c, d⟩ := l1_walk_clean
      (s := { s with procs := s.procs.set i { p with ref_count := p.ref_count + 1 } })
      h0 hc he hle hl1
    obtain ⟨x, y⟩ := l2_walk_clean c a he d (by omega) h
    exact ⟨x, keeps_trans b y⟩

theorem Placed.step {st : Step} (hok : st.ok) (hpl : Placed st.pre) : Placed st.post := by
  obtain ⟨h0, h1, h2⟩ := hpl
  obtain ⟨p, q, hp, _, _, hpr, hfx, _, _, hm, hb, _⟩ := Step.effect hok h0
  simp only [PAS_FRAMES] at h1 ⊢
  refine ⟨by omega, hb h1, ?_⟩
  intro x hx
  rw [hpr] at hx
  have hq : q.L1_page_table = p.L1_page_table ∧ q.references = p.references := by
    have e1 := congrArg (fun x => x.2.2.2) hfx
    have e2 := congrArg (fun x => x.2.2.1) hfx
    exact ⟨e1, e2⟩
  rcases List.mem_or_eq_of_mem_set hx with h | h
  · obtain ⟨a, b, c⟩ := h2 x h
    exact ⟨a, by omega, c⟩
  · subst h
    obtain ⟨a, b, c⟩ := h2 p (List.getElem?_mem hp)
    rw [hq.1, hq.2]
    exact ⟨a, by omega, c⟩

theorem Step.clean {st : Step} (hok : st.ok) (hpl : Placed st.pre) (hc : Clean st.pre) :
    Clean st.post ∧ Keeps st.pre st.post := by
  obtain ⟨p, hp, _, _, htr⟩ := hok
  apply translate_clean hpl hc hp
  cases hoom : st.oom with
  | false =>
    rw [hoom] at htr
    exact Or.inl htr
  | true =>
    rw [hoom] at htr
    exact Or.inr htr

theorem read_lt (pas : Mem) (a : Nat) : read pas a < 256 := by
  unfold read
  exact Nat.mod_lt _ (by decide)

theorem loaded_placed {input : List (Int × List Nat)} {s : State}
    (hpages : ∀ r ∈ input, ∀ pg ∈ r.2, pg < 64) (h : loaded input = some s) :
    Placed s ∧ Clean s := by
  obtain ⟨s2, hs2, _, _, _, hf, hin⟩ := loaded_fresh input
  rw [h] at hs2
  simp only [Option.some.injEq] at hs2
  subst hs2
  obtain ⟨h1, h2, _, h4⟩ := hf
  have hlen : s.procs.length ≤ 10 := by
    have := congrArg List.length hin
    rw [List.length_map, List.length_take] at this
    rw [this]
    exact Nat.min_le_left _ _
  refine ⟨⟨by omega, by simp only [PAS_FRAMES]; omega, ?_⟩, ?_⟩
  · intro p hp
    obtain ⟨i, hi⟩ := List.getElem?_of_mem hp
    have hil : i < s.procs.length := by
      by_contra hc
      rw [List.getElem?_eq_none (by omega)] at hi
      cases hi
    have hL := (h4 i p hi).1
    simp only [PAGESIZE] at hL ⊢
    refine ⟨by omega, by omega, ?_⟩
    have hmem : (p.pid, p.references) ∈ input := by
      have : (p.pid, p.references) ∈ s.procs.map (fun p => (p.pid, p.references)) :=
        List.mem_map.2 ⟨p, hp, rfl⟩
      rw [hin] at this
      exact List.mem_of_mem_take this
    exact hpages _ hmem
  · intro e _ hv
    exfalso
    apply hv
    unfold pte_vflag
    exact h2 _

theorem Linked.keeps : ∀ (steps : List Step) (s : State), Linked s steps →
    Placed s → Clean s →
    Keeps s (final_state s steps) ∧ Clean (final_state s steps) ∧
    ∀ st ∈ steps, Keeps s st.pre ∧ Keeps st.pre st.post ∧
      Keeps st.post (final_state s steps) ∧ Clean st.pre ∧ Clean st.post := by
  intro steps
  induction steps with
  | nil => intro s _ _ hc; exact ⟨keeps_refl s, hc, fun _ h => by cases h⟩
  | cons x rest ih =>
    intro s hl hpl hc
    obtain ⟨h1, h2, _, h4⟩ := hl
    subst h1
    obtain ⟨c1, k1⟩ := Step.clean h2 hpl hc
    obtain ⟨a, b, c⟩ := ih x.post h4 (Placed.step h2 hpl) c1
    refine ⟨keeps_trans k1 a, b, ?_⟩
    intro st hst
    rcases List.mem_cons.1 hst with h | h
    · subst h
      exact ⟨keeps_refl _, k1, a, hc, c1⟩
    · obtain ⟨d1, d2, d3, d4, d5⟩ := c st h
      exact ⟨keeps_trans k1 d1, d2, d3, d4, d5⟩

/-! ## Statements about every run -/

/-- C12: one cycle of `simulate` (a pass of the `for` loop over all the
processes) that starts with every process where cycle `c` finds it and hits no
allocation failure processes exactly the references of round `c` (for every
process with `ref_len > c` its reference number `c`), leaves every process
where cycle `c + 1` finds it, and sets `finished` exactly when no process had a
reference left at its start.  In a run that starts with `ref_count = 0` and hits
no allocation failure, every reference processed is the next one of its process
and moves `ref_count` of that process, and of no other, up by one; the number of
cycles is the largest `ref_len` plus one; and on return `ref_count` is `ref_len`
for every process with `ref_len >= 0`. -/
theorem one_reference_per_cycle (s : State) (h0 : 0 ≤ s.allocated_frame_count)
    (hrc : ∀ p ∈ s.procs, p.ref_count = 0) (hret : (simulate s).returned = false) :
    (∀ (u : State) (c : Nat), 0 ≤ u.allocated_frame_count →
      (∀ p ∈ u.procs, p.at_cycle c) →
      (for_loop (List.range u.procs.length) u true).returned = false →
      (for_loop (List.range u.procs.length) u true).steps.map Step.event = round u.procs c ∧
      (∀ q ∈ (for_loop (List.range u.procs.length) u true).s.procs, q.at_cycle (c + 1)) ∧
      ((for_loop (List.range u.procs.length) u true).finished = true ↔
        ∀ p ∈ u.procs, p.ref_len ≤ p.ref_count)) ∧
    (∀ st ∈ (simulate s).steps, ∃ p q,
      st.pre.procs[st.i]? = some p ∧ st.post.procs[st.i]? = some q ∧
      p.ref_count < p.ref_len ∧ st.page = p.references.getD p.ref_count.toNat 0 ∧
      q.ref_count = p.ref_count + 1 ∧
      ∀ j, j ≠ st.i → st.post.procs[j]? = st.pre.procs[j]?) ∧
    (simulate s).cycles = longest s.procs + 1 ∧
    (simulate s).s.procs.map process.fixed = s.procs.map process.fixed ∧
    (∀ q ∈ (simulate s).s.procs, q.ref_count = max 0 q.ref_len) ∧
    (∀ q ∈ (simulate s).s.procs, 0 ≤ q.ref_len → q.ref_count = q.ref_len) := by
  obtain ⟨k1, _, k3⟩ := simulate_rounds s h0 hrc
  obtain ⟨_, a2, a3⟩ := k3 hret
  refine ⟨?_, ?_, a2, k1, a3, fun q hq hl => by rw [a3 q hq]; omega⟩
  · intro u c hu hcyc hr
    obtain ⟨_, _, _, k⟩ := for_loop_round (List.range u.procs.length) u true
      (List.nodup_range _) hu
    rw [round_of_at_cycle u c hcyc] at k
    exact ⟨(k hr).1, at_cycle_succ u c hu hcyc hr, (cycle_pointwise u hu hr).2.2.2.2⟩
  · intro st hst
    obtain ⟨hl, _, _⟩ := simulate_linked s
    have hb := (Linked.preserved (fun t => 0 ≤ t.allocated_frame_count)
      (fun st hok hpre => by
        obtain ⟨_, _, _, _, _, _, _, _, _, hm, _⟩ := Step.effect hok hpre
        omega) _ _ hl h0).2 st hst
    obtain ⟨p, q, hp, hlt, hpage, hpr, _, hrc2, _⟩ := Step.effect (Linked.steps_ok _ _ hl st hst) hb.1
    have hi : st.i < st.pre.procs.length := by
      by_contra hc
      rw [List.getElem?_eq_none (by omega)] at hp
      cases hp
    refine ⟨p, q, hp, by rw [hpr, List.getElem?_set_self hi], hlt, hpage, hrc2, ?_⟩
    intro j hj
    rw [hpr, List.getElem?_set_ne (fun e => hj e.symm)]

theorem one_reference_per_cycle_witness :
    0 ≤ scenario_state.allocated_frame_count ∧
    (∀ p ∈ scenario_state.procs, p.ref_count = 0) ∧
    (simulate scenario_state).returned = false ∧
    (simulate scenario_state).cycles = longest scenario_state.procs + 1 :=
  ⟨by decide!, by decide!, by decide!,
    (one_reference_per_cycle scenario_state (by decide!) (by decide!) (by decide!)).2.2.1⟩

/-- C14: in every state with the counter in 0..256, each operation of the
program leaves the counter in 0..256 and does not decrease it: `allocate_frame`
(a call that returns -1 leaves the whole state as it was),
`allocate_pagetable_frame`, the load of a process, each pass through the loop
body of `simulate`, and a whole run of `simulate` with every reference processed
in it; the final state of `main` has the counter in 0..256 for every input. -/
theorem counter_in_range (s : State) (hb : Bounded s) :
    (Bounded (allocate_frame s).2 ∧
      s.allocated_frame_count ≤ (allocate_frame s).2.allocated_frame_count ∧
      ((allocate_frame s).1 = -1 → (allocate_frame s).2 = s)) ∧
    (Bounded (allocate_pagetable_frame s).2 ∧
      s.allocated_frame_count ≤ (allocate_pagetable_frame s).2.allocated_frame_count) ∧
    (∀ input, Bounded (load_process input s).2.2 ∧
      s.allocated_frame_count ≤ (load_process input s).2.2.allocated_frame_count) ∧
    (∀ i p t, translate s i p = .completed t ∨ translate s i p = .aborted t →
      Bounded t ∧ s.allocated_frame_count ≤ t.allocated_frame_count) ∧
    (Bounded (simulate s).s ∧
      s.allocated_frame_count ≤ (simulate s).s.allocated_frame_count ∧
      ∀ st ∈ (simulate s).steps, Bounded st.pre ∧ Bounded st.post ∧
        s.allocated_frame_count ≤ st.pre.allocated_frame_count ∧
        st.pre.allocated_frame_count ≤ st.post.allocated_frame_count) ∧
    (∀ input, Bounded (main input).2) := by
  refine ⟨allocate_frame_bounded s hb, allocate_pagetable_frame_bounded s hb,
    fun input => load_process_bounded input s hb,
    fun i p t h => translate_bounded s hb i p t h, simulate_bounded s hb, ?_⟩
  intro input
  have hstart : Bounded (print State.start .load_start) := ⟨le_refl _, by decide⟩
  have hload := (load_loop_bounded MAX_PROCESSES input _ hstart).1
  unfold main
  cases hl : load_loop MAX_PROCESSES input (print State.start .load_start) with
  | mk b t =>
    rw [hl] at hload
    cases b with
    | true => exact hload
    | false => exact (simulate_bounded (print t .load_end) hload).1

theorem counter_in_range_witness :
    Bounded State.start ∧ Bounded (allocate_frame State.start).2 :=
  ⟨⟨le_refl _, by decide⟩, (counter_in_range State.start ⟨le_refl _, by decide⟩).1.1⟩

/-- C17: with fuel for `cycles s` cycles or more, the `while` loop of
`simulate` does not stop for lack of fuel: it ends by the `break` of line 129 or
by a `return`, its result is the same for every such amount of fuel, and it
makes at least one and at most `cycles s` passes.  `cycles s` is at most the
largest `ref_len` (0 when none is positive) plus one when no `ref_count` is
negative, and exactly that when every `ref_count` is 0, as after loading. -/
theorem simulate_terminates (s : State) (h0 : 0 ≤ s.allocated_frame_count)
    (fuel : Nat) (hf : cycles s ≤ fuel) :
    out_of_fuel fuel (print s .sim_start) = false ∧
    while_loop fuel (print s .sim_start) = while_loop (cycles s) (print s .sim_start) ∧
    1 ≤ (simulate s).cycles ∧ (simulate s).cycles ≤ cycles s ∧
    ((∀ p ∈ s.procs, 0 ≤ p.ref_count) → (simulate s).cycles ≤ longest s.procs + 1) ∧
    ((∀ p ∈ s.procs, p.ref_count = 0) → cycles s = longest s.procs + 1) := by
  obtain ⟨a, _, _, _⟩ := while_loop_ends fuel (print s .sim_start) h0 hf
  obtain ⟨_, b, c, _⟩ := while_loop_ends (cycles s) (print s .sim_start) h0 (le_refl _)
  have e := while_loop_fuel (print s .sim_start) h0 (fuel - cycles s)
  have hc : cycles (print s .sim_start) = cycles s := rfl
  rw [hc, Nat.add_sub_cancel' hf] at e
  rw [hc] at b
  refine ⟨a, e, ?_, ?_, ?_, cycles_eq_longest s⟩
  · rw [(simulate_while s).2.1]; exact c
  · rw [(simulate_while s).2.1]; exact b
  · intro h
    rw [(simulate_while s).2.1]
    exact le_trans b (cycles_le_longest s h)

theorem simulate_terminates_witness :
    0 ≤ scenario_state.allocated_frame_count ∧ cycles scenario_state ≤ 9 ∧
    out_of_fuel 9 (print scenario_state .sim_start) = false :=
  ⟨by decide!, by decide!, (simulate_terminates scenario_state (by decide!) 9 (by decide!)).1⟩

/-- C19: in a run of `simulate` that starts with the tables placed as `main`
places them (pages below 64) and with every valid entry inside an allocated
frame and recording an allocated frame, as is the case after loading: every
page-table entry that is valid on entry to a pass through the loop body is
valid with the same frame when the pass is left, and still so in the state
`simulate` returns; the same holds from the start of the run to each pass; and
before and after every pass the frame of every valid entry is below
`allocated_frame_count`. -/
theorem valid_entries_stay (s : State) (hpl : Placed s) (hc : Clean s) :
    (∀ st ∈ (simulate s).steps,
      Keeps s st.pre ∧ Keeps st.pre st.post ∧ Keeps st.post (simulate s).s ∧
      Clean st.pre ∧ Clean st.post) ∧
    Keeps s (simulate s).s ∧ Clean (simulate s).s ∧
    (∀ (input : List (Int × List Nat)) (t : State),
      (∀ r ∈ input, ∀ pg ∈ r.2, pg < 64) → loaded input = some t → Placed t ∧ Clean t) := by
  obtain ⟨hl, _, hs⟩ := simulate_linked s
  obtain ⟨a, b, c⟩ := Linked.keeps _ _ hl hpl hc
  have hfin : ∀ u : State, Keeps u (final_state (print s .sim_start) (simulate s).steps) →
      Keeps u (simulate s).s := by
    intro u hu
    rw [hs]
    split
    · exact hu
    · exact hu
  refine ⟨?_, hfin _ a, ?_, fun input t hp h => loaded_placed hp h⟩
  · intro st hst
    obtain ⟨d1, d2, d3, d4, d5⟩ := c st hst
    exact ⟨d1, d2, hfin _ d3, d4, d5⟩
  · rw [hs]
    split
    · exact b
    · exact b

theorem valid_entries_stay_witness :
    Placed scenario_state ∧ Clean scenario_state ∧
    Keeps scenario_state (simulate scenario_state).s :=
  ⟨by unfold Placed; decide!, (@loaded_placed scenario scenario_state (by decide) rfl).2,
    (valid_entries_stay scenario_state (by unfold Placed; decide!)
      (@loaded_placed scenario scenario_state (by decide) rfl).2).2.1⟩

/-- C20: for every input, loading in `main` does not fail (`load_process` never
returns -1, the exit status is 0), the processes loaded are the first
`MAX_PROCESSES` records of the input at most, the process at index `i` has its
L1 table at the start of frame `i`, that frame is all zero, and
`allocated_frame_count` is the number of loaded processes when `simulate` starts. -/
theorem load_never_fails (input : List (Int × List Nat)) :
    ∃ s, loaded input = some s ∧
      (load_loop MAX_PROCESSES input (print State.start .load_start)).1 = false ∧
      (main input).1 = 0 ∧
      (main input).2 = print_page_tables (simulate s).s ∧
      s.procs.map (fun p => (p.pid, p.references)) = input.take MAX_PROCESSES ∧
      s.procs.length ≤ MAX_PROCESSES ∧
      s.allocated_frame_count = s.procs.length ∧
      ∀ (i : Nat) (p : process), s.procs[i]? = some p →
        p.L1_page_table = i * PAGESIZE ∧ p.L1_page_table / PAGESIZE = i ∧
        ∀ k, k < PAGESIZE → read s.pas (p.L1_page_table + k) = 0 := by
  obtain ⟨s, h1, h2, h3, h4, hf, h5⟩ := loaded_fresh input
  refine ⟨s, h1, h2, h3, h4, h5, ?_, hf.1, ?_⟩
  · have := congrArg List.length h5
    rw [List.length_map, List.length_take] at this
    rw [this]
    exact Nat.min_le_left _ _
  · intro i p hp
    obtain ⟨e, _⟩ := hf.2.2.2 i p hp
    refine ⟨e, ?_, fun k _ => hf.2.1 _⟩
    rw [e]
    simp only [PAGESIZE]
    omega

/-! ## Runs that never fail -/

theorem while_loop_succ (k : Nat) (s : State) :
    while_loop (k + 1) s
      = if (for_loop (List.range s.procs.length) s true).returned then
          ⟨(for_loop (List.range s.procs.length) s true).s, true,
            (for_loop (List.range s.procs.length) s true).steps, 1⟩
        else if (for_loop (List.range s.procs.length) s true).finished then
          ⟨(for_loop (List.range s.procs.length) s true).s, false,
            (for_loop (List.range s.procs.length) s true).steps, 1⟩
        else
          ⟨(while_loop k (for_loop (List.range s.procs.length) s true).s).s,
            (while_loop k (for_loop (List.range s.procs.length) s true).s).returned,
            (for_loop (List.range s.procs.length) s true).steps
              ++ (while_loop k (for_loop (List.range s.procs.length) s true).s).steps,
            (while_loop k (for_loop (List.range s.procs.length) s true).s).cycles + 1⟩ := by
  rw [while_loop]

theorem for_loop_no_return (P : State → Prop)
    (hstep : ∀ (s : State) (i : Nat) (p : process), P s → s.procs[i]? = some p →
      p.ref_count < p.ref_len → ∃ t, translate s i p = .completed t ∧ P t)
    (idxs : List Nat) : ∀ (s : State) (fin : Bool), P s →
    (for_loop idxs s fin).returned = false ∧ P (for_loop idxs s fin).s := by
  induction idxs with
  | nil => intro s fin h; exact ⟨rfl, h⟩
  | cons i rest ih =>
    intro s fin h
    cases hp : s.procs[i]? with
    | none => rw [for_loop_none hp]; exact ih s fin h
    | some p =>
      by_cases hl : p.ref_count < p.ref_len
      · obtain ⟨t, ht, hP⟩ := hstep s i p h hp hl
        rw [for_loop_completed hp ht]
        exact ih t false hP
      · rw [for_loop_skipped hp (translate_skipped (by omega))]
        exact ih s fin h

theorem while_loop_no_return (P : State → Prop)
    (hstep : ∀ (s : State) (i : Nat) (p : process), P s → s.procs[i]? = some p →
      p.ref_count < p.ref_len → ∃ t, translate s i p = .completed t ∧ P t)
    (fuel : Nat) : ∀ s : State, P s → (while_loop fuel s).returned = false := by
  induction fuel with
  | zero => intro s _; rfl
  | succ n ih =>
    intro s h
    obtain ⟨h1, h2⟩ := for_loop_no_return P hstep (List.range s.procs.length) s true h
    rw [while_loop_succ, h1]
    simp only [Bool.false_eq_true, if_false]
    split
    · rfl
    · exact ih _ h2

theorem getD_zero {l : List Nat} (h : ∀ x ∈ l, x = 0) (n : Nat) : l.getD n 0 = 0 := by
  rw [List.getD_eq_getElem?_getD]
  cases hn : l[n]? with
  | none => rfl
  | some x => exact h x (List.getElem?_mem hn)

/-- A reference to page 0 by a process whose L1 table is at offset `a`, 0 or 32,
while at most four frames are allocated and frame 0 is recorded in the entries
that are valid: it completes, as a hit on the entry at offset 0. -/
theorem zero_page_step (s : State) (i : Nat) (p : process) (a : Nat)
    (hc2 : 2 ≤ s.allocated_frame_count) (hc4 : s.allocated_frame_count ≤ 4)
    (ha : a = 0 ∨ a = 32) (hL : p.L1_page_table = a)
    (hrefs : ∀ x ∈ p.references, x = 0) (hlive : p.ref_count < p.ref_len)
    (h0 : read s.pas 0 = 0) (h32 : read s.pas 32 = 0)
    (h1 : a = 32 → read s.pas 1 ≠ 0)
    (hcnt : read s.pas (a + 1) = 0 → s.allocated_frame_count ≤ 3) :
    ∃ t, translate s i p = .completed t ∧
      t.procs = s.procs.set i { p with ref_count := p.ref_count + 1 } ∧
      t.allocated_frame_count
        = s.allocated_frame_count + (if read s.pas (a + 1) = 0 then 1 else 0) ∧
      read t.pas 0 = 0 ∧ read t.pas 32 = 0 ∧
      read t.pas 1 = (if a = 0 ∧ read s.pas 1 = 0 then 1 else read s.pas 1) ∧
      read t.pas 33 = (if a = 32 ∧ read s.pas 33 = 0 then 1 else read s.pas 33) := by
  subst hL
  unfold translate
  rw [if_neg (by omega)]
  simp only [L2_PT_ENTRIES, PTE_SIZE]
  rw [getD_zero hrefs]
  simp only [Nat.zero_div, Nat.zero_mul, Nat.add_zero, Nat.zero_mod]
  rcases l1_walk_cases { s with procs := s.procs.set i { p with ref_count := p.ref_count + 1 } }
      { p with ref_count := p.ref_count + 1 } 0 p.L1_page_table (by simp only; omega) with
    ⟨hv, hw⟩ | ⟨hv, hfull, _⟩ | ⟨hv, _, s1, hw, hc1, hp1, _, hpas1⟩
  · -- the L1 entry is valid
    rw [hw]
    simp only [pte_vflag] at hv
    simp only []
    have hfr : pte_frame s.pas p.L1_page_table = 0 := by
      unfold pte_frame
      rcases ha with h | h <;> rw [h] <;> assumption
    have hv1 : read s.pas 1 ≠ 0 := by
      rcases ha with h | h
      · rw [h] at hv; exact hv
      · exact h1 h
    rcases l2_walk_cases { s with procs := s.procs.set i { p with ref_count := p.ref_count + 1 } }
        i { p with ref_count := p.ref_count + 1 } 0 p.L1_page_table 0 (by simp only; omega) with
      ⟨_, t, hw2, hc2', hp2, _, hpas2⟩ | ⟨hv2, _, _⟩ | ⟨hv2, _, _⟩
    · simp only [hfr, Nat.zero_mul, Nat.add_zero, Nat.zero_add] at hpas2
      refine ⟨t, hw2, hp2, ?_, ?_, ?_, ?_, ?_⟩
      · rw [hc2', if_neg hv]; simp
      · rw [hpas2, read_store, if_neg (by decide)]; exact h0
      · rw [hpas2, read_store, if_neg (by decide)]; exact h32
      · rw [hpas2, read_store, if_neg (by decide), if_neg (fun h => hv1 h.2)]
      · rw [hpas2, read_store, if_neg (by decide)]
        rcases ha with h | h
        · rw [if_neg (fun x => by omega)]
        · rw [h] at hv
          rw [if_neg (fun x => hv x.2)]
    · simp only [hfr, pte_vflag, Nat.zero_mul, Nat.add_zero, Nat.zero_add] at hv2
      exact absurd hv2 hv1
    · simp only [hfr, pte_vflag, Nat.zero_mul, Nat.add_zero, Nat.zero_add] at hv2
      exact absurd hv2 hv1
  · simp only at hfull
    omega
  · -- the L1 entry is invalid: a table is allocated and frame 0 recorded
    rw [hw]
    simp only [pte_vflag] at hv
    simp only at hc1 hpas1 hp1
    simp only []
    have hle := hcnt hv
    obtain ⟨n, hn⟩ := Int.eq_ofNat_of_zero_le (show 0 ≤ s.allocated_frame_count by omega)
    have hn2 : (s.allocated_frame_count * 32).toNat = n * 32 := by omega
    have hn3 : (n * 32 - 0) / 4 / 32 % 256 = 0 := by omega
    rw [hn2, hn3] at hpas1
    have hrd : ∀ x, x < 64 → read s1.pas x
        = if x = p.L1_page_table + 1 then 1 else if x = p.L1_page_table then 0
          else read s.pas x := by
      intro x hx
      rw [hpas1, read_store, read_store, read_memset]
      by_cases e1 : x = p.L1_page_table + 1
      · rw [if_pos e1, if_pos e1]
      · rw [if_neg e1, if_neg e1]
        by_cases e2 : x = p.L1_page_table
        · rw [if_pos e2, if_pos e2]
        · rw [if_neg e2, if_neg e2, if_neg (by omega)]
    have hfr : pte_frame s1.pas p.L1_page_table = 0 := by
      unfold pte_frame
      rw [hrd _ (by omega), if_neg (by omega), if_pos rfl]
    have hv1 : read s1.pas 1 ≠ 0 := by
      rw [hrd 1 (by omega)]
      rcases ha with h | h
      · rw [if_pos (by omega)]; decide
      · rw [if_neg (by omega), if_neg (by omega)]; exact h1 h
    rcases l2_walk_cases s1 i { p with ref_count := p.ref_count + 1 } 0 p.L1_page_table 0 (by omega) with
      ⟨_, t, hw2, hc2', hp2, _, hpas2⟩ | ⟨hv2, _, _⟩ | ⟨hv2, _, _⟩
    · simp only [hfr, Nat.zero_mul, Nat.add_zero, Nat.zero_add] at hpas2
      refine ⟨t, hw2, by rw [hp2, hp1], ?_, ?_, ?_, ?_, ?_⟩
      · rw [hc2', hc1, if_pos hv]
      · rw [hpas2, read_store, if_neg (by decide), hrd 0 (by omega)]
        rcases ha with h | h
        · rw [if_neg (by omega), if_pos h.symm]
        · rw [if_neg (by omega), if_neg (by omega)]; exact h0
      · rw [hpas2, read_store, if_neg (by decide), hrd 32 (by omega)]
        rcases ha with h | h
        · rw [if_neg (by omega), if_neg (by omega)]; exact h32
        · rw [if_neg (by omega), if_pos h.symm]
      · rw [hpas2, read_store, if_neg (by decide), hrd 1 (by omega)]
        rcases ha with h | h
        · rw [h] at hv
          rw [if_pos (by omega), if_pos ⟨h, hv⟩]
        · rw [if_neg (by omega), if_neg (by omega), if_neg (fun x => by omega)]
      · rw [hpas2, read_store, if_neg (by decide), hrd 33 (by omega)]
        rcases ha with h | h
        · rw [if_neg (by omega), if_neg (by omega), if_neg (fun x => by omega)]
        · rw [h] at hv
          rw [if_pos (by omega), if_pos ⟨h, hv⟩]
    · simp only [hfr, pte_vflag, Nat.zero_mul, Nat.add_zero, Nat.zero_add] at hv2
      exact absurd hv2 hv1
    · simp only [hfr, pte_vflag, Nat.zero_mul, Nat.add_zero, Nat.zero_add] at hv2
      exact absurd hv2 hv1

theorem settled_step (s : State) (i : Nat) (p : process) (h : Settled s)
    (hp : s.procs[i]? = some p) (hl : p.ref_count < p.ref_len) :
    ∃ t, translate s i p = .completed t ∧ Settled t := by
  obtain ⟨hc, h0, h1, h32, h33, hprocs⟩ := h
  obtain ⟨hL, hrefs⟩ := hprocs p (List.getElem?_mem hp)
  have hne : read s.pas (p.L1_page_table + 1) ≠ 0 := by
    rcases hL with e | e <;> rw [e] <;> assumption
  obtain ⟨t, ht, hpr, hcnt, a0, a32, a1, a33⟩ := zero_page_step s i p p.L1_page_table
    (by omega) (by omega) hL rfl hrefs hl h0 h32 (fun _ => h1) (fun e => absurd e hne)
  refine ⟨t, ht, ?_, a0, ?_, a32, ?_, ?_⟩
  · rw [hcnt, if_neg hne]; omega
  · rw [a1, if_neg (fun e => h1 e.2)]; exact h1
  · rw [a33, if_neg (fun e => h33 e.2)]; exact h33
  · intro q hq
    rw [hpr] at hq
    rcases List.mem_or_eq_of_mem_set hq with e | e
    · exact hprocs q e
    · rw [e]; exact ⟨hL, hrefs⟩

/-- Two processes that reference page 0 only: loading succeeds and the run of
`simulate` does not fail, however long the reference sequences are. -/
theorem zero_pages_run (a b : Int) (r1 r2 : List Nat) (h1 : ∀ x ∈ r1, x = 0)
    (h2 : ∀ x ∈ r2, x = 0) (n1 : 1 ≤ r1.length) (n2 : 1 ≤ r2.length) :
    ∃ s, loaded [(a, r1), (b, r2)] = some s ∧ (simulate s).returned = false ∧
      s.procs.map (fun p => p.ref_len) = [(r1.length : Int), (r2.length : Int)] ∧
      (∀ p ∈ s.procs, p.ref_count = 0) ∧ 0 ≤ s.allocated_frame_count := by
  obtain ⟨s, hs, _, _, _, hf, hmap⟩ := loaded_fresh [(a, r1), (b, r2)]
  obtain ⟨f1, f2, _, f4⟩ := hf
  have htake : List.take MAX_PROCESSES [(a, r1), (b, r2)] = [(a, r1), (b, r2)] := rfl
  rw [htake] at hmap
  rcases hprocs : s.procs with _ | ⟨p1, _ | ⟨p2, _ | ⟨p3, rest⟩⟩⟩
  · rw [hprocs] at hmap; simp at hmap
  · rw [hprocs] at hmap; simp at hmap
  · rw [hprocs] at hmap f1 f4
    simp only [List.map_cons, List.map_nil, List.cons.injEq, Prod.mk.injEq, and_true] at hmap
    obtain ⟨⟨_, e1⟩, ⟨_, e2⟩⟩ := hmap
    obtain ⟨a1, _, a3, a4⟩ := f4 0 p1 rfl
    obtain ⟨b1, _, b3, b4⟩ := f4 1 p2 rfl
    simp only [PAGESIZE] at a1 b1
    simp only [List.length_cons, List.length_nil] at f1
    refine ⟨s, hs, ?_, ?_, ?_, by omega⟩
    · rw [(simulate_while s).1]
      have hcy : cycles s = (cycles s - 1) + 1 := by unfold cycles; omega
      rw [hcy, while_loop_succ]
      have hrange : List.range (print s Line.sim_start).procs.length = [0, 1] := by
        show List.range s.procs.length = [0, 1]
        rw [hprocs]; rfl
      rw [hrange]
      have hp1 : (print s Line.sim_start).procs[0]? = some p1 := by
        show s.procs[0]? = some p1
        rw [hprocs]; rfl
      obtain ⟨t1, ht1, hpr1, hc1, x0, x32, x1, x33⟩ := zero_page_step
        (print s Line.sim_start) 0 p1 0 (by show 2 ≤ s.allocated_frame_count; omega)
        (by show s.allocated_frame_count ≤ 4; omega) (Or.inl rfl) (by omega)
        (by rw [e1]; exact h1) (by rw [a3, a4, e1]; omega) (f2 0) (f2 32) (fun e => by omega)
        (fun _ => by show s.allocated_frame_count ≤ 3; omega)
      have hs1 : read (print s Line.sim_start).pas 1 = 0 := f2 1
      have hs33 : read (print s Line.sim_start).pas 33 = 0 := f2 33
      rw [if_pos (by exact hs1)] at hc1
      rw [if_pos ⟨rfl, hs1⟩] at x1
      rw [if_neg (fun e => by omega), hs33] at x33
      have hprocs1 : t1.procs = [{ p1 with ref_count := p1.ref_count + 1 }, p2] := by
        rw [hpr1]
        show s.procs.set 0 _ = _
        rw [hprocs]; rfl
      obtain ⟨t2, ht2, hpr2, hc2, y0, y32, y1, y33⟩ := zero_page_step t1 1 p2 32
        (by rw [hc1]; show 2 ≤ s.allocated_frame_count + 1; omega)
        (by rw [hc1]; show s.allocated_frame_count + 1 ≤ 4; omega) (Or.inr rfl) (by omega)
        (by rw [e2]; exact h2) (by rw [b3, b4, e2]; omega) x0 x32 (fun _ => by rw [x1]; decide)
        (fun _ => by rw [hc1]; show s.allocated_frame_count + 1 ≤ 3; omega)
      rw [if_pos (by exact x33)] at hc2
      rw [if_neg (fun e => by omega), x1] at y1
      rw [if_pos ⟨rfl, x33⟩] at y33
      have hset : Settled t2 := by
        refine ⟨by rw [hc2, hc1]; show s.allocated_frame_count + 1 + 1 = 4; omega, y0,
          by rw [y1]; decide, y32, by rw [y33]; decide, ?_⟩
        intro q hq
        rw [hpr2, hprocs1] at hq
        simp only [List.set_cons_succ, List.set_cons_zero, List.mem_cons, List.mem_singleton,
          List.not_mem_nil, or_false] at hq
        rcases hq with e | e
        · rw [e]
          exact ⟨Or.inl (by show p1.L1_page_table = 0; omega),
            by show ∀ x ∈ p1.references, x = 0; rw [e1]; exact h1⟩
        · rw [e]
          exact ⟨Or.inr (by show p2.L1_page_table = 32; omega),
            by show ∀ x ∈ p2.references, x = 0; rw [e2]; exact h2⟩
      have hp2 : t1.procs[1]? = some p2 := by rw [hprocs1]; rfl
      have hfl : for_loop [0, 1] (print s Line.sim_start) true
          = ⟨t2, false, false,
              [⟨0, p1.references.getD p1.ref_count.toNat 0, print s Line.sim_start, t1, false⟩,
               ⟨1, p2.references.getD p2.ref_count.toNat 0, t1, t2, false⟩]⟩ := by
        rw [for_loop_completed hp1 ht1, for_loop_completed hp2 ht2]
        rfl
      rw [hfl]
      simp only [Bool.false_eq_true, if_false]
      exact while_loop_no_return Settled settled_step _ t2 hset
    · rw [hprocs]
      simp only [List.map_cons, List.map_nil, a4, b4, e1, e2]
    · intro p hp
      rw [hprocs] at hp
      simp only [List.mem_cons, List.mem_singleton, List.not_mem_nil, or_false] at hp
      rcases hp with e | e <;> rw [e] <;> assumption
  · rw [hprocs] at hmap; simp at hmap

/-! ## The totals of the report -/

theorem foldl_int_add (l : List Int) : ∀ acc : Int, 0 ≤ acc → (∀ x ∈ l, 0 ≤ x) →
    acc + l.sum < 2147483648 → l.foldl int_add acc = acc + l.sum := by
  induction l with
  | nil => intro acc _ _ _; simp
  | cons x xs ih =>
    intro acc h0 hx hs
    have hx0 := hx x (List.mem_cons_self _ _)
    have hxs : ∀ y ∈ xs, 0 ≤ y := fun y hy => hx y (List.mem_cons_of_mem _ hy)
    have hsum : 0 ≤ xs.sum := List.sum_nonneg hxs
    rw [List.sum_cons] at hs
    have e : int_add acc x = acc + x := by
      unfold int_add
      omega
    rw [List.foldl_cons, e, ih (acc + x) (by omega) hxs (by omega), List.sum_cons]
    omega

theorem report_last (t : State) :
    (report_lines t).getLast?
      = some (.total t.allocated_frame_count
          (t.procs.foldl (fun acc p => int_add acc p.page_faults) 0)
          (t.procs.foldl (fun acc p => int_add acc p.ref_count) 0)) := by
  simp [report_lines]

theorem simulate_nonneg (s : State) (h0 : 0 ≤ s.allocated_frame_count)
    (h : ∀ p ∈ s.procs, 0 ≤ p.page_faults ∧ 0 ≤ p.ref_count) :
    ∀ q ∈ (simulate s).s.procs, 0 ≤ q.page_faults ∧ 0 ≤ q.ref_count := by
  obtain ⟨hl, _, hs⟩ := simulate_linked s
  have hstep : ∀ st : Step, st.ok →
      (0 ≤ st.pre.allocated_frame_count ∧
        ∀ p ∈ st.pre.procs, 0 ≤ p.page_faults ∧ 0 ≤ p.ref_count) →
      (0 ≤ st.post.allocated_frame_count ∧
        ∀ p ∈ st.post.procs, 0 ≤ p.page_faults ∧ 0 ≤ p.ref_count) := by
    intro st hok ⟨a, b⟩
    obtain ⟨p, q, hp, _, _, hpr, _, hrc, hpf, hm, _⟩ := Step.effect hok a
    refine ⟨by omega, ?_⟩
    intro x hx
    rw [hpr] at hx
    rcases List.mem_or_eq_of_mem_set hx with e | e
    · exact b x e
    · obtain ⟨c, d⟩ := b p (List.getElem?_mem hp)
      rw [e]
      exact ⟨by omega, by omega⟩
  have k := (Linked.preserved (fun t => 0 ≤ t.allocated_frame_count ∧
    ∀ p ∈ t.procs, 0 ≤ p.page_faults ∧ 0 ≤ p.ref_count) hstep _ _ hl ⟨h0, h⟩).1.2
  rw [hs]
  split
  · exact k
  · exact k

/-- C15: after the run of `main` on any input, the final `allocated_frame_count`
(the grand total printed by `print_page_tables`) is the sum over the processes
of the per-process figure `1 + page_faults` plus the number of L2 tables
allocated during `simulate`; the last line of the report carries that counter,
the sum of the `page_faults`, and the `ref_count`s added up as `int`s, which is
their sum whenever that sum is below 2^31; and the report has the summary line
with `1 + page_faults` for every process. -/
theorem grand_total_is_sum (input : List (Int × List Nat)) (s : State)
    (h : loaded input = some s) :
    (simulate s).s.allocated_frame_count
      = ((simulate s).s.procs.map (fun p => 1 + p.page_faults)).sum
        + tables_allocated (simulate s).s ∧
    tables_allocated s = 0 ∧
    (main input).2.out = (simulate s).s.out ++ report_lines (simulate s).s ∧
    (report_lines (simulate s).s).getLast?
      = some (.total (simulate s).s.allocated_frame_count
          ((simulate s).s.procs.map (fun p => p.page_faults)).sum
          ((simulate s).s.procs.foldl (fun acc p => int_add acc p.ref_count) 0)) ∧
    (((simulate s).s.procs.map (fun p => p.ref_count)).sum < 2147483648 →
      (simulate s).s.procs.foldl (fun acc p => int_add acc p.ref_count) 0
        = ((simulate s).s.procs.map (fun p => p.ref_count)).sum) ∧
    (∀ p ∈ (simulate s).s.procs,
      Line.proc_summary p.pid (1 + p.page_faults) p.page_faults p.ref_count
        ∈ report_lines (simulate s).s) := by
  obtain ⟨s2, hs2, _, _, hmain, hf, htk⟩ := loaded_fresh input
  rw [h] at hs2
  simp only [Option.some.injEq] at hs2
  subst hs2
  obtain ⟨h1, h2, h3, h4⟩ := hf
  obtain ⟨hbal, hlen⟩ := simulate_balance s (by omega)
  have hz : (s.procs.map (fun p => p.page_faults)).sum = 0 := by
    apply sum_faults_zero
    intro p hp
    obtain ⟨i, hi⟩ := List.getElem?_of_mem hp
    exact (h4 i p hi).2.1
  have hnn := simulate_nonneg s (by omega) (fun p hp => by
    obtain ⟨i, hi⟩ := List.getElem?_of_mem hp
    obtain ⟨_, a, b, _⟩ := h4 i p hi
    omega)
  have hcount : (simulate s).s.allocated_frame_count
      = ((simulate s).s.procs.map (fun p => 1 + p.page_faults)).sum
        + tables_allocated (simulate s).s := by
    rw [sum_one_add, hlen]
    omega
  have hten : s.procs.length ≤ 10 := by
    have := congrArg List.length htk
    rw [List.length_map, List.length_take] at this
    rw [this]
    exact Nat.min_le_left _ _
  have hle : (simulate s).s.allocated_frame_count ≤ 256 :=
    (simulate_bounded s ⟨by omega, by simp only [PAS_FRAMES]; omega⟩).1.2
  have hpf : (simulate s).s.procs.foldl (fun acc p => int_add acc p.page_faults) 0
      = ((simulate s).s.procs.map (fun p => p.page_faults)).sum := by
    have e : (simulate s).s.procs.foldl (fun acc p => int_add acc p.page_faults) 0
        = ((simulate s).s.procs.map (fun p => p.page_faults)).foldl int_add 0 := by
      rw [List.foldl_map]
    rw [e, foldl_int_add _ 0 (le_refl _)]
    · omega
    · intro x hx
      obtain ⟨p, hp, rfl⟩ := List.mem_map.1 hx
      exact (hnn p hp).1
    · rw [sum_one_add] at hcount
      have ht : 0 ≤ tables_allocated (simulate s).s := by
        unfold tables_allocated
        exact Int.natCast_nonneg _
      omega
  refine ⟨hcount, h3, by rw [hmain]; rfl, ?_, ?_, ?_⟩
  · rw [report_last, hpf]
  · intro hlt
    have e : (simulate s).s.procs.foldl (fun acc p => int_add acc p.ref_count) 0
        = ((simulate s).s.procs.map (fun p => p.ref_count)).foldl int_add 0 := by
      rw [List.foldl_map]
    rw [e, foldl_int_add _ 0 (le_refl _)]
    · omega
    · intro x hx
      obtain ⟨p, hp, rfl⟩ := List.mem_map.1 hx
      exact (hnn p hp).2
    · omega
  · intro p hp
    unfold report_lines
    simp only [List.mem_append, List.mem_flatten, List.mem_map]
    left
    exact ⟨_, ⟨p, hp, rfl⟩, List.mem_cons_self _ _⟩

theorem grand_total_is_sum_witness :
    loaded scenario = some scenario_state ∧
    (simulate scenario_state).s.allocated_frame_count
      = ((simulate scenario_state).s.procs.map (fun p => 1 + p.page_faults)).sum
        + tables_allocated (simulate scenario_state).s :=
  ⟨rfl, (grand_total_is_sum scenario scenario_state rfl).1⟩

/-- The run of `main` on `two_long` completes, the `ref_count`s of its two
processes add up to 2147483648, and the total of references in the last line of
the report is -2147483648. -/
theorem total_refs_wraps :
    loaded two_long = some two_long_state ∧
    (simulate two_long_state).returned = false ∧
    ((simulate two_long_state).s.procs.map (fun p => p.ref_count)).sum = 2147483648 ∧
    ∃ c f, (report_lines (simulate two_long_state).s).getLast?
      = some (.total c f (-2147483648)) := by
  obtain ⟨s, hs, hret, hlen, hrc, h0⟩ := zero_pages_run 1 2 (List.replicate 2147483647 0) [0]
    (fun x hx => List.eq_of_mem_replicate hx)
    (fun x hx => by simpa using hx)
    (by rw [List.length_replicate]; decide) (by decide)
  have hst : two_long_state = s := by
    unfold two_long_state two_long
    rw [hs]
    rfl
  rw [hst]
  obtain ⟨k1, _, k3⟩ := simulate_rounds s h0 hrc
  obtain ⟨_, _, k4⟩ := k3 hret
  have hlens : (simulate s).s.procs.map (fun p => p.ref_len) = [2147483647, 1] := by
    have e : ∀ l : List process, l.map (fun p => p.ref_len)
        = (l.map process.fixed).map (fun x => x.2.1) := by
      intro l
      rw [List.map_map]
      rfl
    rw [e, k1, ← e, hlen, List.length_replicate]
    rfl
  have hrcs : (simulate s).s.procs.map (fun p => p.ref_count) = [2147483647, 1] := by
    have e : (simulate s).s.procs.map (fun p => p.ref_count)
        = ((simulate s).s.procs.map (fun p => p.ref_len)).map (fun x => max 0 x) := by
      rw [List.map_map]
      apply List.map_congr_left
      intro q hq
      exact k4 q hq
    rw [e, hlens]
    rfl
  have hlast := report_last (simulate s).s
  have hfold : (simulate s).s.procs.foldl (fun acc p => int_add acc p.ref_count) 0
      = -2147483648 := by
    have e : (simulate s).s.procs.foldl (fun acc p => int_add acc p.ref_count) 0
        = ((simulate s).s.procs.map (fun p => p.ref_count)).foldl int_add 0 := by
      rw [List.foldl_map]
    rw [e, hrcs]
    decide
  rw [hfold] at hlast
  refine ⟨by unfold two_long; exact hs, hret, ?_, _, _, hlast⟩
  rw [hrcs]
  rfl

/-! ## Failing allocations -/

theorem allocate_frame_fails_iff (s : State) (h0 : 0 ≤ s.allocated_frame_count) :
    (allocate_frame s).1 = -1 ↔ 256 ≤ s.allocated_frame_count := by
  by_cases hc : s.allocated_frame_count < 256
  · rw [allocate_frame_ok s hc]
    simp only
    omega
  · rw [allocate_frame_full s (by omega)]
    simp only [true_iff]
    omega

theorem allocate_pagetable_frame_fails_iff (s : State) (h0 : 0 ≤ s.allocated_frame_count) :
    (allocate_pagetable_frame s).1 = none ↔ 256 ≤ s.allocated_frame_count := by
  by_cases hc : s.allocated_frame_count < 256
  · rw [allocate_pagetable_frame_ok s h0 hc]
    simp only [reduceCtorEq, false_iff]
    omega
  · rw [allocate_pagetable_frame_full s (by omega)]
    simp only [true_iff]
    omega

/-- Lines 94-104 depend on the state only through `pas` and the counter. -/
theorem l1_walk_pas (s u : State) (p q : process) (page e : Nat)
    (hpas : u.pas = s.pas) (hcnt : u.allocated_frame_count = s.allocated_frame_count)
    (h0 : 0 ≤ s.allocated_frame_count) :
    (l1_walk u q page e = none ↔ l1_walk s p page e = none) ∧
    ∀ t v, l1_walk s p page e = some t → l1_walk u q page e = some v →
      v.pas = t.pas ∧ v.allocated_frame_count = t.allocated_frame_count := by
  rcases l1_walk_cases s p page e h0 with ⟨a1, a2⟩ | ⟨a1, a2, a3⟩ |
      ⟨a1, a2, t, a3, a4, _, _, a5⟩ <;>
    rcases l1_walk_cases u q page e (by omega) with ⟨b1, b2⟩ | ⟨b1, b2, b3⟩ |
      ⟨b1, b2, v, b3, b4, _, _, b5⟩
  · rw [a2, b2]
    refine ⟨by simp, ?_⟩
    intro t v ht hv
    simp only [Option.some.injEq] at ht hv
    rw [← ht, ← hv]
    exact ⟨hpas, hcnt⟩
  · rw [hpas] at b1; exact absurd b1 a1
  · rw [hpas] at b1; exact absurd b1 a1
  · rw [hpas] at b1; exact absurd a1 b1
  · rw [a3, b3]
    exact ⟨by simp, fun t v ht => by cases ht⟩
  · omega
  · rw [hpas] at b1; exact absurd a1 b1
  · omega
  · rw [a3, b3]
    refine ⟨by simp, ?_⟩
    intro t2 v2 ht hv
    simp only [Option.some.injEq] at ht hv
    rw [← ht, ← hv, a5, b5, hpas, hcnt, a4, b4, hcnt]
    exact ⟨rfl, rfl⟩

theorem l1_walk_count {s t : State} {p : process} {page e : Nat}
    (h0 : 0 ≤ s.allocated_frame_count) (h : l1_walk s p page e = some t) :
    0 ≤ t.allocated_frame_count := by
  rcases l1_walk_cases s p page e h0 with ⟨_, a2⟩ | ⟨_, _, a3⟩ | ⟨_, _, v, a3, a4, _⟩
  · rw [a2] at h; simp only [Option.some.injEq] at h; rw [← h]; exact h0
  · rw [a3] at h; cases h
  · rw [a3] at h; simp only [Option.some.injEq] at h; rw [← h, a4]; omega

/-- A pass through the loop body ends in the `return` of line 98 or 114 exactly
when an allocation fails in it. -/
theorem translate_aborts_iff (s : State) (i : Nat) (p : process)
    (h0 : 0 ≤ s.allocated_frame_count) (hlive : p.ref_count < p.ref_len) :
    (∃ t, translate s i p = .aborted t) ↔
      allocation_fails s p (p.references.getD p.ref_count.toNat 0) := by
  unfold translate allocation_fails
  rw [if_neg (by omega)]
  simp only [l1_entry_of, l2_entry_of, L2_PT_ENTRIES, PTE_SIZE, PAGESIZE, PAGE_INVALID]
  generalize p.references.getD p.ref_count.toNat 0 = page
  obtain ⟨k1, k2⟩ := l1_walk_pas s
    { s with procs := s.procs.set i { p with ref_count := p.ref_count + 1 } }
    p { p with ref_count := p.ref_count + 1 } page (p.L1_page_table + page / 8 * 4) rfl rfl h0
  rw [allocate_pagetable_frame_fails_iff s h0]
  cases hu : l1_walk { s with procs := s.procs.set i { p with ref_count := p.ref_count + 1 } }
      { p with ref_count := p.ref_count + 1 } page (p.L1_page_table + page / 8 * 4) with
  | none =>
    refine ⟨fun _ => Or.inl ?_, fun _ => ⟨_, rfl⟩⟩
    rcases l1_walk_cases { s with procs := s.procs.set i { p with ref_count := p.ref_count + 1 } }
        { p with ref_count := p.ref_count + 1 } page (p.L1_page_table + page / 8 * 4) h0 with
      ⟨_, a2⟩ | ⟨a1, a2, _⟩ | ⟨_, _, v, a3, _⟩
    · rw [a2] at hu; cases hu
    · exact ⟨a1, a2⟩
    · rw [a3] at hu; cases hu
  | some v =>
    simp only []
    cases hs : l1_walk s p page (p.L1_page_table + page / 8 * 4) with
    | none => rw [k1.2 hs] at hu; cases hu
    | some t =>
      obtain ⟨e1, e2⟩ := k2 t v hs hu
      have ht0 := l1_walk_count h0 hs
      simp only []
      rw [allocate_frame_fails_iff t ht0]
      have hno : ¬ (pte_vflag s.pas (p.L1_page_table + page / 8 * 4) = 0 ∧
          256 ≤ s.allocated_frame_count) := by
        intro ⟨a, b⟩
        rcases l1_walk_cases s p page (p.L1_page_table + page / 8 * 4) h0 with
          ⟨c1, _⟩ | ⟨_, _, c3⟩ | ⟨_, c2, _⟩
        · exact c1 a
        · rw [c3] at hs; cases hs
        · omega
      simp only [hno, false_or]
      rcases l2_walk_cases v i { p with ref_count := p.ref_count + 1 } page
          (p.L1_page_table + page / 8 * 4) (page % 8) (by omega) with
        ⟨b1, w, b2, _⟩ | ⟨b1, b2, b3⟩ | ⟨b1, b2, w, b3, _⟩
      · rw [b2]
        rw [e1] at b1
        simp only [reduceCtorEq, exists_false, false_iff]
        exact fun h => b1 h.1
      · rw [b3]
        rw [e1] at b1
        exact ⟨fun _ => ⟨b1, by omega⟩, fun _ => ⟨_, rfl⟩⟩
      · rw [b3]
        simp only [reduceCtorEq, exists_false, false_iff]
        intro h
        omega

/-! ## The trace lines -/

theorem Linked.split : ∀ (xs : List Step) (s : State) (ys : List Step),
    Linked s (xs ++ ys) → Linked (final_state s xs) ys := by
  intro xs
  induction xs with
  | nil => intro s ys h; exact h
  | cons x rest ih =>
    intro s ys h
    exact ih x.post ys h.2.2.2

theorem Linked.stops {s : State} {before after : List Step} {st : Step}
    (h : Linked s (before ++ st :: after)) (ho : st.oom = true) : after = [] :=
  (Linked.split before s (st :: after) h).2.2.1 ho

theorem Step.fails_iff {st : Step} (hok : st.ok) (h0 : 0 ≤ st.pre.allocated_frame_count)
    {p : process} (hp : st.pre.procs[st.i]? = some p) :
    allocation_fails st.pre p st.page ↔ st.oom = true := by
  obtain ⟨p0, hp0, hlt, hpage, htr⟩ := hok
  rw [hp] at hp0
  simp only [Option.some.injEq] at hp0
  subst hp0
  rw [hpage, ← translate_aborts_iff st.pre st.i p h0 hlt, htr]
  cases st.oom with
  | false => simp
  | true => simp

theorem simulate_count_nonneg (s : State) (h0 : 0 ≤ s.allocated_frame_count) :
    ∀ st ∈ (simulate s).steps, 0 ≤ st.pre.allocated_frame_count := by
  obtain ⟨hl, _, _⟩ := simulate_linked s
  intro st hst
  exact ((Linked.preserved (fun t => 0 ≤ t.allocated_frame_count)
    (fun st hok hpre => by
      obtain ⟨_, _, _, _, _, _, _, _, _, hm, _⟩ := Step.effect hok hpre
      omega) _ _ hl h0).2 st hst).1

/-- What the run looks like when `simulate` has left through line 98 or 114. -/
theorem returned_effect (s : State) (hb : Bounded s)
    (h : (simulate s).returned = true) :
    ∃ st, (simulate s).steps.getLast? = some st ∧ st.oom = true ∧
      (simulate s).s = st.post ∧
      (∀ j, j ≠ st.i → (simulate s).s.procs[j]? = st.pre.procs[j]?) ∧
      (∀ p, st.pre.procs[st.i]? = some p →
        ∃ q, (simulate s).s.procs[st.i]? = some q ∧ q.ref_count = p.ref_count + 1) ∧
      (simulate s).s.allocated_frame_count = 256 ∧
      (simulate s).s.out.getLast? = some .out_of_memory := by
  obtain ⟨hl, hr, hs⟩ := simulate_linked s
  rw [h] at hr
  rw [h, if_pos rfl, final_state_getLast] at hs
  rw [ends_aborted_getLast] at hr
  cases hlast : (simulate s).steps.getLast? with
  | none => rw [hlast] at hr; cases hr
  | some st =>
    rw [hlast] at hr hs
    simp only [Option.map_some', Option.getD_some] at hr hs
    have hmem : st ∈ (simulate s).steps := List.mem_of_getLast?_eq_some hlast
    obtain ⟨hpre, hpost, _, _⟩ := (simulate_bounded s hb).2.2 st hmem
    obtain ⟨p, q, hp, _, _, hpr, _, hrc, _, _, _, _, hab⟩ :=
      Step.effect (Linked.steps_ok _ _ hl st hmem) hpre.1
    obtain ⟨h256, hout⟩ := hab hr.symm
    have hle := hpost.2
    simp only [PAS_FRAMES] at hle
    have hi : st.i < st.pre.procs.length := by
      by_contra hc
      rw [List.getElem?_eq_none (by omega)] at hp
      cases hp
    refine ⟨st, rfl, hr.symm, hs, ?_, ?_, ?_, ?_⟩
    · intro j hj
      rw [hs, hpr, List.getElem?_set_ne (fun e => hj e.symm)]
    · intro p2 hp2
      rw [hp] at hp2
      simp only [Option.some.injEq] at hp2
      subst hp2
      exact ⟨q, by rw [hs, hpr, List.getElem?_set_self hi], hrc⟩
    · rw [hs]; omega
    · rw [hs]; exact hout

theorem returned_iff (s : State) :
    (simulate s).returned = true ↔ ∃ st ∈ (simulate s).steps, st.oom = true := by
  obtain ⟨hl, hr, _⟩ := simulate_linked s
  rw [hr, ends_aborted_getLast]
  constructor
  · intro h
    cases hlast : (simulate s).steps.getLast? with
    | none => rw [hlast] at h; cases h
    | some st =>
      rw [hlast] at h
      exact ⟨st, List.mem_of_getLast?_eq_some hlast, h⟩
  · intro ⟨st, hst, ho⟩
    obtain ⟨before, after, e⟩ := List.append_of_mem hst
    rw [e] at hl ⊢
    have := Linked.stops hl ho
    subst this
    simp [ho]

/-- C11: in every run of `simulate` from a state with the counter in 0..256, a
pass through the loop body aborts exactly when an allocation fails in it (the
L1 entry is invalid and `allocate_pagetable_frame` returns NULL, or the L2
entry is invalid and `allocate_frame` returns -1); when that happens the pass
is the last one of the run, `simulate` returns at once in the state that pass
left, every process other than the failing one is exactly as it was on entry to
the pass, `allocated_frame_count` is 256 and the last line printed is the
out-of-memory message; `simulate` leaves through line 98 or 114 only in this
way. -/
theorem abort_stops_at_once (s : State) (hb : Bounded s) :
    (∀ (before after : List Step) (st : Step) (p : process),
      (simulate s).steps = before ++ st :: after → st.pre.procs[st.i]? = some p →
      (allocation_fails st.pre p st.page ↔ st.oom = true) ∧
      (allocation_fails st.pre p st.page →
        after = [] ∧ (simulate s).returned = true ∧ (simulate s).s = st.post ∧
        (∀ j, j ≠ st.i → (simulate s).s.procs[j]? = st.pre.procs[j]?) ∧
        (∃ q, (simulate s).s.procs[st.i]? = some q ∧ q.ref_count = p.ref_count + 1) ∧
        (simulate s).s.allocated_frame_count = 256 ∧
        (simulate s).s.out.getLast? = some .out_of_memory)) ∧
    ((simulate s).returned = true ↔ ∃ st ∈ (simulate s).steps, st.oom = true) ∧
    (∀ (u : State) (i : Nat) (p : process), 0 ≤ u.allocated_frame_count →
      p.ref_count < p.ref_len →
      ((∃ t, translate u i p = .aborted t) ↔
        allocation_fails u p (p.references.getD p.ref_count.toNat 0))) := by
  refine ⟨?_, returned_iff s, fun u i p hu hl => translate_aborts_iff u i p hu hl⟩
  intro before after st p hsteps hp
  obtain ⟨hl, _, _⟩ := simulate_linked s
  have hmem : st ∈ (simulate s).steps := by rw [hsteps]; simp
  have hiff := Step.fails_iff (Linked.steps_ok _ _ hl st hmem)
    (simulate_count_nonneg s hb.1 st hmem) hp
  refine ⟨hiff, fun hf => ?_⟩
  have ho := hiff.1 hf
  have hafter : after = [] := by
    rw [hsteps] at hl
    exact Linked.stops hl ho
  subst hafter
  have hret : (simulate s).returned = true := (returned_iff s).2 ⟨st, hmem, ho⟩
  obtain ⟨st2, h1, _, h3, h4, h5, h6, h7⟩ := returned_effect s hb hret
  have hst : st2 = st := by
    rw [hsteps] at h1
    simpa using h1.symm
  subst hst
  exact ⟨rfl, hret, h3, h4, h5 p hp, h6, h7⟩

theorem abort_stops_at_once_witness :
    Bounded five_full_state ∧ ∃ st ∈ (simulate five_full_state).steps, st.oom = true := by
  have hb : Bounded five_full_state := by unfold Bounded; decide!
  exact ⟨hb, (abort_stops_at_once five_full_state hb).2.1.1 (by decide!)⟩

theorem l1_walk_flags {s s1 : State} {p : process} {page e : Nat}
    (h0 : 0 ≤ s.allocated_frame_count) (hf : Flags s) (he : e % 4 = 0)
    (h : l1_walk s p page e = some s1) : Flags s1 := by
  rcases l1_walk_cases s p page e h0 with ⟨_, h1⟩ | ⟨_, _, h1⟩ | ⟨_, _, t, h1, _, _, _, hpas⟩
  · rw [h1] at h
    simp only [Option.some.injEq] at h
    rw [← h]; exact hf
  · rw [h1] at h; cases h
  · rw [h1] at h
    simp only [Option.some.injEq] at h
    subst h
    intro x hx
    simp only [PTE_SIZE] at hx
    have := hf x hx
    simp only [pte_vflag, PAGE_VALID, hpas, read_store, read_memset] at this ⊢
    split_ifs <;> omega

theorem l2_walk_flags {s t : State} {i : Nat} {p : process} {page l1e l2i : Nat}
    (h0 : 0 ≤ s.allocated_frame_count) (hf : Flags s)
    (h : l2_walk s i p page l1e l2i = .completed t ∨ l2_walk s i p page l1e l2i = .aborted t) :
    Flags t := by
  rcases l2_walk_cases s i p page l1e l2i h0 with ⟨_, u, h2, _, _, _, hpas⟩ |
    ⟨_, _, h2⟩ | ⟨_, _, u, h2, _, _, _, hpas⟩
  · have hu : u = t := by
      rcases h with h | h <;> rw [h2] at h <;> injection h
    subst hu
    intro x hx
    simp only [PTE_SIZE] at hx
    have := hf x hx
    simp only [pte_vflag, PAGE_VALID, hpas, read_store] at this ⊢
    split_ifs <;> omega
  · have hu : print s .out_of_memory = t := by
      rcases h with h | h <;> rw [h2] at h <;> injection h
    subst hu
    exact hf
  · have hu : u = t := by
      rcases h with h | h <;> rw [h2] at h <;> injection h
    subst hu
    intro x hx
    simp only [PTE_SIZE] at hx
    have := hf x hx
    simp only [pte_vflag, PAGE_VALID, hpas, read_store] at this ⊢
    split_ifs <;> omega

theorem translate_flags {s t : State} {i : Nat} {p : process} (hpl : Placed s)
    (hf : Flags s) (hp : s.procs[i]? = some p)
    (h : translate s i p = .completed t ∨ translate s i p = .aborted t) : Flags t := by
  have hlive : p.ref_count < p.ref_len := by
    apply translate_live
    intro hs
    rw [hs] at h
    rcases h with h | h <;> cases h
  obtain ⟨h0, _, hprocs⟩ := hpl
  obtain ⟨hk1, _, _⟩ := hprocs p (List.getElem?_mem hp)
  simp only [PAGESIZE] at hk1
  unfold translate at h
  rw [if_neg (by omega)] at h
  simp only [L2_PT_ENTRIES, PTE_SIZE] at h
  generalize p.references.getD p.ref_count.toNat 0 = page at h
  cases hl1 : l1_walk { s with procs := s.procs.set i { p with ref_count := p.ref_count + 1 } }
      { p with ref_count := p.ref_count + 1 } page (p.L1_page_table + page / 8 * 4) with
  | none =>
    rw [hl1] at h
    simp only at h
    have hu : print { s with procs := s.procs.set i { p with ref_count := p.ref_count + 1 } }
        .out_of_memory = t := by
      rcases h with h | h <;> injection h
    subst hu
    exact hf
  | some s1 =>
    rw [hl1] at h
    simp only at h
    have a := l1_walk_flags
      (s := { s with procs := s.procs.set i { p with ref_count := p.ref_count + 1 } })
      h0 hf (by omega) hl1
    exact l2_walk_flags (l1_walk_count
      (s := { s with procs := s.procs.set i { p with ref_count := p.ref_count + 1 } })
      h0 hl1) a h

theorem inv_of_placed {s : State} (hpl : Placed s) (hc : Clean s) : Inv s := by
  obtain ⟨h0, _, hprocs⟩ := hpl
  refine ⟨h0, ?_⟩
  intro p hp
  obtain ⟨a, b, c⟩ := hprocs p hp
  simp only [PAGESIZE] at a b
  simp only [VAS_PAGES] at c
  refine ⟨by omega, by omega, c, ?_⟩
  intro l1 hl1 hv
  exact (hc (p.L1_page_table + l1 * 4) (by simp only [PTE_SIZE]; omega) hv).2

/-- A valid L2 entry under a valid L1 entry is printed under its page number. -/
theorem l1_lines_mem (pas : Mem) (q : process) (page : Nat) (h : page < 64)
    (h1 : pte_vflag pas (l1_entry_of q page) = PAGE_VALID)
    (h2 : pte_vflag pas (l2_entry_of pas q page) = PAGE_VALID) :
    Line.l2_pte page (pte_frame pas (l2_entry_of pas q page))
      (pte_ref pas (l2_entry_of pas q page)) ∈ l1_lines pas q := by
  unfold l1_lines
  rw [List.mem_flatten]
  refine ⟨_, List.mem_map.2 ⟨page / 8, List.mem_range.2 (by simp only [L1_PT_ENTRIES]; omega),
    rfl⟩, ?_⟩
  simp only [l1_entry_of, l2_entry_of, L2_PT_ENTRIES, PTE_SIZE, PAGESIZE] at h1 h2 ⊢
  rw [if_pos h1]
  apply List.mem_cons_of_mem
  unfold l2_lines
  rw [List.mem_filterMap]
  refine ⟨page % 8, List.mem_range.2 (by simp only [L2_PT_ENTRIES]; omega), ?_⟩
  simp only [L2_PT_ENTRIES, PTE_SIZE, PAGESIZE]
  rw [if_pos h2]
  have e : page / 8 * 8 + page % 8 = page := by omega
  rw [e]

/-- After a completed pass through the loop body, the page it translated is in
the report of its process under its own number. -/
theorem translate_reported {s t : State} {i : Nat} {p : process} (hpl : Placed s)
    (hc : Clean s) (hf : Flags s) (hp : s.procs[i]? = some p)
    (h : translate s i p = .completed t) :
    Flags t ∧ ∃ q, t.procs[i]? = some q ∧ q.fixed = p.fixed ∧
      pte_vflag t.pas (l1_entry_of q (p.references.getD p.ref_count.toNat 0)) = PAGE_VALID ∧
      pte_vflag t.pas (l2_entry_of t.pas q (p.references.getD p.ref_count.toNat 0))
        = PAGE_VALID ∧
      Line.l2_pte (p.references.getD p.ref_count.toNat 0)
          (pte_frame t.pas (l2_entry_of t.pas q (p.references.getD p.ref_count.toNat 0)))
          (pte_ref t.pas (l2_entry_of t.pas q (p.references.getD p.ref_count.toNat 0)))
        ∈ l1_lines t.pas q := by
  have hft := translate_flags hpl hf hp (Or.inl h)
  obtain ⟨hext, ⟨q, hq, m1, m2⟩, _⟩ := translate_completed (inv_of_placed hpl hc) hp h
  have hpage : p.references.getD p.ref_count.toNat 0 < 64 := by
    obtain ⟨_, _, c⟩ := hpl.2.2 p (List.getElem?_mem hp)
    exact getD_lt c _
  obtain ⟨a, b, c⟩ := hpl.2.2 p (List.getElem?_mem hp)
  have hfx : q.fixed = p.fixed := fixed_at hext.2.1 hp hq
  have hL : q.L1_page_table = p.L1_page_table := congrArg (fun x => x.2.2.2) hfx
  simp only [PAGESIZE] at a
  have v1 : pte_vflag t.pas (l1_entry_of q (p.references.getD p.ref_count.toNat 0))
      = PAGE_VALID := by
    have := hft (l1_entry_of q (p.references.getD p.ref_count.toNat 0))
      (by simp only [l1_entry_of, L2_PT_ENTRIES, PTE_SIZE, hL]; omega)
    simp only [PAGE_VALID] at this ⊢
    omega
  have v2 : pte_vflag t.pas (l2_entry_of t.pas q (p.references.getD p.ref_count.toNat 0))
      = PAGE_VALID := by
    have := hft (l2_entry_of t.pas q (p.references.getD p.ref_count.toNat 0))
      (by simp only [l2_entry_of, L2_PT_ENTRIES, PTE_SIZE, PAGESIZE]; omega)
    simp only [PAGE_VALID] at this ⊢
    omega
  exact ⟨hft, q, hq, hfx, v1, v2, l1_lines_mem _ _ _ hpage v1 v2⟩

theorem Step.reported {st : Step} (hok : st.ok) (hpl : Placed st.pre) (hc : Clean st.pre)
    (hf : Flags st.pre) :
    Flags st.post ∧ (st.oom = false → ∃ q, st.post.procs[st.i]? = some q ∧
      pte_vflag st.post.pas (l1_entry_of q st.page) = PAGE_VALID ∧
      pte_vflag st.post.pas (l2_entry_of st.post.pas q st.page) = PAGE_VALID ∧
      Line.l2_pte st.page (pte_frame st.post.pas (l2_entry_of st.post.pas q st.page))
          (pte_ref st.post.pas (l2_entry_of st.post.pas q st.page))
        ∈ l1_lines st.post.pas q) := by
  obtain ⟨p, hp, _, hpage, htr⟩ := hok
  cases hoom : st.oom with
  | false =>
    rw [hoom] at htr
    simp only [Bool.false_eq_true, if_false] at htr
    obtain ⟨a, q, hq, _, b, c, d⟩ := translate_reported hpl hc hf hp htr
    rw [← hpage] at b c d
    exact ⟨a, fun _ => ⟨q, hq, b, c, d⟩⟩
  | true =>
    rw [hoom] at htr
    simp only [if_true] at htr
    exact ⟨translate_flags hpl hf hp (Or.inr htr), fun h => by cases h⟩

theorem translate_flags_step {st : Step} (hok : st.ok) (hpl : Placed st.pre)
    (hf : Flags st.pre) : Flags st.post := by
  obtain ⟨p, hp, _, _, htr⟩ := hok
  apply translate_flags hpl hf hp
  cases hoom : st.oom with
  | false => rw [hoom] at htr; exact Or.inl htr
  | true => rw [hoom] at htr; exact Or.inr htr

theorem step_fixed {st : Step} (hok : st.ok) (h0 : 0 ≤ st.pre.allocated_frame_count) :
    st.post.procs.map process.fixed = st.pre.procs.map process.fixed := by
  obtain ⟨p, q, hp, _, _, hpr, hfx, _⟩ := Step.effect hok h0
  rw [hpr]
  exact map_set_fixed hp hfx

/-- Every page translated in a completed pass is in the report of the state
`simulate` returns, under its own number. -/
theorem simulate_reports (s : State) (hpl : Placed s) (hc : Clean s) (hf : Flags s) :
    ∀ st ∈ (simulate s).steps, st.oom = false →
      (∃ q, st.post.procs[st.i]? = some q ∧
        Line.l2_pte st.page (pte_frame st.post.pas (l2_entry_of st.post.pas q st.page))
            (pte_ref st.post.pas (l2_entry_of st.post.pas q st.page))
          ∈ l1_lines st.post.pas q) ∧
      ∃ fr ref, Line.l2_pte st.page fr ref ∈ report_lines (simulate s).s := by
  intro st hst hoom
  obtain ⟨hl, _, hs⟩ := simulate_linked s
  have hok := Linked.steps_ok _ _ hl st hst
  obtain ⟨⟨hplpre, hfpre⟩, _⟩ := (Linked.preserved (fun t => Placed t ∧ Flags t)
    (fun x hx ⟨a, b⟩ => ⟨Placed.step hx a, translate_flags_step hx a b⟩)
    _ _ hl ⟨hpl, hf⟩).2 st hst
  obtain ⟨_, _, hk⟩ := Linked.keeps _ _ hl hpl hc
  obtain ⟨_, _, hkeep, hcpre, _⟩ := hk st hst
  obtain ⟨_, hrep⟩ := Step.reported hok hplpre hcpre hfpre
  obtain ⟨q, hq, v1, v2, hmem⟩ := hrep hoom
  refine ⟨⟨q, hq, hmem⟩, ?_⟩
  -- the fixed fields stay as they are up to the end of the run
  have hfix := Linked.preserved
    (fun t => 0 ≤ t.allocated_frame_count ∧
      t.procs.map process.fixed = s.procs.map process.fixed)
    (fun x hx ⟨a, b⟩ => ⟨by
      obtain ⟨_, _, _, _, _, _, _, _, _, hm, _⟩ := Step.effect hx a
      omega, by rw [step_fixed hx a]; exact b⟩)
    _ _ hl ⟨hpl.1, rfl⟩
  have hfin := hfix.1.2
  have hpost := (hfix.2 st hst).2.2
  have hi : st.i < (final_state (print s .sim_start) (simulate s).steps).procs.length := by
    have e1 := congrArg List.length hfin
    have e2 := congrArg List.length hpost
    simp only [List.length_map] at e1 e2
    rw [e1, ← e2]
    by_contra hc2
    rw [List.getElem?_eq_none (by omega)] at hq
    cases hq
  have hq2 := List.getElem?_eq_getElem hi
  have hfx : ((final_state (print s .sim_start) (simulate s).steps).procs[st.i]).fixed
      = q.fixed := fixed_at (hfin.trans hpost.symm) hq hq2
  have hL : ((final_state (print s .sim_start) (simulate s).steps).procs[st.i]).L1_page_table
      = q.L1_page_table := congrArg (fun x => x.2.2.2) hfx
  have hpage : st.page < 64 := by
    obtain ⟨p, hp, _, hpg, _⟩ := hok
    obtain ⟨_, _, c⟩ := hplpre.2.2 p (List.getElem?_mem hp)
    rw [hpg]
    exact getD_lt c _
  obtain ⟨a, b, _⟩ := (Placed.step hok hplpre).2.2 q (List.getElem?_mem hq)
  simp only [PAGESIZE] at a
  have hl1 : l1_entry_of ((final_state (print s .sim_start) (simulate s).steps).procs[st.i])
      st.page = l1_entry_of q st.page := by
    simp only [l1_entry_of, hL]
  obtain ⟨w1, w2⟩ := hkeep (l1_entry_of q st.page)
    (by simp only [l1_entry_of, L2_PT_ENTRIES, PTE_SIZE]; omega) (by rw [v1]; decide)
  have hl2 : l2_entry_of (final_state (print s .sim_start) (simulate s).steps).pas
      ((final_state (print s .sim_start) (simulate s).steps).procs[st.i]) st.page
      = l2_entry_of st.post.pas q st.page := by
    simp only [l2_entry_of, hl1, w2]
  obtain ⟨w3, _⟩ := hkeep (l2_entry_of st.post.pas q st.page)
    (by simp only [l2_entry_of, L2_PT_ENTRIES, PTE_SIZE, PAGESIZE]; omega) (by rw [v2]; decide)
  have hm := l1_lines_mem (final_state (print s .sim_start) (simulate s).steps).pas
    ((final_state (print s .sim_start) (simulate s).steps).procs[st.i]) st.page hpage
    (by rw [hl1, w1, v1]) (by rw [hl2, w3, v2])
  have hrl : report_lines (simulate s).s
      = report_lines (final_state (print s .sim_start) (simulate s).steps) := by
    rw [hs]
    split <;> rfl
  have hfinal : Line.l2_pte st.page
      (pte_frame (final_state (print s .sim_start) (simulate s).steps).pas
        (l2_entry_of (final_state (print s .sim_start) (simulate s).steps).pas
          ((final_state (print s .sim_start) (simulate s).steps).procs[st.i]) st.page))
      (pte_ref (final_state (print s .sim_start) (simulate s).steps).pas
        (l2_entry_of (final_state (print s .sim_start) (simulate s).steps).pas
          ((final_state (print s .sim_start) (simulate s).steps).procs[st.i]) st.page))
      ∈ report_lines (final_state (print s .sim_start) (simulate s).steps) := by
    unfold report_lines
    simp only [List.mem_append, List.mem_flatten, List.mem_map]
    left
    exact ⟨_, ⟨_, List.getElem_mem hi, rfl⟩, List.mem_cons_of_mem _ hm⟩
  rw [hrl]
  exact ⟨_, _, hfinal⟩

/-! ## Accesses to `pas` -/

theorem agree_store {a b : Mem} (h : Agree a b) (x v : Nat) :
    Agree (store a x v) (store b x v) := by
  intro y hy
  rw [read_store, read_store, h y hy]

theorem agree_memset {a b : Mem} (h : Agree a b) (base c n : Nat) :
    Agree (memset a base c n) (memset b base c n) := by
  intro y hy
  rw [read_memset, read_memset, h y hy]

theorem l1_walk_alloc (s : State) (p : process) (page e : Nat)
    (h0 : 0 ≤ s.allocated_frame_count) (hc : s.allocated_frame_count < 256)
    (hv : pte_vflag s.pas e = 0) :
    l1_walk s p page e
      = some ⟨store (store (memset s.pas (s.allocated_frame_count * 32).toNat 0 32) e
            (((s.allocated_frame_count * 32).toNat - 0) / 4 / 32 % 256)) (e + 1) 1,
          s.allocated_frame_count + 1, s.procs,
          s.out ++ [.l1_fault p.pid (p.ref_count - 1) page
            (pte_frame (store (store (memset s.pas (s.allocated_frame_count * 32).toNat 0 32) e
              (((s.allocated_frame_count * 32).toNat - 0) / 4 / 32 % 256)) (e + 1) 1) e)]⟩ := by
  unfold l1_walk
  simp only [PAGE_INVALID]
  rw [if_pos hv, allocate_pagetable_frame_ok s h0 hc]
  rfl

theorem l1_walk_sim {u s : State} (p : process) (page e : Nat) (hs : Sim u s)
    (he : e + 1 < 8192) (h0 : 0 ≤ s.allocated_frame_count) :
    (l1_walk u p page e = none ∧ l1_walk s p page e = none) ∨
    ∃ v t, l1_walk u p page e = some v ∧ l1_walk s p page e = some t ∧ Sim v t ∧
      0 ≤ t.allocated_frame_count := by
  obtain ⟨hcnt, hprocs, hout, hA⟩ := hs
  have hv : pte_vflag u.pas e = pte_vflag s.pas e := hA (e + 1) (by simp only [PAS_SIZE, PAGESIZE]; omega)
  by_cases hz : pte_vflag s.pas e = 0
  · by_cases hc : s.allocated_frame_count < 256
    · right
      refine ⟨_, _, l1_walk_alloc u p page e (by omega) (by omega) (by rw [hv]; exact hz),
        l1_walk_alloc s p page e h0 hc hz, ?_, by simp only; omega⟩
      have hA2 : Agree
          (store (store (memset u.pas (u.allocated_frame_count * 32).toNat 0 32) e
            (((u.allocated_frame_count * 32).toNat - 0) / 4 / 32 % 256)) (e + 1) 1)
          (store (store (memset s.pas (s.allocated_frame_count * 32).toNat 0 32) e
            (((s.allocated_frame_count * 32).toNat - 0) / 4 / 32 % 256)) (e + 1) 1) := by
        rw [hcnt]
        exact agree_store (agree_store (agree_memset hA _ _ _) _ _) _ _
      refine ⟨by simp only [hcnt], hprocs, ?_, hA2⟩
      simp only [hout]
      congr 3
      exact hA2 e (by simp only [PAS_SIZE, PAGESIZE]; omega)
    · left
      rcases l1_walk_cases s p page e h0 with ⟨a, _⟩ | ⟨_, _, a⟩ | ⟨_, a, _⟩
      · exact absurd hz a
      · rcases l1_walk_cases u p page e (by omega) with ⟨b, _⟩ | ⟨_, _, b⟩ | ⟨_, b, _⟩
        · rw [hv] at b; exact absurd hz b
        · exact ⟨b, a⟩
        · omega
      · omega
  · right
    rcases l1_walk_cases s p page e h0 with ⟨_, a⟩ | ⟨a, _, _⟩ | ⟨a, _, _⟩
    · rcases l1_walk_cases u p page e (by omega) with ⟨_, b⟩ | ⟨b, _, _⟩ | ⟨b, _, _⟩
      · exact ⟨u, s, b, a, ⟨hcnt, hprocs, hout, hA⟩, h0⟩
      · rw [hv] at b; exact absurd b hz
      · rw [hv] at b; exact absurd b hz
    · exact absurd a hz
    · exact absurd a hz

theorem l2_walk_hit (s : State) (i : Nat) (p : process) (page l1e l2i : Nat)
    (hv : pte_vflag s.pas (pte_frame s.pas l1e * 32 + l2i * 4) ≠ 0) :
    l2_walk s i p page l1e l2i
      = .completed ⟨store s.pas (pte_frame s.pas l1e * 32 + l2i * 4 + 2)
            ((pte_ref s.pas (pte_frame s.pas l1e * 32 + l2i * 4) + 1) % 256),
          s.allocated_frame_count, s.procs,
          s.out ++ [.l2_hit p.pid (p.ref_count - 1) page
            (pte_frame (store s.pas (pte_frame s.pas l1e * 32 + l2i * 4 + 2)
              ((pte_ref s.pas (pte_frame s.pas l1e * 32 + l2i * 4) + 1) % 256)) l1e)
            (pte_frame (store s.pas (pte_frame s.pas l1e * 32 + l2i * 4 + 2)
              ((pte_ref s.pas (pte_frame s.pas l1e * 32 + l2i * 4) + 1) % 256))
              (pte_frame s.pas l1e * 32 + l2i * 4))]⟩ := by
  unfold l2_walk
  simp only [PAGESIZE, PTE_SIZE, PAGE_INVALID]
  rw [if_neg hv]
  rfl

theorem l2_walk_fault (s : State) (i : Nat) (p : process) (page l1e l2i : Nat)
    (hv : pte_vflag s.pas (pte_frame s.pas l1e * 32 + l2i * 4) = 0)
    (h0 : 0 ≤ s.allocated_frame_count) (hc : s.allocated_frame_count < 256) :
    l2_walk s i p page l1e l2i
      = .completed ⟨store (store (store s.pas (pte_frame s.pas l1e * 32 + l2i * 4)
              (s.allocated_frame_count % 256).toNat)
            (pte_frame s.pas l1e * 32 + l2i * 4 + 1) 1)
            (pte_frame s.pas l1e * 32 + l2i * 4 + 2) 1,
          s.allocated_frame_count + 1,
          s.procs.set i { p with page_faults := p.page_faults + 1 },
          s.out ++ [.l2_fault p.pid (p.ref_count - 1) page
            (pte_frame (store (store (store s.pas (pte_frame s.pas l1e * 32 + l2i * 4)
              (s.allocated_frame_count % 256).toNat)
              (pte_frame s.pas l1e * 32 + l2i * 4 + 1) 1)
              (pte_frame s.pas l1e * 32 + l2i * 4 + 2) 1) l1e)
            s.allocated_frame_count]⟩ := by
  unfold l2_walk
  simp only [PAGESIZE, PTE_SIZE, PAGE_INVALID]
  rw [if_pos hv, allocate_frame_ok s hc]
  have h1 : ¬ s.allocated_frame_count = -1 := by omega
  simp only [if_neg h1]
  rfl

theorem l2_walk_full (s : State) (i : Nat) (p : process) (page l1e l2i : Nat)
    (hv : pte_vflag s.pas (pte_frame s.pas l1e * 32 + l2i * 4) = 0)
    (hc : 256 ≤ s.allocated_frame_count) :
    l2_walk s i p page l1e l2i = .aborted (print s .out_of_memory) := by
  unfold l2_walk
  simp only [PAGESIZE, PTE_SIZE, PAGE_INVALID]
  rw [if_pos hv, allocate_frame_full s hc]
  simp only [if_true]

theorem l2_walk_sim {u s : State} (i : Nat) (p : process) (page l1e l2i : Nat)
    (hs : Sim u s) (he : l1e < 8192) (hl : l2i < 8) (h0 : 0 ≤ s.allocated_frame_count) :
    (l2_walk u i p page l1e l2i).agrees (l2_walk s i p page l1e l2i) := by
  obtain ⟨hcnt, hprocs, hout, hA⟩ := hs
  have hin : ∀ x, x < 8192 → read u.pas x = read s.pas x := fun x hx =>
    hA x (by simp only [PAS_SIZE, PAGESIZE]; omega)
  have hf : pte_frame u.pas l1e = pte_frame s.pas l1e := hin l1e he
  have hlt := read_lt s.pas l1e
  have hb : pte_frame s.pas l1e * 32 + l2i * 4 + 3 < 8192 := by
    unfold pte_frame
    omega
  have hv : pte_vflag u.pas (pte_frame u.pas l1e * 32 + l2i * 4)
      = pte_vflag s.pas (pte_frame s.pas l1e * 32 + l2i * 4) := by
    rw [hf]
    exact hin _ (by omega)
  have hr : pte_ref u.pas (pte_frame u.pas l1e * 32 + l2i * 4)
      = pte_ref s.pas (pte_frame s.pas l1e * 32 + l2i * 4) := by
    rw [hf]
    exact hin _ (by omega)
  by_cases hz : pte_vflag s.pas (pte_frame s.pas l1e * 32 + l2i * 4) = 0
  · by_cases hc : s.allocated_frame_count < 256
    · have hu := l2_walk_fault u i p page l1e l2i (by rw [hv]; exact hz) (by omega) (by omega)
      rw [hf, hcnt] at hu
      rw [hu, l2_walk_fault s i p page l1e l2i hz h0 hc]
      have hA2 : Agree
          (store (store (store u.pas (pte_frame s.pas l1e * 32 + l2i * 4)
              (s.allocated_frame_count % 256).toNat)
            (pte_frame s.pas l1e * 32 + l2i * 4 + 1) 1)
            (pte_frame s.pas l1e * 32 + l2i * 4 + 2) 1)
          (store (store (store s.pas (pte_frame s.pas l1e * 32 + l2i * 4)
              (s.allocated_frame_count % 256).toNat)
            (pte_frame s.pas l1e * 32 + l2i * 4 + 1) 1)
            (pte_frame s.pas l1e * 32 + l2i * 4 + 2) 1) :=
        agree_store (agree_store (agree_store hA _ _) _ _) _ _
      have hfe := hA2 l1e (by simp only [PAS_SIZE, PAGESIZE]; omega)
      refine ⟨rfl, by simp only [hprocs], ?_, hA2⟩
      show u.out ++ _ = s.out ++ _
      rw [hout]
      unfold pte_frame at hfe ⊢
      rw [hfe]
    · rw [l2_walk_full u i p page l1e l2i (by rw [hv]; exact hz) (by omega),
        l2_walk_full s i p page l1e l2i hz (by omega)]
      exact ⟨hcnt, hprocs, by simp only [print, hout], hA⟩
  · have hu := l2_walk_hit u i p page l1e l2i (by rw [hv]; exact hz)
    rw [hr, hf] at hu
    rw [hu, l2_walk_hit s i p page l1e l2i hz]
    have hA2 : Agree
        (store u.pas (pte_frame s.pas l1e * 32 + l2i * 4 + 2)
          ((pte_ref s.pas (pte_frame s.pas l1e * 32 + l2i * 4) + 1) % 256))
        (store s.pas (pte_frame s.pas l1e * 32 + l2i * 4 + 2)
          ((pte_ref s.pas (pte_frame s.pas l1e * 32 + l2i * 4) + 1) % 256)) :=
      agree_store hA _ _
    have e1 := hA2 l1e (by simp only [PAS_SIZE, PAGESIZE]; omega)
    have e2 := hA2 (pte_frame s.pas l1e * 32 + l2i * 4) (by simp only [PAS_SIZE, PAGESIZE]; omega)
    refine ⟨hcnt, hprocs, ?_, hA2⟩
    show u.out ++ _ = s.out ++ _
    rw [hout]
    unfold pte_frame at e1 e2 ⊢
    rw [e1, e2]

/-- A pass through the loop body reads `pas` inside its 8192 bytes only: run on
a byte array that agrees with `pas` on these bytes, it ends the same way. -/
theorem translate_sim (s : State) (i : Nat) (p : process) (hpl : Placed s)
    (hp : s.procs[i]? = some p) (pas2 : Mem) (hA : Agree pas2 s.pas) :
    (translate { s with pas := pas2 } i p).agrees (translate s i p) := by
  obtain ⟨h0, h256, hprocs⟩ := hpl
  obtain ⟨a, b, c⟩ := hprocs p (List.getElem?_mem hp)
  simp only [PAGESIZE, PAS_FRAMES] at a b h256
  simp only [VAS_PAGES] at c
  have hpage := getD_lt c p.ref_count.toNat
  unfold translate
  by_cases hl : p.ref_count ≥ p.ref_len
  · rw [if_pos hl, if_pos hl]
    trivial
  · rw [if_neg hl, if_neg hl]
    simp only [L2_PT_ENTRIES, PTE_SIZE]
    generalize p.references.getD p.ref_count.toNat 0 = page at hpage
    rcases l1_walk_sim
        (u := ⟨pas2, s.allocated_frame_count,
          s.procs.set i { p with ref_count := p.ref_count + 1 }, s.out⟩)
        (s := { s with procs := s.procs.set i { p with ref_count := p.ref_count + 1 } })
        { p with ref_count := p.ref_count + 1 } page (p.L1_page_table + page / 8 * 4)
        ⟨rfl, rfl, rfl, hA⟩ (by omega) h0 with
      ⟨e1, e2⟩ | ⟨v, t, e1, e2, hs, ht0⟩
    · rw [e1, e2]
      exact ⟨rfl, rfl, rfl, hA⟩
    · rw [e1, e2]
      exact l2_walk_sim i _ page _ _ hs (by omega) (by omega) ht0

theorem l1_walk_frame {s s1 : State} {p : process} {page e : Nat}
    (h0 : 0 ≤ s.allocated_frame_count) (he : e + 1 < 8192)
    (h : l1_walk s p page e = some s1) :
    ∀ x, 8192 ≤ x → read s1.pas x = read s.pas x := by
  rcases l1_walk_cases s p page e h0 with ⟨_, h1⟩ | ⟨_, _, h1⟩ | ⟨_, hc, t, h1, _, _, _, hpas⟩
  · rw [h1] at h
    simp only [Option.some.injEq] at h
    rw [← h]
    exact fun _ _ => rfl
  · rw [h1] at h; cases h
  · rw [h1] at h
    simp only [Option.some.injEq] at h
    subst h
    intro x hx
    rw [hpas, read_store, read_store, read_memset, if_neg (by omega), if_neg (by omega),
      if_neg (by omega)]

theorem l2_walk_frame {s t : State} {i : Nat} {p : process} {page l1e l2i : Nat}
    (h0 : 0 ≤ s.allocated_frame_count) (hl : l2i < 8)
    (h : l2_walk s i p page l1e l2i = .completed t ∨ l2_walk s i p page l1e l2i = .aborted t) :
    ∀ x, 8192 ≤ x → read t.pas x = read s.pas x := by
  have hlt := read_lt s.pas l1e
  have hb : pte_frame s.pas l1e * 32 + l2i * 4 + 3 < 8192 := by
    unfold pte_frame
    omega
  rcases l2_walk_cases s i p page l1e l2i h0 with ⟨_, u, h2, _, _, _, hpas⟩ |
    ⟨_, _, h2⟩ | ⟨_, _, u, h2, _, _, _, hpas⟩
  · have hu : u = t := by
      rcases h with h | h <;> rw [h2] at h <;> injection h
    subst hu
    intro x hx
    rw [hpas, read_store, if_neg (by omega)]
  · have hu : print s .out_of_memory = t := by
      rcases h with h | h <;> rw [h2] at h <;> injection h
    subst hu
    exact fun _ _ => rfl
  · have hu : u = t := by
      rcases h with h | h <;> rw [h2] at h <;> injection h
    subst hu
    intro x hx
    rw [hpas, read_store, read_store, read_store, if_neg (by omega), if_neg (by omega),
      if_neg (by omega)]

/-- A pass through the loop body writes `pas` inside its 8192 bytes only. -/
theorem translate_frame {s t : State} {i : Nat} {p : process} (hpl : Placed s)
    (hp : s.procs[i]? = some p)
    (h : translate s i p = .completed t ∨ translate s i p = .aborted t) :
    ∀ x, 8192 ≤ x → read t.pas x = read s.pas x := by
  have hlive : p.ref_count < p.ref_len := by
    apply translate_live
    intro hs
    rw [hs] at h
    rcases h with h | h <;> cases h
  obtain ⟨h0, h256, hprocs⟩ := hpl
  obtain ⟨a, b, c⟩ := hprocs p (List.getElem?_mem hp)
  simp only [PAGESIZE, PAS_FRAMES] at a b h256
  simp only [VAS_PAGES] at c
  have hpage := getD_lt c p.ref_count.toNat
  unfold translate at h
  rw [if_neg (by omega)] at h
  simp only [L2_PT_ENTRIES, PTE_SIZE] at h
  generalize p.references.getD p.ref_count.toNat 0 = page at h hpage
  cases hl1 : l1_walk { s with procs := s.procs.set i { p with ref_count := p.ref_count + 1 } }
      { p with ref_count := p.ref_count + 1 } page (p.L1_page_table + page / 8 * 4) with
  | none =>
    rw [hl1] at h
    simp only at h
    have hu : print { s with procs := s.procs.set i { p with ref_count := p.ref_count + 1 } }
        .out_of_memory = t := by
      rcases h with h | h <;> injection h
    subst hu
    exact fun _ _ => rfl
  | some s1 =>
    rw [hl1] at h
    simp only at h
    have f1 := l1_walk_frame
      (s := { s with procs := s.procs.set i { p with ref_count := p.ref_count + 1 } })
      h0 (by omega) hl1
    have f2 := l2_walk_frame (l1_walk_count
      (s := { s with procs := s.procs.set i { p with ref_count := p.ref_count + 1 } })
      h0 hl1) (by omega) h
    intro x hx
    rw [f2 x hx, f1 x hx]

/-- C18: when the L1 tables are frames below `allocated_frame_count`, the
counter is at most 256 and every referenced page is below 64, then at every
reference processed in the run of `simulate`: the page is below 64; the L1
entry `L1 table + (page / 8) * 4` and the L2 entry `frame * 32 + (page % 8) * 4`
(whatever byte the L1 entry holds as its frame) end inside the 8192 bytes of
`pas`, and so does a frame zeroed by `allocate_pagetable_frame`; the pass
through the loop body leaves every byte outside `pas` as it was, so it writes
inside `pas` only; and run on a byte array that holds the same 8192 bytes it
ends the same way with the same output in a state with the same 8192 bytes, so
it reads inside `pas` only. -/
theorem accesses_inside_pas (s : State) (hpl : Placed s) :
    ∀ st ∈ (simulate s).steps, ∃ p, st.pre.procs[st.i]? = some p ∧
      st.page < VAS_PAGES ∧
      l1_entry_of p st.page + PTE_SIZE ≤ PAS_SIZE ∧
      (∀ pas : Mem, l2_entry_of pas p st.page + PTE_SIZE ≤ PAS_SIZE) ∧
      (∀ (v u : State) (a : Nat),
        v.allocated_frame_count = st.pre.allocated_frame_count →
        allocate_pagetable_frame v = (some a, u) → a + PAGESIZE ≤ PAS_SIZE) ∧
      (∀ x, PAS_SIZE ≤ x → read st.post.pas x = read st.pre.pas x) ∧
      (∀ pas2 : Mem, Agree pas2 st.pre.pas →
        (translate { st.pre with pas := pas2 } st.i p).agrees (translate st.pre st.i p)) ∧
      translate st.pre st.i p
        = (if st.oom then Outcome.aborted st.post else Outcome.completed st.post) := by
  intro st hst
  obtain ⟨hl, _, _⟩ := simulate_linked s
  have hplpre := ((Linked.preserved Placed (fun x hok hx => Placed.step hok hx)
    _ _ hl hpl).2 st hst).1
  obtain ⟨h0, h1, h2⟩ := hplpre
  obtain ⟨p, hp, _, hpage, htr⟩ := Linked.steps_ok _ _ hl st hst
  obtain ⟨a, b, c⟩ := h2 p (List.getElem?_mem hp)
  simp only [VAS_PAGES] at c
  have hlt : st.page < 64 := by rw [hpage]; exact getD_lt c _
  simp only [PAGESIZE, PAS_FRAMES] at a b h1
  refine ⟨p, hp, hlt, ?_, ?_, ?_, ?_, ?_, htr⟩
  · simp only [l1_entry_of, L2_PT_ENTRIES, PTE_SIZE, PAS_SIZE, PAGESIZE]
    omega
  · intro pas
    have := read_lt pas (l1_entry_of p st.page)
    simp only [l2_entry_of, pte_frame, L2_PT_ENTRIES, PTE_SIZE, PAS_SIZE, PAGESIZE]
    omega
  · intro v u x hv hx
    by_cases hc : v.allocated_frame_count < 256
    · rw [allocate_pagetable_frame_ok v (by omega) hc] at hx
      simp only [Prod.mk.injEq, Option.some.injEq] at hx
      simp only [PAGESIZE, PAS_SIZE]
      omega
    · rw [allocate_pagetable_frame_full v (by omega)] at hx
      simp only [Prod.mk.injEq, reduceCtorEq, false_and] at hx
  · intro x hx
    simp only [PAS_SIZE, PAGESIZE] at hx
    apply translate_frame ⟨h0, by simp only [PAS_FRAMES]; exact h1, h2⟩ hp _ x (by omega)
    cases hoom : st.oom with
    | false => rw [hoom] at htr; exact Or.inl htr
    | true => rw [hoom] at htr; exact Or.inr htr
  · intro pas2 hA
    exact translate_sim st.pre st.i p ⟨h0, by simp only [PAS_FRAMES]; exact h1, h2⟩ hp pas2 hA

theorem accesses_inside_pas_witness :
    Placed scenario_state ∧
    ∀ st ∈ (simulate scenario_state).steps,
      ∀ x, PAS_SIZE ≤ x → read st.post.pas x = read st.pre.pas x :=
  ⟨by unfold Placed; decide!, fun st hst =>
    let ⟨_, _, _, _, _, _, h, _⟩ :=
      accesses_inside_pas scenario_state (by unfold Placed; decide!) st hst
    h⟩

theorem loaded_flags {input : List (Int × List Nat)} {s : State}
    (h : loaded input = some s) : Flags s := by
  obtain ⟨s2, hs2, _, _, _, hf, _⟩ := loaded_fresh input
  rw [h] at hs2
  simp only [Option.some.injEq] at hs2
  subst hs2
  intro e _
  unfold pte_vflag
  rw [hf.2.1]
  decide

/-- C16: for every page below 64, `page / 8` and `page % 8` are below 8 and
`(page / 8) * 8 + page % 8` is the page.  These are the indices the loop body of
`simulate` uses: after a completed pass for the page, the entry with index
`page / 8` of the L1 table of the process and the entry with index `page % 8` of
the table in the frame recorded there are valid.  They are the indices
`print_page_tables` recomposes: the lines it prints for the process include the
line of the page, under the number of the page, and so does the report at the
end of the run of `main` for every page referenced in a completed pass. -/
theorem page_number_round_trip (page : Nat) (h : page < VAS_PAGES) :
    page / L2_PT_ENTRIES < L1_PT_ENTRIES ∧ page % L2_PT_ENTRIES < L2_PT_ENTRIES ∧
    page / L2_PT_ENTRIES * L2_PT_ENTRIES + page % L2_PT_ENTRIES = page ∧
    (∀ (s t : State) (i : Nat) (p : process), Placed s → Clean s → Flags s →
      s.procs[i]? = some p → p.references.getD p.ref_count.toNat 0 = page →
      translate s i p = .completed t →
      ∃ q, t.procs[i]? = some q ∧ q.L1_page_table = p.L1_page_table ∧
        pte_vflag t.pas (q.L1_page_table + page / L2_PT_ENTRIES * PTE_SIZE) = PAGE_VALID ∧
        pte_vflag t.pas
            (pte_frame t.pas (q.L1_page_table + page / L2_PT_ENTRIES * PTE_SIZE) * PAGESIZE
              + page % L2_PT_ENTRIES * PTE_SIZE) = PAGE_VALID ∧
        ∃ fr ref, Line.l2_pte page fr ref ∈ l1_lines t.pas q) ∧
    (∀ (pas : Mem) (fr : Nat),
      pte_vflag pas (fr * PAGESIZE + page % L2_PT_ENTRIES * PTE_SIZE) = PAGE_VALID →
      Line.l2_pte page (pte_frame pas (fr * PAGESIZE + page % L2_PT_ENTRIES * PTE_SIZE))
          (pte_ref pas (fr * PAGESIZE + page % L2_PT_ENTRIES * PTE_SIZE))
        ∈ l2_lines pas (page / L2_PT_ENTRIES) fr) ∧
    (∀ (input : List (Int × List Nat)) (s : State),
      (∀ r ∈ input, ∀ pg ∈ r.2, pg < 64) → loaded input = some s →
      ∀ st ∈ (simulate s).steps, st.page = page → st.oom = false →
      ∃ fr ref, Line.l2_pte page fr ref ∈ report_lines (simulate s).s ∧
        Line.l2_pte page fr ref ∈ (main input).2.out) := by
  simp only [VAS_PAGES] at h
  refine ⟨by simp only [L2_PT_ENTRIES, L1_PT_ENTRIES]; omega,
    by simp only [L2_PT_ENTRIES]; omega, by simp only [L2_PT_ENTRIES]; omega, ?_, ?_, ?_⟩
  · intro s t i p hpl hc hf hp hpage htr
    obtain ⟨_, q, hq, hfx, v1, v2, hm⟩ := translate_reported hpl hc hf hp htr
    rw [hpage] at v1 v2 hm
    exact ⟨q, hq, congrArg (fun x => x.2.2.2) hfx, v1, v2, _, _, hm⟩
  · intro pas fr hv
    unfold l2_lines
    rw [List.mem_filterMap]
    refine ⟨page % L2_PT_ENTRIES, ?_, ?_⟩
    · rw [List.mem_range]
      simp only [L2_PT_ENTRIES]; omega
    · simp only []
      rw [if_pos hv]
      have e : page / L2_PT_ENTRIES * L2_PT_ENTRIES + page % L2_PT_ENTRIES = page := by
        simp only [L2_PT_ENTRIES]; omega
      rw [e]
  · intro input s hpages hs st hst hpg hoom
    obtain ⟨hpl, hc⟩ := loaded_placed hpages hs
    obtain ⟨_, fr, ref, hm⟩ := simulate_reports s hpl hc (loaded_flags hs) st hst hoom
    rw [hpg] at hm
    refine ⟨fr, ref, hm, ?_⟩
    obtain ⟨s2, hs2, _, _, hmain, _, _⟩ := loaded_fresh input
    rw [hs] at hs2
    simp only [Option.some.injEq] at hs2
    subst hs2
    rw [hmain]
    exact List.mem_append_right _ hm

theorem page_number_round_trip_witness :
    (63 : Nat) < VAS_PAGES ∧ 63 / L2_PT_ENTRIES * L2_PT_ENTRIES + 63 % L2_PT_ENTRIES = 63 :=
  ⟨by decide, (page_number_round_trip 63 (by decide)).2.2.1⟩

/-! ## Runs on concrete inputs -/

set_option maxRecDepth 100000 in
/-- C1: on the input `one_page` the only reference, the first one to page 0,
does not take the L2-miss branch: the one frame it allocates is the L2 table
(counter 1 to 2), `page_faults` stays 0 and the line printed after the L1 line
is the hit line. -/
theorem first_reference_is_hit :
    (run_steps one_page).map (fun st => (st.i, st.page, st.oom)) = [(0, 0, false)] ∧
    (run_steps one_page).map (fun st =>
      (st.pre.allocated_frame_count, st.post.allocated_frame_count)) = [(1, 2)] ∧
    (run_steps one_page).map (fun st =>
      (st.pre.procs.map (fun p => p.page_faults), st.post.procs.map (fun p => p.page_faults)))
      = [([0], [0])] ∧
    (main one_page).2.out
      = [.load_start, .proc_header 1 1, .proc_refs [0], .load_end, .sim_start,
         .l1_fault 1 0 0 0, .l2_hit 1 0 0 0 0, .sim_end,
         .proc_summary 1 1 0 1, .l1_pte 0 0, .l2_pte 0 0 1, .total 2 0 1] := by
  decide!

set_option maxRecDepth 100000 in
/-- C2: on the input `one_page` the process ends with `page_faults = 0` although
its reference sequence holds one distinct page. -/
theorem page_faults_below_distinct_pages :
    (main one_page).2.procs.map (fun p => (p.page_faults, p.references.dedup.length))
      = [(0, 1)] := by
  decide!

set_option maxRecDepth 100000 in
/-- C3: on the input `one_page` the L1 entry selected by the reference is invalid
and `allocate_pagetable_frame` places the table in frame 1 (byte offset 32), but
the L1 entry is written with frame 0; the L2 entry then used is the one at offset
0 (its `ref` goes from 0 to 1), not entry 0 of frame 1, which stays zero. -/
theorem l1_entry_frame_wrong :
    (run_steps one_page).map (fun st =>
      (pte_vflag st.pre.pas 0, (allocate_pagetable_frame st.pre).1)) = [(0, some (1 * 32))] ∧
    (run_steps one_page).map (fun st =>
      (pte_vflag st.post.pas 0, pte_frame st.post.pas 0)) = [(1, 0)] ∧
    (run_steps one_page).map (fun st =>
      (pte_ref st.pre.pas (0 * 32 + 0 % 8 * 4), pte_ref st.post.pas (0 * 32 + 0 % 8 * 4)))
      = [(0, 1)] ∧
    (run_steps one_page).map (fun st =>
      (pte_vflag st.post.pas (1 * 32 + 0 % 8 * 4), pte_ref st.post.pas (1 * 32 + 0 % 8 * 4)))
      = [(0, 0)] := by
  decide!

set_option maxRecDepth 100000 in
/-- C4: after the run on `one_page` frame 0 is the L1 table of the process, the
frame recorded in its valid L1 entry and the frame recorded in a valid entry of
that table: the frames in use are not pairwise distinct. -/
theorem frame_serves_two_structures :
    frames_in_use (main one_page).2 = [0, 0, 0] ∧
    ¬ (frames_in_use (main one_page).2).Nodup := by
  decide!

set_option maxRecDepth 100000 in
/-- C5: in the run on the references 0, 1, 0 the state before the third
reference has L1 entry 1 of the process valid, although the references consumed
so far are 0 and 1, none of which has L1 index 1, and although the only L2
table allocated (frame 1) was allocated for L1 index 0. -/
theorem l1_entry_valid_without_reference :
    (run_steps [(1, [0, 1, 0])]).map (fun st =>
      (st.pre.procs.map (fun p =>
        (p.references.take p.ref_count.toNat, pte_vflag st.pre.pas (p.L1_page_table + 1 * 4))),
       st.pre.allocated_frame_count))
      = [([([], 0)], 1), ([([0], 0)], 2), ([([0, 1], 1)], 3)] := by
  decide!

set_option maxRecDepth 100000 in
/-- C7: the run on `scenario` prints an L1 fault and then a hit for page 0, an
L2 fault for page 1, an L2 fault without an L1 fault for page 8 and a hit for
page 0, and ends with `page_faults = 2` and `ref_count = 4`. -/
theorem scenario_run :
    (main scenario).2.out
      = [.load_start, .proc_header 1 4, .proc_refs [0, 1, 8, 0], .load_end, .sim_start,
         .l1_fault 1 0 0 0, .l2_hit 1 0 0 0 0,
         .l2_fault 1 1 1 0 2,
         .l2_fault 1 2 8 2 3,
         .l2_hit 1 3 0 0 0,
         .sim_end,
         .proc_summary 1 3 2 4, .l1_pte 0 0, .l2_pte 0 0 2, .l2_pte 1 2 1,
         .l1_pte 1 2, .l2_pte 8 3 1, .total 4 2 4] ∧
    (main scenario).2.procs.map (fun p => (p.page_faults, p.ref_count)) = [(2, 4)] := by
  decide!

set_option maxRecDepth 1000000 in
set_option maxHeartbeats 0 in
/-- C10: on the input `five_full` loading succeeds, an allocation fails during
`simulate` (it leaves through the `return` of line 98 or 114), and `main` goes
on to `print_page_tables` and returns 0: its output is the output of `simulate`
followed by the report, with the five process lines and the total line. -/
theorem report_after_out_of_memory :
    loaded five_full = some five_full_state ∧
    (simulate five_full_state).returned = true ∧
    (main five_full).1 = 0 ∧
    (main five_full).2.out
      = (simulate five_full_state).s.out ++ report_lines (simulate five_full_state).s ∧
    (report_lines (simulate five_full_state).s).filter Line.is_summary
      = [.proc_summary 1 63 62 62, .proc_summary 2 47 46 62, .proc_summary 3 45 44 62,
         .proc_summary 4 46 45 61, .proc_summary 5 30 29 61, .total 256 226 308] :=
  ⟨rfl, by decide!, rfl, rfl, by decide!⟩

end OsHw
